import Mathlib

/-!
# Verification of the competitor group-partitioner

Shallow embedding of the TypeScript partitioning engine:

* data model (`Competitor`, `PartitionOptions`) and option sanitation
  (`src/common/options-validator.ts`),
* scoring (`calculateScore` in the utils module),
* family grouping (`createGuardianFamilies`),
* weighted feature distance (`calculateWeightedDistance` in the clustering
  module),
* the greedy MIP heuristic (`SimpleMIPSolver.solveGreedy` / `solveMIP`),
* the clustering pipeline (`solveClustering`, including `adjustClusterSizes`).

Modelling conventions, used throughout and noted at each definition:

* JavaScript numbers are modelled as exact rationals (`ℚ`); the integer-valued
  size/count options are modelled as `Int`.  None of the verified properties
  depends on floating-point rounding.
* A JavaScript division whose divisor is zero produces a non-finite value
  (`NaN` for `0/0`, signed infinity otherwise); both are collapsed into `none`
  of an `Option ℚ`, and arithmetic on such values propagates `none` the way
  `NaN`/infinity contaminate sums.
* `Math.sqrt` is not exactly representable on `ℚ`.  The source only ever uses
  distances inside order comparisons (arg-min selections) and squares them
  again in k-means++ seeding; since `Real.sqrt` is strictly monotone on
  non-negative arguments, the embedding works with the *squared* distances
  everywhere, which leaves every comparison in the program unchanged.
* `Math.random()` is modelled by an explicit stream of rationals threaded
  through the computation; theorems quantify over the stream.
-/

/-- An input entity (`Competitor` in `src/types.ts`): an id, three categorical
attributes and an optional guardian reference. -/
structure Competitor where
  id : String
  equipmentClass : String
  ageCategory : String
  gender : String
  guardianId : Option String
deriving DecidableEq, Repr

/-- JavaScript truthiness of the optional `guardianId` field: `undefined` and
the empty string are falsy. -/
def truthyId : Option String → Bool
  | some s => s != ""
  | none => false

/-- User-supplied options (`PartitionOptions` in `src/types.ts`): every field
is optional; `none` means the field is absent from the options object. -/
structure PartitionOptions where
  groupByEquipmentClass : Option Bool := none
  maxSubsets : Option Int := none
  minSubsetSize : Option Int := none
  maxSubsetSize : Option Int := none
  preferredSubsetSize : Option Int := none
  genderWeight : Option ℚ := none
  ageCategoryWeight : Option ℚ := none
  equipmentClassWeight : Option ℚ := none
deriving Repr

/-- A fully populated configuration (`Required<PartitionOptions>`). -/
structure Config where
  groupByEquipmentClass : Bool
  maxSubsets : Int
  minSubsetSize : Int
  maxSubsetSize : Int
  preferredSubsetSize : Int
  genderWeight : ℚ
  ageCategoryWeight : ℚ
  equipmentClassWeight : ℚ
deriving Repr, DecidableEq

/-- `DEFAULT_OPTIONS` from the utils module. -/
def defaultConfig : Config :=
  { groupByEquipmentClass := true
    maxSubsets := 28
    minSubsetSize := 2
    maxSubsetSize := 6
    preferredSubsetSize := 4
    genderWeight := 1
    ageCategoryWeight := 1
    equipmentClassWeight := 1 }

/-- The spread-merge `{ ...DEFAULT_OPTIONS, ...options }`: absent fields take
their default values. -/
def mergeWithDefaults (o : PartitionOptions) : Config :=
  { groupByEquipmentClass := o.groupByEquipmentClass.getD defaultConfig.groupByEquipmentClass
    maxSubsets := o.maxSubsets.getD defaultConfig.maxSubsets
    minSubsetSize := o.minSubsetSize.getD defaultConfig.minSubsetSize
    maxSubsetSize := o.maxSubsetSize.getD defaultConfig.maxSubsetSize
    preferredSubsetSize := o.preferredSubsetSize.getD defaultConfig.preferredSubsetSize
    genderWeight := o.genderWeight.getD defaultConfig.genderWeight
    ageCategoryWeight := o.ageCategoryWeight.getD defaultConfig.ageCategoryWeight
    equipmentClassWeight := o.equipmentClassWeight.getD defaultConfig.equipmentClassWeight }

/-- The sanitation steps of `validateAndSanitizeOptions`
(`src/common/options-validator.ts`, lines 27-56), applied to the merged
configuration: swap inverted min/max, raise the minimum to 2, raise the
maximum to the minimum, clamp the preferred size into the bounds, and clamp
the maximum size to 4 when the batch has at most 112 competitors. -/
def sanitizeSteps (c : Config) (competitorCount : Nat) : Config :=
  -- swap if `minSubsetSize > maxSubsetSize` (written per field)
  let mn1 := if c.maxSubsetSize < c.minSubsetSize then c.maxSubsetSize else c.minSubsetSize
  let mx1 := if c.maxSubsetSize < c.minSubsetSize then c.minSubsetSize else c.maxSubsetSize
  -- ensure the minimum size is at least 2
  let mn2 := if mn1 < 2 then 2 else mn1
  -- ensure the maximum size is at least the minimum
  let mx2 := if mx1 < mn2 then mn2 else mx1
  -- clamp the preferred size into the bounds
  let p1 := if c.preferredSubsetSize < mn2 then mn2 else c.preferredSubsetSize
  let p2 := if mx2 < p1 then mx2 else p1
  -- with at most 112 competitors, the maximum subset size is clamped to 4
  let mx3 := if competitorCount ≤ 112 then min mx2 4 else mx2
  { c with minSubsetSize := mn2, maxSubsetSize := mx3, preferredSubsetSize := p2 }

/-- `validateAndSanitizeOptions(options, competitorCount)`: merge with the
defaults, then sanitize. -/
def validateAndSanitizeOptions (o : PartitionOptions) (competitorCount : Nat) : Config :=
  sanitizeSteps (mergeWithDefaults o) competitorCount

/-- C5 counterexample options: `minSubsetSize = 5`, `maxSubsetSize = 6`. -/
def c5Options : PartitionOptions :=
  { minSubsetSize := some 5, maxSubsetSize := some 6 }

/-! ## Scoring engine (`calculateScore`, utils module lines 75-144) -/

/-- JavaScript division: a zero divisor produces a non-finite value (`NaN` for
`0/0`, a signed infinity otherwise), collapsed to `none`. -/
def jsDiv (a b : ℚ) : Option ℚ := if b = 0 then none else some (a / b)

/-- Addition on JavaScript numbers: a non-finite operand contaminates the sum
(the source only ever adds `NaN`/infinity to finite values, where this is
exact). -/
def optAdd : Option ℚ → Option ℚ → Option ℚ
  | some a, some b => some (a + b)
  | _, _ => none

/-- Summing a list of per-group contributions the way the source accumulates
them into a running score variable. -/
def optSum (l : List (Option ℚ)) : Option ℚ := l.foldl optAdd (some 0)

/-- Sum of `f` applied to the count of each distinct value of `l` — the
`Map`-based tally loops of `calculateScore` (`for (const count of
genderCounts.values())` and friends).  Insertion order of the `Map` is the
first-occurrence order of the values; only the multiset of counts matters to
every caller. -/
def tallySum (l : List String) (f : ℕ → ℕ) : ℕ :=
  (l.dedup.map (fun v => f (l.count v))).sum

/-- Largest count among the distinct values of `l`
(`Math.max(...counts.values())`).  For the empty list the source yields
`-Infinity`, which every caller immediately divides by the (then zero) group
size, collapsing to `none`; the `0` default never reaches a finite result. -/
def tallyMax (l : List String) : ℕ :=
  (l.dedup.map (fun v => l.count v)).foldr max 0

/-- Per-group size preference sub-score:
`Math.max(0, 10 - sizeDeviation * 2)`. -/
def groupSizeScore (opts : Config) (g : List Competitor) : ℚ :=
  max 0 (10 - |(g.length : ℚ) - (opts.preferredSubsetSize : ℚ)| * 2)

/-- Total of the gender counts that are even (`genderBalance` accumulator). -/
def genderBalance (g : List Competitor) : ℕ :=
  tallySum (g.map (fun c => c.gender)) (fun c => if c % 2 = 0 then c else 0)

/-- Per-group gender balance sub-score: `(genderBalance / size) * 10`. -/
def groupGenderScore (g : List Competitor) : Option ℚ :=
  (jsDiv (genderBalance g) g.length).map (fun x => x * 10)

/-- Largest same-age-category count within a group. -/
def maxAgeCategoryCount (g : List Competitor) : ℕ :=
  tallyMax (g.map (fun c => c.ageCategory))

/-- Per-group age homogeneity sub-score: `(maxAgeCount / size) * 10`. -/
def groupAgeScore (g : List Competitor) : Option ℚ :=
  (jsDiv (maxAgeCategoryCount g) g.length).map (fun x => x * 10)

/-- Largest same-equipment-class count within a group. -/
def maxEquipmentCount (g : List Competitor) : ℕ :=
  tallyMax (g.map (fun c => c.equipmentClass))

/-- Number of distinct equipment classes within a group. -/
def uniqueEquipmentCount (g : List Competitor) : ℕ :=
  (g.map (fun c => c.equipmentClass)).dedup.length

/-- Per-group equipment sub-score: homogeneity (`groupByEquipmentClass`) or
diversity (`(uniqueCount / Math.min(size, 3)) * 10`). -/
def groupEquipmentScore (opts : Config) (g : List Competitor) : Option ℚ :=
  if opts.groupByEquipmentClass then
    (jsDiv (maxEquipmentCount g) g.length).map (fun x => x * 10)
  else
    (jsDiv (uniqueEquipmentCount g) (min g.length 3 : ℕ)).map (fun x => x * 10)

/-- The four averaged components of a partition score
(`PartitionResult['metadata']['scoreBreakdown']`). -/
structure ScoreBreakdown where
  sizeScore : Option ℚ
  genderScore : Option ℚ
  ageCategoryScore : Option ℚ
  equipmentClassScore : Option ℚ
deriving Repr, DecidableEq

/-- `calculateScore(subsets, options)` (utils module lines 75-144): per-group
sub-scores are accumulated, averaged over the number of subsets, the
gender/age/equipment averages are multiplied by their configured weights, and
the four results are summed into the total.  The source merges its partial
options argument with the defaults; every call site modelled here already
passes a fully populated configuration, for which that merge is the
identity. -/
def calculateScore (subsets : List (List Competitor)) (opts : Config) :
    Option ℚ × ScoreBreakdown :=
  let totalSubsets : ℚ := subsets.length
  let sizeSum : ℚ := (subsets.map (groupSizeScore opts)).sum
  let genderSum := optSum (subsets.map groupGenderScore)
  let ageSum := optSum (subsets.map groupAgeScore)
  let equipSum := optSum (subsets.map (groupEquipmentScore opts))
  let breakdown : ScoreBreakdown :=
    { sizeScore := jsDiv sizeSum totalSubsets
      genderScore :=
        (genderSum.bind (fun x => jsDiv x totalSubsets)).map (fun x => x * opts.genderWeight)
      ageCategoryScore :=
        (ageSum.bind (fun x => jsDiv x totalSubsets)).map (fun x => x * opts.ageCategoryWeight)
      equipmentClassScore :=
        (equipSum.bind (fun x => jsDiv x totalSubsets)).map
          (fun x => x * opts.equipmentClassWeight) }
  (optAdd (optAdd (optAdd breakdown.sizeScore breakdown.genderScore)
      breakdown.ageCategoryScore) breakdown.equipmentClassScore,
    breakdown)

/-- `createPartitionResult` (utils module lines 149-166). -/
structure PartitionResult where
  subsets : List (List Competitor)
  score : Option ℚ
  scoreBreakdown : ScoreBreakdown
  totalCompetitors : ℕ
  totalSubsets : ℕ
  averageSubsetSize : Option ℚ
deriving Repr, DecidableEq

/-- `createPartitionResult(subsets, options)`. -/
def createPartitionResult (subsets : List (List Competitor)) (opts : Config) :
    PartitionResult :=
  let sb := calculateScore subsets opts
  { subsets := subsets
    score := sb.1
    scoreBreakdown := sb.2
    totalCompetitors := (subsets.map List.length).sum
    totalSubsets := subsets.length
    averageSubsetSize := jsDiv ((subsets.map List.length).sum : ℚ) (subsets.length : ℚ) }

/-- `handleEmptyDataset` (`src/common/algorithm-base.ts`, lines 12-23):
sanitize the options against a competitor count of 0 and build the result for
an empty subsets list. -/
def handleEmptyDataset (o : PartitionOptions) : PartitionResult :=
  createPartitionResult [] (validateAndSanitizeOptions o 0)

/-- Witness competitors for concrete evaluations. -/
def wcA : Competitor := ⟨"001", "HB", "A", "M", none⟩

/-- Second witness competitor. -/
def wcB : Competitor := ⟨"002", "LB", "J", "F", none⟩

/-- Third witness competitor. -/
def wcC : Competitor := ⟨"003", "HB", "A", "F", none⟩

/-! ## Family grouper (`createGuardianFamilies`, utils module lines 197-243) -/

/-- The dependents recorded for a guardian id: the entry
`guardianToDependents.get(gid)`, built from every competitor with a truthy
`guardianId`, in input order. -/
def dependentsOf (cs : List Competitor) (gid : String) : List Competitor :=
  cs.filter (fun d => truthyId d.guardianId && d.guardianId == some gid)

/-- `guardianToDependents.has(cid)`: some competitor names `cid` as its
guardian. -/
def isGuardianKey (cs : List Competitor) (cid : String) : Bool :=
  cs.any (fun d => truthyId d.guardianId && d.guardianId == some cid)

/-- `dependentToGuardian.has(cid)`: some competitor with id `cid` has a truthy
guardian reference. -/
def isDependentKey (cs : List Competitor) (cid : String) : Bool :=
  cs.any (fun d => truthyId d.guardianId && d.id == cid)

/-- One iteration of the `createGuardianFamilies` main loop; the accumulator
carries the emitted families and the `processed` id set. -/
def cgfStep (cs : List Competitor) (acc : List (List Competitor) × List String)
    (c : Competitor) : List (List Competitor) × List String :=
  if c.id ∈ acc.2 then acc
  else if isGuardianKey cs c.id then
    let family := c :: dependentsOf cs c.id
    (acc.1 ++ [family], acc.2 ++ family.map (fun m => m.id))
  else if isDependentKey cs c.id then acc
  else (acc.1 ++ [[c]], acc.2 ++ [c.id])

/-- `createGuardianFamilies(competitors)`: fold the main loop over the input
order, starting from no emitted families and an empty `processed` set. -/
def createGuardianFamilies (cs : List Competitor) : List (List Competitor) :=
  (cs.foldl (cgfStep cs) ([], [])).1

/-- C10 witness competitor: a dangling guardian reference. -/
def wcDangling : Competitor := ⟨"010", "HB", "A", "M", some "999"⟩

/-! ## Feature encoder distances (clustering module lines 68-108)

The source returns `Math.sqrt(sum)`; all verified statements compare or equate
distances, and `Real.sqrt` is injective and strictly monotone on the
non-negative sums involved, so the embedding works with the squared
distances. -/

/-- Element of a feature vector at index `i`; JavaScript reads past the end of
an array as `undefined`, which never happens on the equal-length vectors the
program builds, so the default `0` is unreachable at every call site. -/
def featAt (f : List ℚ) (i : ℕ) : ℚ := f.getD i 0

/-- Squared `calculateDistance(features1, features2)`: plain Euclidean,
iterating over the indices of the first vector. -/
def calculateDistanceSq (f1 f2 : List ℚ) : ℚ :=
  ((List.range f1.length).map (fun i =>
    (featAt f1 i - featAt f2 i) * (featAt f1 i - featAt f2 i))).sum

/-- Segment boundaries for the weighted distance (`featureWeights` in
`solveClustering`, lines 445-449). -/
structure FeatureWeights where
  genderStart : ℕ
  ageStart : ℕ
  equipmentStart : ℕ
deriving Repr, DecidableEq

/-- The per-index weight chosen by the branch ladder of
`calculateWeightedDistance` (lines 96-102): gender weight on
`[genderStart, ageStart)`, age weight on `[ageStart, equipmentStart)`, and the
equipment weight on *every* index from `equipmentStart` on — including the
trailing guardian-flag coordinate. -/
def segmentWeight (opts : Config) (fw : FeatureWeights) (i : ℕ) : ℚ :=
  if fw.genderStart ≤ i ∧ i < fw.ageStart then opts.genderWeight
  else if fw.ageStart ≤ i ∧ i < fw.equipmentStart then opts.ageCategoryWeight
  else if fw.equipmentStart ≤ i then opts.equipmentClassWeight
  else 1

/-- Squared `calculateWeightedDistance(features1, features2, options,
featureWeights)`: the weight multiplies the squared difference once
(`sum += weight * diff * diff`). -/
def calculateWeightedDistanceSq (f1 f2 : List ℚ) (opts : Config)
    (fw : FeatureWeights) : ℚ :=
  ((List.range f1.length).map (fun i =>
    segmentWeight opts fw i * (featAt f1 i - featAt f2 i) *
      (featAt f1 i - featAt f2 i))).sum

/-- Modelled from the spec: squared Euclidean norm of the difference after
multiplying each *coordinate* by its segment's weight, with the trailing
guardian-flag coordinate unweighted (weight 1) — the distance §4.2 of the
spec describes. -/
def specWeightedDistanceSq (f1 f2 : List ℚ) (opts : Config)
    (fw : FeatureWeights) : ℚ :=
  ((List.range f1.length).map (fun i =>
    let w := if i = f1.length - 1 then 1 else segmentWeight opts fw i
    (w * (featAt f1 i - featAt f2 i)) * (w * (featAt f1 i - featAt f2 i)))).sum

/-- C6 counterexample configuration: equipment weight 4, all else default. -/
def c6Config : Config := { defaultConfig with equipmentClassWeight := 4 }

/-! ## Greedy MIP heuristic (`SimpleMIPSolver`, mip-solver module lines 32-362)

The solver's public `solve()` runs `solveGreedy()`; when the greedy solution
is valid it becomes `bestSolution`, and `solve` returns
`bestSolution || greedySolution` — the greedy solution in either case, so the
embedding returns the greedy variable assignment directly.  The variable array
`x[i][j]` is modelled as a boolean function of `(competitorIndex,
subsetIndex)`; `variableIndex = competitorIndex * maxSubsets + subsetIndex`
addresses exactly that pair. -/

/-- `Math.ceil(n / m)` for a natural numerator and integral divisor. -/
def ceilDivNat (n : ℕ) (m : ℤ) : ℤ := ⌈(n : ℚ) / (m : ℚ)⌉

/-- `calculateSubsetScore(subset)` (mip-solver lines 271-303): size
preference, weighted gender balance and weighted age homogeneity (no
equipment term); an empty subset scores 0 before any division happens. -/
def calculateSubsetScore (opts : Config) (subset : List Competitor) : ℚ :=
  if subset.length = 0 then 0
  else
    groupSizeScore opts subset +
      ((genderBalance subset : ℚ) / (subset.length : ℚ)) * 10 * opts.genderWeight +
      ((maxAgeCategoryCount subset : ℚ) / (subset.length : ℚ)) * 10 * opts.ageCategoryWeight

/-- The best-family scan of the greedy fill loop (lines 179-196): try each
unassigned family in backlog order, keep the first strict improvement among
those that fit; `bestScore` starts at `-Infinity`, modelled by `none`. -/
def pickBestFamily (opts : Config) (subset : List Competitor)
    (backlog : List (List Competitor)) : Option (ℕ × ℚ) :=
  backlog.enum.foldl (fun best p =>
    if ((subset.length + p.2.length : ℕ) : ℤ) ≤ opts.maxSubsetSize then
      let sc := calculateSubsetScore opts (subset ++ p.2)
      match best with
      | none => some (p.1, sc)
      | some b => if sc > b.2 then some (p.1, sc) else best
    else best) none

/-- Set variable `x[i][j] := 1`. -/
def setVar (sol : ℕ → ℕ → Bool) (i j : ℕ) : ℕ → ℕ → Bool :=
  fun a b => if a = i ∧ b = j then true else sol a b

/-- Assign every member of a family to subset `j` in the variable map, looking
the competitor index up by id (`findIndex(c => c.id === competitor.id)`). -/
def assignFamily (cs : List Competitor) (sol : ℕ → ℕ → Bool)
    (fam : List Competitor) (j : ℕ) : ℕ → ℕ → Bool :=
  fam.foldl (fun s m => setVar s (cs.findIdx (fun x => x.id == m.id)) j) sol

/-- The inner fill loop of `solveGreedy` (lines 177-214): repeatedly pick the
best fitting family for subset `j` and move it from the backlog into the
subset, until nothing fits (`canAddMore = false`, the final component) or the
backlog is exhausted (`canAddMore` still `true`).  The fuel only bounds the
recursion; every call passes `fuel = backlog.length`, which the loop can never
exhaust because each pick removes a family. -/
def fillLoop (opts : Config) (cs : List Competitor) (j : ℕ) :
    ℕ → List Competitor → (ℕ → ℕ → Bool) → List (List Competitor) →
    List Competitor × (ℕ → ℕ → Bool) × List (List Competitor) × Bool
  | fuel, subset, sol, backlog =>
    if backlog.isEmpty then (subset, sol, backlog, true)
    else
      match fuel with
      | 0 => (subset, sol, backlog, false)
      | fuel' + 1 =>
        match pickBestFamily opts subset backlog with
        | none => (subset, sol, backlog, false)
        | some p =>
          let fam := backlog.getD p.1 []
          fillLoop opts cs j fuel' (subset ++ fam) (assignFamily cs sol fam j)
            (backlog.eraseIdx p.1)

/-- The outer loop of `solveGreedy` (lines 173-222): fill subsets left to
right.  Each iteration either advances `currentSubset` (when the filled subset
reached the minimum size or nothing more fits) or stops with an exhausted
backlog; the fuel is `maxSubsets - currentSubset`, which matches the loop
guard exactly.  The state is `(subsets, solution, backlog, currentSubset)`. -/
def greedyMainLoop (opts : Config) (cs : List Competitor) (maxS : ℕ) :
    ℕ → ℕ → List (List Competitor) → (ℕ → ℕ → Bool) → List (List Competitor) →
    List (List Competitor) × (ℕ → ℕ → Bool) × List (List Competitor) × ℕ
  | 0, j, subsets, sol, backlog => (subsets, sol, backlog, j)
  | fuel + 1, j, subsets, sol, backlog =>
    if backlog.isEmpty then (subsets, sol, backlog, j)
    else
      let r := fillLoop opts cs j backlog.length (subsets.getD j []) sol backlog
      let subsets' := subsets.set j r.1
      if (opts.minSubsetSize ≤ (r.1.length : ℤ)) ∨ r.2.2.2 = false then
        greedyMainLoop opts cs maxS fuel (j + 1) subsets' r.2.1 r.2.2.1
      else
        -- here `canAddMore` is still true, which forces an empty backlog
        -- (lemma `fillLoop_canAddMore_empty`); the source breaks out
        (subsets', r.2.1, r.2.2.1, j)

/-- The leftover-placement scan (lines 229-248): score every subset that has
room by closeness to the preferred size plus available space; `bestScore`
starts at `-1` and `bestSubsetIndex` at 0. -/
def pickLeftoverSubset (opts : Config) (subsets : List (List Competitor))
    (famLen : ℕ) : ℕ × ℤ :=
  subsets.enum.foldl (fun best p =>
    let availableSpace : ℤ := opts.maxSubsetSize - (p.2.length : ℤ)
    if (famLen : ℤ) ≤ availableSpace then
      let sizeScore : ℤ :=
        1000 - |((p.2.length + famLen : ℕ) : ℤ) - opts.preferredSubsetSize|
      let totalScore := sizeScore + availableSpace
      if totalScore > best.2 then (p.1, totalScore) else best
    else best) (0, -1)

/-- The destination chosen for one leftover family (lines 229-256): the
scanned best subset, replaced by the fresh slot `currentSubset` when the
scanned choice lacks room and an unopened slot remains; the second component
is the updated `currentSubset`. -/
def leftoverChoice (opts : Config) (maxS : ℕ) (subsets : List (List Competitor))
    (famLen : ℕ) (cur : ℕ) : ℕ × ℕ :=
  let best0 := (pickLeftoverSubset opts subsets famLen).1
  let maxAvail : ℤ := opts.maxSubsetSize - ((subsets.getD best0 []).length : ℤ)
  if maxAvail < (famLen : ℤ) ∧ cur < maxS then (cur, cur + 1) else (best0, cur)

/-- The leftover loop of `solveGreedy` (lines 225-266): place each remaining
family into the chosen subset — even if the maximum size is exceeded. -/
def leftoverLoop (opts : Config) (cs : List Competitor) (maxS : ℕ) :
    List (List Competitor) → List (List Competitor) → (ℕ → ℕ → Bool) → ℕ →
    List (List Competitor) × (ℕ → ℕ → Bool) × ℕ
  | [], subsets, sol, cur => (subsets, sol, cur)
  | fam :: rest, subsets, sol, cur =>
    let c := leftoverChoice opts maxS subsets fam.length cur
    leftoverLoop opts cs maxS rest (subsets.set c.1 ((subsets.getD c.1 []) ++ fam))
      (assignFamily cs sol fam c.1) c.2

/-- `SimpleMIPSolver.maxSubsets`:
`Math.min(options.maxSubsets, Math.ceil(n / options.minSubsetSize))`. -/
def solverMaxSubsets (opts : Config) (n : ℕ) : ℕ :=
  (min opts.maxSubsets (ceilDivNat n opts.minSubsetSize)).toNat

/-- `solveGreedy()` (lines 163-269): assign guardian families greedily, then
place the leftovers; returns the final variable map.  The solver constructor
re-runs `validateAndSanitizeOptions` on the (already sanitized) options it
receives, modelled by the extra `sanitizeSteps` application at the call
site. -/
def solveGreedy (cs : List Competitor) (opts : Config) :
    (ℕ → ℕ → Bool) × List (List Competitor) × ℕ :=
  let maxS := solverMaxSubsets opts cs.length
  let families := createGuardianFamilies cs
  let r := greedyMainLoop opts cs maxS maxS 0 (List.replicate maxS [])
    (fun _ _ => false) families
  let l := leftoverLoop opts cs maxS r.2.2.1 r.1 r.2.1 r.2.2.2
  (l.2.1, l.1, l.2.2)

/-- The default competitor used for (unreachable) out-of-range array reads. -/
def dfltComp : Competitor := ⟨"", "", "", "", none⟩

/-- Conversion of a variable assignment back to subsets (`solveMIP`, lines
349-358): `subsets[j]` collects `competitors[i]` for every variable
`x[i][j] = 1`, in variable-creation order (competitor-major). -/
def mipSolutionSubsets (cs : List Competitor) (arrLen : ℕ)
    (sol : ℕ → ℕ → Bool) : List (List Competitor) :=
  (List.range arrLen).map (fun j =>
    ((List.range cs.length).filter (fun i => sol i j)).map
      (fun i => cs.getD i dfltComp))

/-- The subsets produced by `solveMIP(competitors, options)` on non-empty
input: sanitize the options, run the greedy solver (whose constructor
sanitizes once more), convert the variable map back to subsets using the
sanitized `maxSubsets`, and drop empty subsets. -/
def solveMIPsubsets (cs : List Competitor) (o : PartitionOptions) :
    List (List Competitor) :=
  let opts := validateAndSanitizeOptions o cs.length
  let sol := (solveGreedy cs (sanitizeSteps opts cs.length)).1
  (mipSolutionSubsets cs opts.maxSubsets.toNat sol).filter (fun s => ¬ s.isEmpty)

/-- `solveMIP` end to end: empty input short-circuits to
`handleEmptyDataset`. -/
def solveMIP (cs : List Competitor) (o : PartitionOptions) : PartitionResult :=
  if cs.length = 0 then handleEmptyDataset o
  else createPartitionResult (solveMIPsubsets cs o) (validateAndSanitizeOptions o cs.length)

/-! ## Families under valid guardian references -/

/-- The family emitted for a non-dependent competitor: itself plus its
dependents when somebody references it, a singleton otherwise. -/
def cgfEmit (cs : List Competitor) (c : Competitor) : List Competitor :=
  if isGuardianKey cs c.id then c :: dependentsOf cs c.id else [c]

/-- Closed form of `createGuardianFamilies` on a processed prefix `l` of the
input: one family per non-dependent competitor, in input order. -/
def charFamPre (cs l : List Competitor) : List (List Competitor) :=
  (l.filter (fun c => ! truthyId c.guardianId)).map (cgfEmit cs)

/-- Valid guardian references, as the upstream validator guarantees them:
ids are pairwise distinct, and every truthy guardian reference resolves to an
input entity that itself has no truthy guardian (exactly one level deep). -/
def ValidGuardianRefs (cs : List Competitor) : Prop :=
  (cs.map (fun c => c.id)).Nodup ∧
  ∀ c ∈ cs, truthyId c.guardianId = true →
    ∃ p ∈ cs, some p.id = c.guardianId ∧ truthyId p.guardianId = false

instance (cs : List Competitor) : Decidable (ValidGuardianRefs cs) := by
  unfold ValidGuardianRefs
  infer_instance

/-- The row index of an entity in the variable matrix:
`competitors.findIndex(x => x.id === competitor.id)`. -/
def rowOf (cs : List Competitor) (c : Competitor) : ℕ :=
  cs.findIdx (fun x => x.id == c.id)

/-! ## Clustering engine (clustering module lines 1-668)

Randomness (`Math.random()`) is modelled by an explicit stream of rationals
consumed left to right; theorems quantify over the stream, so no assumption
on its range is needed (an out-of-range value makes the source read
`undefined` array slots; the embedding's total lookups return defaults whose
effect the proofs never rely on).  As in the distance section, `Math.sqrt` is
never applied: every use of a distance in this module is an order comparison
or a re-squaring, both unchanged by working with the squared values.  The
convergence tolerance `1e-6` is written as the exact rational
`1 / 1000000`. -/

/-- The explicit `Math.random()` stream: `stream idx` is the next value. -/
structure RandGen where
  stream : ℕ → ℚ
  idx : ℕ

/-- One call of `Math.random()`. -/
def randNext (g : RandGen) : ℚ × RandGen := (g.stream g.idx, ⟨g.stream, g.idx + 1⟩)

/-- `Math.floor` of a number used as an array index. -/
def jsFloorNat (q : ℚ) : ℕ := ⌊q⌋.toNat

/-- `[result[i], result[j]] = [result[j], result[i]]`; an out-of-range read
(impossible at the call site, where `i < length` and any `j` from a
well-ranged random is at most `i`) leaves the list unchanged. -/
def listSwap {α : Type} (l : List α) (i j : ℕ) : List α :=
  match l[i]?, l[j]? with
  | some a, some b => (l.set i b).set j a
  | _, _ => l

/-- The Fisher-Yates loop of `shuffle` (utils module lines 290-297),
iterating `i = length-1, …, 1` with `j = Math.floor(random() * (i + 1))`. -/
def shuffleLoop {α : Type} : RandGen → ℕ → List α → List α × RandGen
  | g, 0, l => (l, g)
  | g, i + 1, l =>
    let p := randNext g
    shuffleLoop p.2 i (listSwap l (i + 1) (jsFloorNat (p.1 * ((i + 2 : ℕ) : ℚ))))

/-- `shuffle(array)`: Fisher-Yates over a copy. -/
def shuffle {α : Type} (l : List α) (g : RandGen) : List α × RandGen :=
  shuffleLoop g (l.length - 1) l

/-- `[...new Set(xs)]`: unique values in first-occurrence order. -/
def uniqVals (l : List String) : List String :=
  l.foldl (fun acc v => if v ∈ acc then acc else acc ++ [v]) []

/-- `encodeCompetitor` (clustering lines 38-65): one-hot encodings over the
unique genders, age categories and equipment classes of the whole input,
then the binary guardian-relationship flag. -/
def encodeCompetitor (c : Competitor) (all : List Competitor) : List ℚ :=
  (uniqVals (all.map (fun x => x.gender))).map (fun g => if c.gender = g then 1 else 0) ++
    (uniqVals (all.map (fun x => x.ageCategory))).map
      (fun a => if c.ageCategory = a then 1 else 0) ++
    (uniqVals (all.map (fun x => x.equipmentClass))).map
      (fun e => if c.equipmentClass = e then 1 else 0) ++
    [if truthyId c.guardianId then 1 else 0]

/-- A family with its averaged feature vector (`FamilyFeatures`); the mutable
`clusterId` bookkeeping field is dropped — the source only ever consumes
cluster membership through the `members` lists, which the embedding tracks
directly. -/
structure FamFeat where
  family : List Competitor
  features : List ℚ
deriving DecidableEq, Repr

/-- A cluster (`ClusterCenter`); the `id` field is write-only in the source
and dropped. -/
structure Center where
  features : List ℚ
  members : List FamFeat
deriving DecidableEq, Repr

/-- `createFamilyFeatures` (lines 165-189): encode every member and average
coordinate-wise (the `familyIndex` argument of the source's map callback is
unused in its body). -/
def createFamilyFeatures (families : List (List Competitor)) (all : List Competitor) :
    List FamFeat :=
  families.map (fun fam =>
    let fs := fam.map (fun c => encodeCompetitor c all)
    ⟨fam, (List.range (fs.headD []).length).map (fun i =>
      (fs.map (fun f => featAt f i)).sum / (fam.length : ℚ))⟩)

/-- Squared `Math.min(...centers.map(c => calculateDistance(f, c.features)))`:
minimum over a non-empty list of centers (the k-means++ loop always holds at
least the first seed, so the empty case is unreachable). -/
def minDistSq (f : List ℚ) (centers : List (List ℚ)) : ℚ :=
  match centers with
  | [] => 0
  | c :: rest => rest.foldl (fun m x => min m (calculateDistanceSq f x)) (calculateDistanceSq f c)

/-- The cumulative-probability scan of k-means++ (lines 141-150): the first
index whose running total reaches the random value, index 0 when none does. -/
def cumulativeSelect (ds : List ℚ) (rv : ℚ) : ℕ :=
  match (List.range ds.length).find? (fun j => rv ≤ (ds.take (j + 1)).sum) with
  | some j => j
  | none => 0

/-- The k-means++ selection loop (lines 130-157), one appended center per
round; squared distances feed the probability weights exactly as the source's
`minDist * minDist`. -/
def kmeansppLoop (famFeats : List FamFeat) : ℕ → RandGen → List Center → List Center × RandGen
  | 0, g, centers => (centers, g)
  | k + 1, g, centers =>
    let ds := famFeats.map (fun fam =>
      minDistSq fam.features (centers.map (fun c => c.features)))
    let p := randNext g
    kmeansppLoop famFeats k p.2
      (centers ++ [⟨(famFeats.getD (cumulativeSelect ds (p.1 * ds.sum)) ⟨[], []⟩).features, []⟩])

/-- `initializeClusterCenters` (lines 113-160): the first random seed is
pushed unconditionally — even when the requested count is 0 or negative —
then k-means++ adds the remaining `numClusters - 1`. -/
def initCenters (famFeats : List FamFeat) (numClusters : ℤ) (g : RandGen) :
    List Center × RandGen :=
  let p := randNext g
  let first := famFeats.getD (jsFloorNat (p.1 * (famFeats.length : ℚ))) ⟨[], []⟩
  kmeansppLoop famFeats (numClusters - 1).toNat p.2 [⟨first.features, []⟩]

/-- The nearest-center scan of `assignToClusters` (lines 204-219): strict
improvement over a `minDistance = Infinity` start, modelled by `none`. -/
def bestClusterIdx (f : List ℚ) (centers : List Center) (opts : Config)
    (fw : FeatureWeights) : ℕ :=
  (centers.enum.foldl (fun best p =>
    let d := calculateWeightedDistanceSq f p.2.features opts fw
    match best.2 with
    | none => (p.1, some d)
    | some m => if d < m then (p.1, some d) else best) ((0 : ℕ), (none : Option ℚ))).1

/-- Push a family onto `centers[i].members`. -/
def addMemberAt (centers : List Center) (i : ℕ) (fam : FamFeat) : List Center :=
  centers.set i ⟨(centers.getD i ⟨[], []⟩).features, (centers.getD i ⟨[], []⟩).members ++ [fam]⟩

/-- `assignToClusters` (lines 194-224): clear all member lists, then push
each family onto its nearest center (features never change during the pass,
so the scan sees the same centers the source does). -/
def assignToClusters (famFeats : List FamFeat) (centers : List Center) (opts : Config)
    (fw : FeatureWeights) : List Center :=
  famFeats.foldl (fun cs fam => addMemberAt cs (bestClusterIdx fam.features cs opts fw) fam)
    (centers.map (fun c => ⟨c.features, []⟩))

/-- One center of `updateClusterCenters` (lines 232-256): empty clusters are
skipped, others move to their member centroid; the second component reports
whether some coordinate moved by more than `1e-6`. -/
def updateCenter (c : Center) : Center × Bool :=
  if c.members.length = 0 then (c, false)
  else
    let nf := (List.range c.features.length).map (fun i =>
      (c.members.map (fun m => featAt m.features i)).sum / ((c.members.length : ℕ) : ℚ))
    (⟨nf, c.members⟩,
     (List.range c.features.length).any (fun i =>
       (1 : ℚ) / 1000000 < |featAt c.features i - featAt nf i|))

/-- `updateClusterCenters` (lines 229-259): update every center; `changed`
is the disjunction of the per-center movement flags. -/
def updateClusterCenters (centers : List Center) : List Center × Bool :=
  (centers.map (fun c => (updateCenter c).1), centers.any (fun c => (updateCenter c).2))

/-- The k-means iteration (lines 467-475): assign then update, stopping when
no center moved; the fuel is the source's remaining iteration count, 100 at
the call site. -/
def kmeansLoop (famFeats : List FamFeat) (opts : Config) (fw : FeatureWeights) :
    ℕ → List Center → List Center
  | 0, centers => centers
  | fuel + 1, centers =>
    let r := updateClusterCenters (assignToClusters famFeats centers opts fw)
    if r.2 then kmeansLoop famFeats opts fw fuel r.1 else r.1

/-- Total competitors in a cluster (`center.members.reduce(sum of family
lengths)`). -/
def clusterTotal (c : Center) : ℕ := (c.members.map (fun m => m.family.length)).sum

/-- One family processed by the oversized-cluster split (lines 291-314);
the state is `(validCenters, redistributeFamilies, currentCluster,
currentSize)`. -/
def splitStep (opts : Config) (feats : List ℚ)
    (st : List Center × List FamFeat × List FamFeat × ℕ) (fam : FamFeat) :
    List Center × List FamFeat × List FamFeat × ℕ :=
  if opts.maxSubsetSize < ((st.2.2.2 + fam.family.length : ℕ) : ℤ) then
    if opts.minSubsetSize ≤ (st.2.2.2 : ℤ) then
      (st.1 ++ [⟨feats, st.2.2.1⟩], st.2.1, [fam], fam.family.length)
    else
      (st.1, st.2.1 ++ st.2.2.1, [fam], fam.family.length)
  else
    (st.1, st.2.1, st.2.2.1 ++ [fam], st.2.2.2 + fam.family.length)

/-- The remaining-families handling after the oversized-cluster split
(lines 317-327): a non-empty open cluster is kept when it meets the minimum
size and dissolved otherwise. -/
def splitFinish (opts : Config) (feats : List ℚ)
    (st : List Center × List FamFeat × List FamFeat × ℕ) (g : RandGen) :
    List Center × List FamFeat × RandGen :=
  if st.2.2.1.length ≠ 0 then
    if opts.minSubsetSize ≤ (st.2.2.2 : ℤ) then
      (st.1 ++ [⟨feats, st.2.2.1⟩], st.2.1, g)
    else (st.1, st.2.1 ++ st.2.2.1, g)
  else (st.1, st.2.1, g)

/-- One cluster processed by the classification pass of `adjustClusterSizes`
(lines 275-332): skip an empty cluster, keep a valid one, split an oversized
one after shuffling its members (closing the trailing partial cluster by
size), dissolve an undersized one into the redistribution list; the state is
`(validCenters, redistributeFamilies, rand)`. -/
def classifyStep (opts : Config) (acc : List Center × List FamFeat × RandGen)
    (c : Center) : List Center × List FamFeat × RandGen :=
  if c.members.length = 0 then acc
  else if (clusterTotal c : ℤ) ≤ opts.maxSubsetSize ∧
      opts.minSubsetSize ≤ (clusterTotal c : ℤ) then
    (acc.1 ++ [c], acc.2.1, acc.2.2)
  else if opts.maxSubsetSize < (clusterTotal c : ℤ) then
    splitFinish opts c.features
      ((shuffle c.members acc.2.2).1.foldl (splitStep opts c.features) (acc.1, acc.2.1, [], 0))
      (shuffle c.members acc.2.2).2
  else (acc.1, acc.2.1 ++ c.members, acc.2.2)

/-- The classification pass itself (lines 275-332), folding `classifyStep`
over the clusters. -/
def classifyClusters (opts : Config) (centers : List Center) (g : RandGen) :
    List Center × List FamFeat × RandGen :=
  centers.foldl (classifyStep opts) ([], [], g)

/-- Backwards scan for the last redistributable family that fits
(lines 345-353). -/
def lastFitIdx (opts : Config) (size : ℕ) (redis : List FamFeat) : Option ℕ :=
  (List.range redis.length).reverse.find? (fun i =>
    ((size + (redis.getD i ⟨[], []⟩).family.length : ℕ) : ℤ) ≤ opts.maxSubsetSize)

/-- One cluster of the first pass of a redistribution round (lines 339-353):
cluster `k` absorbs the backmost fitting family, if any; the flag records
whether a placement happened. -/
def redisStep (opts : Config) (acc : List Center × List FamFeat × Bool) (k : ℕ) :
    List Center × List FamFeat × Bool :=
  if acc.2.1.length = 0 then acc
  else
    match lastFitIdx opts (clusterTotal (acc.1.getD k ⟨[], []⟩)) acc.2.1 with
    | none => acc
    | some i =>
      (acc.1.set k ⟨(acc.1.getD k ⟨[], []⟩).features,
          (acc.1.getD k ⟨[], []⟩).members ++ [acc.2.1.getD i ⟨[], []⟩]⟩,
       acc.2.1.eraseIdx i, true)

/-- The first pass of one redistribution round (lines 339-354): each valid
cluster in turn absorbs at most one fitting family. -/
def redisPass1 (opts : Config) (valid : List Center) (redis : List FamFeat) :
    List Center × List FamFeat × Bool :=
  (List.range valid.length).foldl (redisStep opts) (valid, redis, false)

/-- The new-cluster fill (lines 362-372): shift families while the new
cluster is below the preferred size; a family that would overflow the
maximum is put back and the fill stops.  Returns the new cluster and the
remaining families. -/
def fillNewCluster (opts : Config) : List FamFeat → List FamFeat → ℕ →
    List FamFeat × List FamFeat
  | [], acc, _ => (acc, [])
  | fam :: rest, acc, size =>
    if (size : ℤ) < opts.preferredSubsetSize then
      if ((size + fam.family.length : ℕ) : ℤ) ≤ opts.maxSubsetSize then
        fillNewCluster opts rest (acc ++ [fam]) (size + fam.family.length)
      else (acc, fam :: rest)
    else (acc, fam :: rest)

/-- First index of a smallest cluster (lines 397-406). -/
def smallestCenterIdx (valid : List Center) : ℕ :=
  (valid.enum.foldl (fun best p =>
    if clusterTotal p.2 < best.2 then (p.1, clusterTotal p.2) else best)
    (0, clusterTotal (valid.getD 0 ⟨[], []⟩))).1

/-- The forced placement (lines 394-411): shift every remaining family into
the currently smallest cluster; `none` models the crash the source hits when
`validCenters` is empty (member access on `validCenters[0]`, which is
`undefined`). -/
def forceDrain : List Center → List FamFeat → Option (List Center)
  | valid, [] => some valid
  | valid, fam :: rest =>
    if valid.length = 0 then none
    else
      forceDrain (valid.set (smallestCenterIdx valid)
        ⟨(valid.getD (smallestCenterIdx valid) ⟨[], []⟩).features,
         (valid.getD (smallestCenterIdx valid) ⟨[], []⟩).members ++ [fam]⟩) rest

/-- Centroid of a freshly opened cluster (lines 375-384). -/
def newClusterCentroid (nc : List FamFeat) : List ℚ :=
  (List.range (nc.headD ⟨[], []⟩).features.length).map (fun i =>
    (nc.map (fun m => featAt m.features i)).sum / ((nc.length : ℕ) : ℚ))

/-- The tail of the new-cluster branch (lines 394-413): `ncLen` is the size
of the cluster just filled, `valid'` the cluster list after its possible
append and `rest` the still-unplaced families, which are force-drained when
the new cluster was empty or the cap is reached. -/
def redisPass2 (effMax : ℤ) (ncLen : ℕ) (valid' : List Center)
    (rest : List FamFeat) : Option (List Center × List FamFeat) :=
  if rest.length ≠ 0 ∧ (ncLen = 0 ∨ effMax ≤ (valid'.length : ℤ)) then
    match forceDrain valid' rest with
    | none => none
    | some v => some (v, [])
  else some (valid', rest)

/-- One iteration of the redistribution `while` loop (lines 335-414): a
placement pass over the valid clusters, then — only when nothing was placed,
families remain and the cluster count is below the cap — a new cluster is
filled and appended when non-empty, and the tail handling runs. -/
def redisIter (opts : Config) (effMax : ℤ) (st : List Center × List FamFeat) :
    Option (List Center × List FamFeat) :=
  if (redisPass1 opts st.1 st.2).2.2 = false ∧ (redisPass1 opts st.1 st.2).2.1.length ≠ 0 ∧
      ((redisPass1 opts st.1 st.2).1.length : ℤ) < effMax then
    redisPass2 effMax (fillNewCluster opts (redisPass1 opts st.1 st.2).2.1 [] 0).1.length
      (if (fillNewCluster opts (redisPass1 opts st.1 st.2).2.1 [] 0).1.length ≠ 0 then
        (redisPass1 opts st.1 st.2).1 ++
          [⟨newClusterCentroid (fillNewCluster opts (redisPass1 opts st.1 st.2).2.1 [] 0).1,
            (fillNewCluster opts (redisPass1 opts st.1 st.2).2.1 [] 0).1⟩]
      else (redisPass1 opts st.1 st.2).1)
      (fillNewCluster opts (redisPass1 opts st.1 st.2).2.1 [] 0).2
  else some ((redisPass1 opts st.1 st.2).1, (redisPass1 opts st.1 st.2).2.1)

/-- The redistribution loop.  The source has no bound, so the embedding's
fuel only truncates: `none` means the loop failed to finish within `fuel`
rounds (or crashed inside the forced placement). -/
def redistributeLoop (opts : Config) (effMax : ℤ) :
    ℕ → List Center × List FamFeat → Option (List Center)
  | 0, st => if st.2.length = 0 then some st.1 else none
  | fuel + 1, st =>
    if st.2.length = 0 then some st.1
    else
      match redisIter opts effMax st with
      | none => none
      | some st' => redistributeLoop opts effMax fuel st'

/-- `adjustClusterSizes` (lines 265-417); `maxAllowedClusters ||
options.maxSubsets` falls back to the configured cap when the argument is
falsy, i.e. 0. -/
def adjustClusterSizes (opts : Config) (centers : List Center) (maxAllowed : ℤ)
    (g : RandGen) (fuel : ℕ) : Option (List Center × RandGen) :=
  match redistributeLoop opts (if maxAllowed = 0 then opts.maxSubsets else maxAllowed) fuel
      ((classifyClusters opts centers g).1, (classifyClusters opts centers g).2.1) with
  | none => none
  | some v => some (v, (classifyClusters opts centers g).2.2)

/-- Merge score of a pair of subset sizes (lines 500-508). -/
def mergeScore (opts : Config) (a b : ℕ) : ℤ :=
  if ((a + b : ℕ) : ℤ) ≤ opts.maxSubsetSize then 1000 - ((a + b : ℕ) : ℤ)
  else if ((a + b : ℕ) : ℤ) ≤ opts.maxSubsetSize + 1 then 50 - ((a + b : ℕ) : ℤ)
  else 10 - ((a + b : ℕ) : ℤ)

/-- The best-pair scan (lines 493-515): all `i < j` in row-major order,
strict improvement over a `bestScore` start of `-1`. -/
def bestMergePair (opts : Config) (subsets : List (List Competitor)) : Option (ℕ × ℕ) :=
  (((List.range subsets.length).flatMap (fun i =>
    ((List.range subsets.length).filter (fun j => i < j)).map (fun j => (i, j)))).foldl
    (fun best p =>
      if mergeScore opts (subsets.getD p.1 []).length (subsets.getD p.2 []).length > best.2 then
        (some p, mergeScore opts (subsets.getD p.1 []).length (subsets.getD p.2 []).length)
      else best) ((none : Option (ℕ × ℕ)), (-1 : ℤ))).1

/-- The two-smallest fallback scan (lines 522-531), starting from indices
`(0, 1)`. -/
def smallestTwoIdx (subsets : List (List Competitor)) : ℕ × ℕ :=
  (List.range subsets.length).foldl (fun best i =>
    if (subsets.getD i []).length < (subsets.getD best.1 []).length then (i, best.1)
    else if i ≠ best.1 ∧ (subsets.getD i []).length < (subsets.getD best.2 []).length then
      (best.1, i)
    else best) (0, 1)

/-- `subsets[i].push(...subsets[j]); subsets.splice(j, 1)`. -/
def mergeInto (subsets : List (List Competitor)) (i j : ℕ) : List (List Competitor) :=
  (subsets.set i (subsets.getD i [] ++ subsets.getD j [])).eraseIdx j

/-- The excess-merging `while` loop (lines 491-536).  Every round removes one
subset, so `subsets.length` rounds of fuel always suffice; `none` models the
source crashing in the fallback when fewer than two subsets remain (spreading
`undefined`). -/
def mergeExcessLoop (opts : Config) : ℕ → List (List Competitor) →
    Option (List (List Competitor))
  | 0, subsets => if opts.maxSubsets < (subsets.length : ℤ) then none else some subsets
  | fuel + 1, subsets =>
    if opts.maxSubsets < (subsets.length : ℤ) then
      match bestMergePair opts subsets with
      | some p => mergeExcessLoop opts fuel (mergeInto subsets p.1 p.2)
      | none =>
        let p := smallestTwoIdx subsets
        if p.1 < subsets.length ∧ p.2 < subsets.length ∧ p.1 ≠ p.2 then
          mergeExcessLoop opts fuel (mergeInto subsets p.1 p.2)
        else none
    else some subsets

/-- `Math.round`: floor of the value plus one half. -/
def jsRound (q : ℚ) : ℤ := ⌊q + 1 / 2⌋

/-- The cluster-count estimate of `solveClustering` (lines 452-461):
`min(maxClusters, max(minClusters, min(preferredClusters, families)))`. -/
def computedNumClusters (opts : Config) (n : ℕ) (numFamilies : ℕ) : ℤ :=
  min (min opts.maxSubsets ⌊(n : ℚ) / (opts.minSubsetSize : ℚ)⌋)
    (max ⌈(n : ℚ) / (opts.maxSubsetSize : ℚ)⌉
      (min (jsRound ((n : ℚ) / (opts.preferredSubsetSize : ℚ))) (numFamilies : ℤ)))

/-- The `featureWeights` boundaries computed in `solveClustering`
(lines 443-449). -/
def featureWeightsOf (cs : List Competitor) : FeatureWeights :=
  ⟨0, (uniqVals (cs.map (fun c => c.gender))).length,
   (uniqVals (cs.map (fun c => c.gender))).length +
     (uniqVals (cs.map (fun c => c.ageCategory))).length⟩

/-- First index of a smallest subset (lines 598-603); the `i = 0` step of the
source's loop can never update because the comparison is strict, so the fold
ranges over all indices. -/
def smallestSubsetIdx (subsets : List (List Competitor)) : ℕ :=
  (List.range subsets.length).foldl (fun best i =>
    if (subsets.getD i []).length < (subsets.getD best []).length then i else best) 0

/-- The best-subset scan when placing one family in the rebalancing bin
packing (lines 570-585): the best subset with room, scored by closeness to
the target size; `(-1, -1)` start.  `placeFamilyRebalance` then places the
family there, in a fresh subset when under the cap, or forced into the
smallest subset; `none` models the crash when the forced branch runs with no
subsets at all. -/
def rebalanceScan (opts : Config) (target : ℤ) (subsets : List (List Competitor))
    (famLen : ℕ) : ℤ × ℤ :=
  (List.range (min subsets.length opts.maxSubsets.toNat)).foldl (fun b i =>
    if (((subsets.getD i []).length + famLen : ℕ) : ℤ) ≤ opts.maxSubsetSize then
      if 1000 - |(((subsets.getD i []).length + famLen : ℕ) : ℤ) - target| > b.2 then
        ((i : ℤ), 1000 - |(((subsets.getD i []).length + famLen : ℕ) : ℤ) - target|)
      else b
    else b) ((-1 : ℤ), (-1 : ℤ))

/-- Placement of one family after the scan (lines 587-605). -/
def placeFamilyRebalance (opts : Config) (target : ℤ) (subsets : List (List Competitor))
    (fam : List Competitor) : Option (List (List Competitor)) :=
  if (rebalanceScan opts target subsets fam.length).1 = -1 then
    if (subsets.length : ℤ) < opts.maxSubsets then some (subsets ++ [fam])
    else if subsets.length = 0 then none
    else some (subsets.set (smallestSubsetIdx subsets)
      (subsets.getD (smallestSubsetIdx subsets) [] ++ fam))
  else some (subsets.set (rebalanceScan opts target subsets fam.length).1.toNat
    (subsets.getD (rebalanceScan opts target subsets fam.length).1.toNat [] ++ fam))

/-- The size-redistribution pass (lines 540-608), entered only when the group
count equals `maxSubsets`: when some group violates the size bounds, the
groups are rebuilt by greedy bin packing over whole families, stably sorted
largest first.  The source's `familiesInSubsets` lookup only forwards the
family list (its `subsetIndex` is never read), so the embedding sorts the
families directly; JavaScript's stable `sort` with comparator
`b.length - a.length` is `mergeSort` with the matching total order. -/
def rebalance (opts : Config) (families : List (List Competitor))
    (subsets : List (List Competitor)) : Option (List (List Competitor)) :=
  let target : ℤ := ⌊(((subsets.map (fun s => s.length)).sum : ℕ) : ℚ) / (opts.maxSubsets : ℚ)⌋
  if (subsets.filter (fun s => opts.maxSubsetSize < (s.length : ℤ))).length ≠ 0 ∨
      (subsets.filter (fun s => (s.length : ℤ) < opts.minSubsetSize)).length ≠ 0 then
    (families.mergeSort (fun a b => b.length ≤ a.length)).foldl
      (fun acc fam => acc.bind (fun s => placeFamilyRebalance opts target s fam)) (some [])
  else some subsets

/-- The merge-candidate scan of the final cleanup (lines 630-641): smallest
other subset whose combined size stays within the maximum. -/
def bestCleanupMerge (opts : Config) (subsets : List (List Competitor))
    (smallIdx smallLen : ℕ) : Option ℕ :=
  (List.range subsets.length).foldl (fun b i =>
    if i = smallIdx then b
    else if (((subsets.getD i []).length + smallLen : ℕ) : ℤ) ≤ opts.maxSubsetSize then
      match b with
      | none => some i
      | some p => if (subsets.getD i []).length < (subsets.getD p []).length then some i
        else some p
    else b) none

/-- The fallback of the cleanup merge (lines 644-651): smallest other subset,
starting from index 0 even when 0 is the undersized subset itself (the
source's loop starts at `i = 1`; the extra `i = 0` step can never update
because the comparison is strict). -/
def cleanupFallback (subsets : List (List Competitor)) (smallIdx : ℕ) : ℕ :=
  (List.range subsets.length).foldl (fun b i =>
    if i ≠ smallIdx ∧ (subsets.getD i []).length < (subsets.getD b []).length then i else b) 0

/-- The smallest undersized subset of the cleanup round (lines 618-627). -/
def cleanupSmall (opts : Config) (subsets : List (List Competitor)) : List Competitor :=
  (subsets.filter (fun s => (s.length : ℤ) < opts.minSubsetSize)).foldl
    (fun sm u => if u.length < sm.length then u else sm)
    ((subsets.filter (fun s => (s.length : ℤ) < opts.minSubsetSize)).headD [])

/-- `subsets.indexOf(smallestUndersized)` (lines 620-626): the first position
holding that subset. -/
def cleanupSmallIdx (opts : Config) (subsets : List (List Competitor)) : ℕ :=
  subsets.findIdx (fun x => x = cleanupSmall opts subsets)

/-- The merge destination of the cleanup round (lines 629-651). -/
def cleanupBest (opts : Config) (subsets : List (List Competitor)) : ℕ :=
  match bestCleanupMerge opts subsets (cleanupSmallIdx opts subsets)
      (cleanupSmall opts subsets).length with
  | some i => i
  | none => cleanupFallback subsets (cleanupSmallIdx opts subsets)

/-- The final-cleanup loop (lines 611-664); the source caps the iteration
count at the subset count on entry, mirrored by the fuel.  `indexOf` here
uses value equality where the source compares array references, but the
reference the source finds is the first undersized subset of minimal length,
which is also the first value-equal occurrence (an earlier equal value would
be an equally short undersized subset and would have been chosen instead). -/
def cleanupLoop (opts : Config) : ℕ → List (List Competitor) → List (List Competitor)
  | 0, subsets => subsets
  | fuel + 1, subsets =>
    if (subsets.filter (fun s => (s.length : ℤ) < opts.minSubsetSize)).length = 0 then subsets
    else if cleanupBest opts subsets ≠ cleanupSmallIdx opts subsets then
      cleanupLoop opts fuel
        ((subsets.set (cleanupBest opts subsets)
          (subsets.getD (cleanupBest opts subsets) [] ++ cleanupSmall opts subsets)).eraseIdx
          (cleanupSmallIdx opts subsets))
    else subsets

/-- The fuel-independent head of `solveClustering` (lines 429-479): sanitize,
build families and their features, estimate the cluster count, seed and run
k-means.  Returns `(options, families, centers, numClusters, rand)`. -/
def clusterSetup (cs : List Competitor) (o : PartitionOptions) (g : RandGen) :
    Config × List (List Competitor) × List Center × ℤ × RandGen :=
  let opts := validateAndSanitizeOptions o cs.length
  let families := createGuardianFamilies cs
  let famFeats := createFamilyFeatures families cs
  let numClusters := computedNumClusters opts cs.length families.length
  let ic := initCenters famFeats numClusters g
  (opts, families, kmeansLoop famFeats opts (featureWeightsOf cs) 100 ic.1, numClusters, ic.2)

/-- The post-adjustment tail of `solveClustering` (lines 482-664), applied to
the subsets flattened back from the adjusted clusters: merge down to the cap,
rebalance when exactly at the cap, then run the final cleanup. -/
def clusteringPost (opts : Config) (families : List (List Competitor))
    (subsets0 : List (List Competitor)) : Option (List (List Competitor)) :=
  match mergeExcessLoop opts subsets0.length subsets0 with
  | none => none
  | some subsets1 =>
    match (if (subsets1.length : ℤ) = opts.maxSubsets then rebalance opts families subsets1
      else some subsets1) with
    | none => none
    | some subsets2 => some (cleanupLoop opts subsets2.length subsets2)

/-- `solveClustering` on non-empty input, returning the final subsets.
`none` means the source diverged in the redistribution loop (beyond `fuel`
rounds) or crashed. -/
def solveClusteringSubsets (cs : List Competitor) (o : PartitionOptions) (g : RandGen)
    (fuel : ℕ) : Option (List (List Competitor)) :=
  match adjustClusterSizes (clusterSetup cs o g).1 (clusterSetup cs o g).2.2.1
      (clusterSetup cs o g).2.2.2.1 (clusterSetup cs o g).2.2.2.2 fuel with
  | none => none
  | some p => clusteringPost (clusterSetup cs o g).1 (clusterSetup cs o g).2.1
      (p.1.map (fun c => (c.members.map (fun m => m.family)).flatten))

/-- `solveClustering` (lines 422-668) end to end: empty input short-circuits
to `handleEmptyDataset`, otherwise the final subsets are wrapped by
`createAlgorithmResult` / `createPartitionResult`. -/
def solveClustering (cs : List Competitor) (o : PartitionOptions) (g : RandGen)
    (fuel : ℕ) : Option PartitionResult :=
  if cs.length = 0 then some (handleEmptyDataset o)
  else
    match solveClusteringSubsets cs o g fuel with
    | none => none
    | some subsets => some (createPartitionResult subsets (validateAndSanitizeOptions o cs.length))

/-! ## Family atomicity through the post-processing stages -/

/-- `subsets` is a grouping of `families`: every group is a concatenation of
whole families, and across all groups exactly the given families are used
(as a multiset).  This is the "a Family is always moved as a whole"
invariant. -/
def IsGroupingOf (families subsets : List (List Competitor)) : Prop :=
  ∃ fss : List (List (List Competitor)),
    subsets = fss.map List.flatten ∧ fss.flatten.Perm families

/-- Witness guardian for the cross-algorithm claims. -/
def wcG : Competitor := ⟨"100", "HB", "A", "F", none⟩

/-- Witness dependent for the cross-algorithm claims. -/
def wcD : Competitor := ⟨"101", "HB", "J", "M", some "100"⟩

/-! ## C3: a reachable spin state of the redistribution loop

Three competitors with identical attributes (distinct ids, no guardians) and
user options `{minSubsetSize: 2, maxSubsetSize: 2}`: sanitation fixes the
bounds at exactly 2, the cluster-count estimate is 1, all three singleton
families land in the single cluster, the oversized split closes one cluster
of two and leaves one family for redistribution — which fits nowhere and may
not open a new cluster (the cap is reached), while the forced-placement
branch is unreachable (it is guarded by the cluster count being *below* the
cap).  The loop body then returns the state unchanged, forever. -/

def c3a : Competitor := ⟨"1", "HB", "A", "M", none⟩

def c3b : Competitor := ⟨"2", "HB", "A", "M", none⟩

def c3c : Competitor := ⟨"3", "HB", "A", "M", none⟩

/-- The C3 input: three identical-attribute competitors. -/
def c3cs : List Competitor := [c3a, c3b, c3c]

/-- The C3 options. -/
def c3opts : PartitionOptions := { minSubsetSize := some 2, maxSubsetSize := some 2 }

/-- The sanitized C3 configuration. -/
def c3conf : Config := ⟨true, 28, 2, 2, 2, 1, 1, 1⟩

/-- The random stream: constantly 0. -/
def c3gen : RandGen := ⟨fun _ => 0, 0⟩

def c3f1 : FamFeat := ⟨[c3a], [1, 1, 1, 0]⟩

def c3f2 : FamFeat := ⟨[c3b], [1, 1, 1, 0]⟩

def c3f3 : FamFeat := ⟨[c3c], [1, 1, 1, 0]⟩

/-- The single valid cluster at the spin state: two singleton families,
exactly at the size cap. -/
def c3valid : List Center := [⟨[1, 1, 1, 0], [c3f2, c3f3]⟩]

/-- The family left to redistribute, forever. -/
def c3redis : List FamFeat := [c3f1]

/-- The spin state of the redistribution loop. -/
def c3state : List Center × List FamFeat := (c3valid, c3redis)

/-- The C7 witness entity. -/
def wc7 : Competitor := ⟨"9", "LB", "S", "F", none⟩

/-! ## Theorems -/

/-- C5: the claim asserts that the sanitized configuration always has
`preferredSubsetSize` within `[minSubsetSize, maxSubsetSize]`.  With
`minSubsetSize = 5`, `maxSubsetSize = 6` and 10 competitors the ≤112-entities
rule afterwards clamps `maxSubsetSize` to 4, leaving the already clamped
`preferredSubsetSize = 5` above the maximum. -/
theorem sanitize_preferred_in_bounds_fails :
    ¬ ((validateAndSanitizeOptions c5Options 10).minSubsetSize ≤
        (validateAndSanitizeOptions c5Options 10).preferredSubsetSize ∧
       (validateAndSanitizeOptions c5Options 10).preferredSubsetSize ≤
        (validateAndSanitizeOptions c5Options 10).maxSubsetSize) := by
  decide

/-- C5 (amended): the sanitizer merges the defaults and swaps an inverted
min/max pair (so that `minSubsetSize` ends up as the smaller configured bound,
raised to at least 2); the preferred size satisfies `min ≤ preferred` always
and `preferred ≤ max` whenever the batch exceeds 112 entities; when the batch
has at most 112 entities the maximum is clamped to 4, which is the only way
`preferred ≤ max` can fail. -/
theorem sanitize_postcondition (o : PartitionOptions) (n : Nat) :
    (validateAndSanitizeOptions o n).minSubsetSize =
      max 2 (min (mergeWithDefaults o).minSubsetSize (mergeWithDefaults o).maxSubsetSize) ∧
    (validateAndSanitizeOptions o n).minSubsetSize ≤
      (validateAndSanitizeOptions o n).preferredSubsetSize ∧
    (n ≤ 112 → (validateAndSanitizeOptions o n).maxSubsetSize ≤ 4) ∧
    (112 < n → (validateAndSanitizeOptions o n).preferredSubsetSize ≤
      (validateAndSanitizeOptions o n).maxSubsetSize) ∧
    ((validateAndSanitizeOptions o n).preferredSubsetSize ≤
        (validateAndSanitizeOptions o n).maxSubsetSize ∨
      (n ≤ 112 ∧ (validateAndSanitizeOptions o n).maxSubsetSize = 4 ∧
        4 < (validateAndSanitizeOptions o n).preferredSubsetSize)) := by
  unfold validateAndSanitizeOptions sanitizeSteps
  set m := mergeWithDefaults o
  dsimp only
  split_ifs <;> omega

/-- C5 witness: the amended postcondition evaluated at the counterexample
options with 10 competitors. -/
theorem sanitize_postcondition_witness :
    (validateAndSanitizeOptions c5Options 10).minSubsetSize =
      max 2 (min (mergeWithDefaults c5Options).minSubsetSize
        (mergeWithDefaults c5Options).maxSubsetSize) ∧
    (validateAndSanitizeOptions c5Options 10).minSubsetSize ≤
      (validateAndSanitizeOptions c5Options 10).preferredSubsetSize ∧
    ((10 : Nat) ≤ 112 → (validateAndSanitizeOptions c5Options 10).maxSubsetSize ≤ 4) ∧
    (112 < (10 : Nat) → (validateAndSanitizeOptions c5Options 10).preferredSubsetSize ≤
      (validateAndSanitizeOptions c5Options 10).maxSubsetSize) ∧
    ((validateAndSanitizeOptions c5Options 10).preferredSubsetSize ≤
        (validateAndSanitizeOptions c5Options 10).maxSubsetSize ∨
      ((10 : Nat) ≤ 112 ∧ (validateAndSanitizeOptions c5Options 10).maxSubsetSize = 4 ∧
        4 < (validateAndSanitizeOptions c5Options 10).preferredSubsetSize)) :=
  sanitize_postcondition c5Options 10

/-- C9: the sanitized configuration always has `minSubsetSize ≥ 2` (a
configured minimum of 0 or 1 is silently raised to 2) and `maxSubsetSize ≥ 2`
(it is raised to match the minimum before the ≤112 clamp, and the clamp to 4
cannot push it below 2). -/
theorem sanitize_min_at_least_two (o : PartitionOptions) (n : Nat) :
    2 ≤ (validateAndSanitizeOptions o n).minSubsetSize ∧
    2 ≤ (validateAndSanitizeOptions o n).maxSubsetSize := by
  unfold validateAndSanitizeOptions sanitizeSteps
  dsimp only
  split_ifs <;> omega

/-- C9: the sanitizer silently raises a configured minimum subset size below 2
to exactly 2; `minSubsetSize ≥ 2` holds for every sanitized configuration and
`maxSubsetSize` is raised to match (it also never drops below 2). -/
theorem sanitize_min_coerced_to_two (o : PartitionOptions) (n : Nat) :
    2 ≤ (validateAndSanitizeOptions o n).minSubsetSize ∧
    2 ≤ (validateAndSanitizeOptions o n).maxSubsetSize ∧
    ((mergeWithDefaults o).minSubsetSize < 2 → (mergeWithDefaults o).minSubsetSize ≤
        (mergeWithDefaults o).maxSubsetSize →
      (validateAndSanitizeOptions o n).minSubsetSize = 2) := by
  unfold validateAndSanitizeOptions sanitizeSteps
  set m := mergeWithDefaults o
  dsimp only
  split_ifs <;> omega

/-- C4 counterexample: on a partition with zero groups the claimed total score
of 0 with an all-zero breakdown does not hold — the aggregation step divides
the (zero) accumulators by the (zero) number of subsets, `0/0`, which is `NaN`
(`none` here), not 0. -/
theorem calculateScore_empty_not_zero :
    ¬ ((calculateScore [] defaultConfig).1 = some 0 ∧
       (calculateScore [] defaultConfig).2 =
        ⟨some 0, some 0, some 0, some 0⟩) := by
  decide

/-- C4 (amended): `calculateScore` applied to a partition with zero groups
*does* divide by zero — all four breakdown components and the total are the
non-finite `0/0` (`NaN`); every algorithm on empty input still succeeds, via
`handleEmptyDataset`, with an empty subsets list (whose score is that `NaN`,
not 0). -/
theorem calculateScore_empty_is_nan (opts : Config) (o : PartitionOptions) :
    calculateScore [] opts = (none, ⟨none, none, none, none⟩) ∧
    (handleEmptyDataset o).subsets = [] ∧
    (handleEmptyDataset o).score = none ∧
    (handleEmptyDataset o).totalCompetitors = 0 := by
  constructor
  · simp [calculateScore, optSum, jsDiv, optAdd]
  · refine ⟨rfl, ?_, rfl⟩
    simp [handleEmptyDataset, createPartitionResult, calculateScore, optSum, jsDiv, optAdd]

/-! ## C8: scoring is invariant under group order and within-group order -/

/-- A fold of `max` over a list of counts only depends on the multiset of
counts. -/
theorem foldr_max_perm {l l' : List ℕ} (h : l.Perm l') :
    l.foldr max 0 = l'.foldr max 0 := by
  induction h with
  | nil => rfl
  | cons x _ ih => simp [List.foldr_cons, ih]
  | swap x y t =>
    simp only [List.foldr_cons]
    rw [← max_assoc, Nat.max_comm y x, max_assoc]
  | trans _ _ ih1 ih2 => exact ih1.trans ih2

/-- The accumulating sum of per-group contributions only depends on the
multiset of contributions. -/
theorem optSum_perm {l l' : List (Option ℚ)} (h : l.Perm l') :
    optSum l = optSum l' := by
  have step : ∀ (b : Option ℚ) (x y : Option ℚ),
      optAdd (optAdd b x) y = optAdd (optAdd b y) x := by
    intro b x y
    cases b <;> cases x <;> cases y <;> simp [optAdd, add_right_comm]
  suffices hgen : ∀ b : Option ℚ, l.foldl optAdd b = l'.foldl optAdd b from hgen (some 0)
  induction h with
  | nil => intro b; rfl
  | cons x _ ih => intro b; simp only [List.foldl_cons]; exact ih (optAdd b x)
  | swap x y t => intro b; simp only [List.foldl_cons]; rw [step]
  | trans _ _ ih1 ih2 => intro b; exact (ih1 b).trans (ih2 b)

/-- A `Map`-tally sum only depends on the multiset of tallied values. -/
theorem tallySum_perm {l l' : List String} (h : l.Perm l') (f : ℕ → ℕ) :
    tallySum l f = tallySum l' f := by
  unfold tallySum
  have hc : (fun v => f (l.count v)) = (fun v => f (l'.count v)) := by
    funext v
    rw [h.count_eq]
  rw [hc]
  exact (h.dedup.map (fun v => f (l'.count v))).sum_eq

/-- A `Map`-tally max only depends on the multiset of tallied values. -/
theorem tallyMax_perm {l l' : List String} (h : l.Perm l') :
    tallyMax l = tallyMax l' := by
  unfold tallyMax
  have hc : (fun v => l.count v) = (fun v => l'.count v) := by
    funext v
    rw [h.count_eq]
  rw [hc]
  exact foldr_max_perm (h.dedup.map (fun v => l'.count v))

/-- Every per-group sub-score is a function of the multiset of a group's
members. -/
theorem groupScores_perm (opts : Config) {g g' : List Competitor} (h : g.Perm g') :
    groupSizeScore opts g = groupSizeScore opts g' ∧
    groupGenderScore g = groupGenderScore g' ∧
    groupAgeScore g = groupAgeScore g' ∧
    groupEquipmentScore opts g = groupEquipmentScore opts g' := by
  refine ⟨?_, ?_, ?_, ?_⟩
  · unfold groupSizeScore
    rw [h.length_eq]
  · unfold groupGenderScore genderBalance
    rw [tallySum_perm (h.map _), h.length_eq]
  · unfold groupAgeScore maxAgeCategoryCount
    rw [tallyMax_perm (h.map _), h.length_eq]
  · unfold groupEquipmentScore maxEquipmentCount uniqueEquipmentCount
    rw [tallyMax_perm (h.map _), h.length_eq, (h.map _).dedup.length_eq]

/-- Mapping a multiset-respecting group score over pointwise-permuted lists of
groups gives equal lists. -/
theorem map_eq_of_forall₂_perm {β : Type} {f : List Competitor → β}
    (hf : ∀ {g g' : List Competitor}, g.Perm g' → f g = f g')
    {s s' : List (List Competitor)} (h : List.Forall₂ List.Perm s s') :
    s.map f = s'.map f := by
  induction h with
  | nil => rfl
  | cons hp _ ih => simp only [List.map_cons, hf hp, ih]

/-- C8: `calculateScore` is invariant under permuting the list of groups and
under permuting the entities inside each group: if `mid` permutes each group
of `s1` in place and `s2` is a reordering of `mid`, the total score and the
whole breakdown agree between `s1` and `s2`. -/
theorem calculateScore_order_inv (opts : Config)
    (s1 mid s2 : List (List Competitor))
    (h1 : List.Forall₂ List.Perm s1 mid) (h2 : mid.Perm s2) :
    calculateScore s1 opts = calculateScore s2 opts := by
  unfold calculateScore
  have hlen : s1.length = s2.length := h1.length_eq.trans h2.length_eq
  have hsize : (s1.map (groupSizeScore opts)).sum = (s2.map (groupSizeScore opts)).sum := by
    rw [map_eq_of_forall₂_perm (fun hp => (groupScores_perm opts hp).1) h1]
    exact (h2.map (groupSizeScore opts)).sum_eq
  have hgender : optSum (s1.map groupGenderScore) = optSum (s2.map groupGenderScore) := by
    rw [map_eq_of_forall₂_perm (fun hp => (groupScores_perm opts hp).2.1) h1]
    exact optSum_perm (h2.map groupGenderScore)
  have hage : optSum (s1.map groupAgeScore) = optSum (s2.map groupAgeScore) := by
    rw [map_eq_of_forall₂_perm (fun hp => (groupScores_perm opts hp).2.2.1) h1]
    exact optSum_perm (h2.map groupAgeScore)
  have hequip : optSum (s1.map (groupEquipmentScore opts)) =
      optSum (s2.map (groupEquipmentScore opts)) := by
    rw [map_eq_of_forall₂_perm (fun hp => (groupScores_perm opts hp).2.2.2) h1]
    exact optSum_perm (h2.map (groupEquipmentScore opts))
  rw [hlen, hsize, hgender, hage, hequip]

/-- C8 witness: scoring a concrete two-group partition is unchanged after
swapping the two groups and reversing one group's members. -/
theorem calculateScore_order_inv_witness :
    calculateScore [[wcA, wcB], [wcC]] defaultConfig =
    calculateScore [[wcC], [wcB, wcA]] defaultConfig :=
  calculateScore_order_inv defaultConfig [[wcA, wcB], [wcC]] [[wcB, wcA], [wcC]]
    [[wcC], [wcB, wcA]]
    (List.Forall₂.cons (by decide) (List.Forall₂.cons (by decide) List.Forall₂.nil))
    (by decide)

/-- Helper for C10: the fold never emits a family containing an entity whose
guardian reference resolves to no input id and whom nobody references. -/
theorem cgf_fold_omits (cs : List Competitor) (e : Competitor) (g : String)
    (hg : e.guardianId = some g) (hgne : g ≠ "")
    (hnog : ∀ c ∈ cs, c.id ≠ g)
    (hnodep : ∀ c ∈ cs, c.guardianId ≠ some e.id) :
    ∀ (l : List Competitor) (acc : List (List Competitor) × List String),
      (∀ x ∈ l, x ∈ cs) → (∀ fam ∈ acc.1, e ∉ fam) →
      ∀ fam ∈ (l.foldl (cgfStep cs) acc).1, e ∉ fam := by
  intro l
  induction l with
  | nil => intro acc _ hacc fam hfam; exact hacc fam hfam
  | cons c t ih =>
    intro acc hsub hacc fam hfam
    have hc : c ∈ cs := hsub c (List.mem_cons_self c t)
    have ht : ∀ x ∈ t, x ∈ cs := fun x hx => hsub x (List.mem_cons_of_mem c hx)
    refine ih (cgfStep cs acc c) ht ?_ fam hfam
    intro fam' hfam'
    unfold cgfStep at hfam'
    split at hfam'
    next => exact hacc fam' hfam'
    next =>
      split at hfam'
      next hkey =>
        rcases List.mem_append.mp hfam' with hold | hnew
        · exact hacc fam' hold
        · have hfam'' : fam' = c :: dependentsOf cs c.id := by
            simpa using hnew
          subst hfam''
          intro hmem
          rcases List.mem_cons.mp hmem with hec | hdep
          · -- e = c would make e a guardian key, contradicting hnodep
            rcases List.any_eq_true.mp hkey with ⟨d, hd, hdp⟩
            have hdg : d.guardianId = some c.id := by
              have h2 := (Bool.and_eq_true _ _).mp hdp
              exact eq_of_beq h2.2
            rw [← hec] at hdg
            exact hnodep d hd hdg
          · -- e among the dependents of c would resolve g to c.id
            have hmf := List.mem_filter.mp hdep
            have heg : e.guardianId = some c.id := by
              have h2 := (Bool.and_eq_true _ _).mp hmf.2
              exact eq_of_beq h2.2
            rw [hg] at heg
            exact hnog c hc (Option.some.inj heg).symm
      next =>
        split at hfam'
        next => exact hacc fam' hfam'
        next hnkey =>
          rcases List.mem_append.mp hfam' with hold | hnew
          · exact hacc fam' hold
          · have hfam'' : fam' = [c] := by simpa using hnew
            subst hfam''
            intro hmem
            have hec : e = c := by simpa using hmem
            apply hnkey
            have hce : e ∈ cs := by rw [hec]; exact hc
            refine List.any_eq_true.mpr ⟨e, hce, ?_⟩
            refine (Bool.and_eq_true _ _).mpr ⟨?_, by rw [hec]; simp⟩
            rw [hg]
            unfold truthyId
            simpa using hgne

/-- C10: an entity `e` whose (truthy) `guardianId` matches no id in the input
and whom no other entity names as guardian is omitted from every family that
`createGuardianFamilies` returns: it is registered in `dependentToGuardian`
(so the singleton branch skips it) but its guardian's family is never emitted
(the guardian is not in the input), so the union of the families is a strict
subset of the input. -/
theorem createGuardianFamilies_omits_unresolved (cs : List Competitor)
    (e : Competitor) (g : String) (he : e ∈ cs)
    (hg : e.guardianId = some g) (hgne : g ≠ "")
    (hnog : ∀ c ∈ cs, c.id ≠ g)
    (hnodep : ∀ c ∈ cs, c.guardianId ≠ some e.id) :
    e ∉ (createGuardianFamilies cs).flatten ∧ e ∈ cs := by
  refine ⟨?_, he⟩
  intro hmem
  rcases List.mem_flatten.mp hmem with ⟨fam, hfam, hefam⟩
  exact cgf_fold_omits cs e g hg hgne hnog hnodep cs ([], [])
    (fun x hx => hx) (by intro fam' h; cases h) fam hfam hefam

/-- C10 witness: on the one-element input whose entity references the absent
guardian `999`, no family contains the entity (the family list is empty). -/
theorem createGuardianFamilies_omits_unresolved_witness :
    wcDangling ∉ (createGuardianFamilies [wcDangling]).flatten ∧
    wcDangling ∈ [wcDangling] :=
  createGuardianFamilies_omits_unresolved [wcDangling] wcDangling "999"
    (by decide) (by decide) (by decide) (by decide) (by decide)

/-- C6 counterexample: on the four-coordinate vectors `[0,0,0,1]` and
`[0,0,0,0]` with one gender, one age and one equipment value and equipment
weight 4, the code computes a squared distance of 4 (the guardian-flag
coordinate receives the equipment weight, applied once), while the spec's
formula gives 1 (unweighted flag); with weight applied to the coordinate as
the claim states, the flag aside, the value would be 16.  Squared values
differing means the distances differ. -/
theorem weightedDistance_spec_fails :
    calculateWeightedDistanceSq [0, 0, 0, 1] [0, 0, 0, 0] c6Config ⟨0, 1, 2⟩ ≠
    specWeightedDistanceSq [0, 0, 0, 1] [0, 0, 0, 0] c6Config ⟨0, 1, 2⟩ := by
  have h1 : calculateWeightedDistanceSq [0, 0, 0, 1] [0, 0, 0, 0] c6Config ⟨0, 1, 2⟩ = 4 := by
    norm_num [calculateWeightedDistanceSq, segmentWeight, featAt, c6Config, defaultConfig,
      List.range_succ]
  have h2 : specWeightedDistanceSq [0, 0, 0, 1] [0, 0, 0, 0] c6Config ⟨0, 1, 2⟩ = 1 := by
    norm_num [specWeightedDistanceSq, segmentWeight, featAt, c6Config, defaultConfig,
      List.range_succ]
  rw [h1, h2]
  norm_num

/-- Value of `featAt` on an index-mapped range. -/
theorem featAt_map_range (n i : ℕ) (g : ℕ → ℚ) :
    featAt ((List.range n).map g) i = if i < n then g i else 0 := by
  unfold featAt
  rcases lt_or_ge i n with h | h
  · rw [if_pos h, List.getD_eq_getElem _ _ (by simpa using h), List.getElem_map,
      List.getElem_range]
  · rw [if_neg (by omega), List.getD_eq_default _ _ (by simpa using h)]

/-- C6 (amended): `calculateWeightedDistance` is the square root of the sum of
squared coordinate differences each multiplied *once* by its segment weight —
equivalently, the Euclidean norm after scaling each coordinate by the *square
root* of its segment weight — and the trailing guardian-flag coordinate is
weighted by the equipment weight, not left unweighted: for any per-coordinate
scaling `s` with `s i * s i = segmentWeight opts fw i`, the code's squared
distance equals the plain squared Euclidean distance of the `s`-scaled
vectors, and when the boundaries are ordered and the final index lies in the
equipment segment its weight is the equipment weight. -/
theorem weightedDistance_characterization (f1 f2 : List ℚ) (opts : Config)
    (fw : FeatureWeights) (s : ℕ → ℚ)
    (hs : ∀ i, s i * s i = segmentWeight opts fw i)
    (hlast : fw.ageStart ≤ fw.equipmentStart ∧ fw.equipmentStart ≤ f1.length - 1) :
    calculateWeightedDistanceSq f1 f2 opts fw =
      calculateDistanceSq ((List.range f1.length).map (fun i => s i * featAt f1 i))
        ((List.range f1.length).map (fun i => s i * featAt f2 i)) ∧
    segmentWeight opts fw (f1.length - 1) = opts.equipmentClassWeight := by
  constructor
  · unfold calculateWeightedDistanceSq calculateDistanceSq
    rw [List.length_map, List.length_range]
    congr 1
    apply List.map_congr_left
    intro i hi
    rw [List.mem_range] at hi
    rw [featAt_map_range, featAt_map_range, if_pos hi, if_pos hi, ← hs i]
    ring
  · unfold segmentWeight
    rcases hlast with ⟨h1, h2⟩
    split_ifs with ha hb
    · omega
    · omega
    · rfl

/-- C6 witness: the characterization applied to the counterexample vectors
with all weights 1 and the identity scaling. -/
theorem weightedDistance_characterization_witness :
    calculateWeightedDistanceSq [0, 0, 0, 1] [0, 0, 0, 0] defaultConfig ⟨0, 1, 2⟩ =
      calculateDistanceSq
        ((List.range ([0, 0, 0, (1 : ℚ)].length)).map
          (fun i => (fun _ => (1 : ℚ)) i * featAt [0, 0, 0, 1] i))
        ((List.range ([0, 0, 0, (1 : ℚ)].length)).map
          (fun i => (fun _ => (1 : ℚ)) i * featAt [0, 0, 0, 0] i)) ∧
    segmentWeight defaultConfig ⟨0, 1, 2⟩ ([0, 0, 0, (1 : ℚ)].length - 1) =
      defaultConfig.equipmentClassWeight :=
  weightedDistance_characterization [0, 0, 0, 1] [0, 0, 0, 0] defaultConfig ⟨0, 1, 2⟩
    (fun _ => 1)
    (by
      intro i
      unfold segmentWeight
      split
      · simp [defaultConfig]
      · split
        · simp [defaultConfig]
        · split
          · simp [defaultConfig]
          · norm_num)
    (by constructor <;> decide)

/-- With pairwise distinct ids, equal ids identify equal competitors. -/
theorem id_inj (cs : List Competitor) (hnd : (cs.map (fun c => c.id)).Nodup)
    {a b : Competitor} (ha : a ∈ cs) (hb : b ∈ cs) (hid : a.id = b.id) :
    a = b :=
  List.inj_on_of_nodup_map hnd ha hb hid

/-- Membership in the recorded dependents of a guardian id. -/
theorem mem_dependentsOf {cs : List Competitor} {g : String} {m : Competitor} :
    m ∈ dependentsOf cs g ↔
      m ∈ cs ∧ truthyId m.guardianId = true ∧ m.guardianId = some g := by
  unfold dependentsOf
  rw [List.mem_filter]
  constructor
  · rintro ⟨hm, hp⟩
    have h2 := (Bool.and_eq_true _ _).mp hp
    exact ⟨hm, h2.1, eq_of_beq h2.2⟩
  · rintro ⟨hm, ht, hg⟩
    refine ⟨hm, (Bool.and_eq_true _ _).mpr ⟨ht, ?_⟩⟩
    rw [hg]
    simp

/-- Under valid references no dependent is itself referenced as a guardian
(one level deep). -/
theorem guardianKey_false_of_truthy {cs : List Competitor}
    (hval : ValidGuardianRefs cs) {c : Competitor} (hc : c ∈ cs)
    (ht : truthyId c.guardianId = true) : isGuardianKey cs c.id = false := by
  rcases hval with ⟨hnd, href⟩
  by_contra h
  rw [Bool.not_eq_false, isGuardianKey, List.any_eq_true] at h
  rcases h with ⟨d, hd, hdp⟩
  have h2 := (Bool.and_eq_true _ _).mp hdp
  have hdg : d.guardianId = some c.id := eq_of_beq h2.2
  rcases href d hd h2.1 with ⟨p, hp, hpid, hpt⟩
  rw [hdg] at hpid
  have : p = c := id_inj cs hnd hp hc (Option.some.inj hpid)
  rw [this] at hpt
  rw [hpt] at ht
  cases ht

/-- A competitor with a truthy guardian reference is registered in
`dependentToGuardian`. -/
theorem dependentKey_of_truthy {cs : List Competitor} {c : Competitor}
    (hc : c ∈ cs) (ht : truthyId c.guardianId = true) :
    isDependentKey cs c.id = true := by
  unfold isDependentKey
  rw [List.any_eq_true]
  exact ⟨c, hc, (Bool.and_eq_true _ _).mpr ⟨ht, by simp⟩⟩

/-- With distinct ids, a competitor without a truthy guardian reference is not
registered in `dependentToGuardian`. -/
theorem dependentKey_false_of_not_truthy {cs : List Competitor}
    (hnd : (cs.map (fun c => c.id)).Nodup) {c : Competitor} (hc : c ∈ cs)
    (ht : truthyId c.guardianId = false) : isDependentKey cs c.id = false := by
  by_contra h
  rw [Bool.not_eq_false, isDependentKey, List.any_eq_true] at h
  rcases h with ⟨d, hd, hdp⟩
  have h2 := (Bool.and_eq_true _ _).mp hdp
  have : d = c := id_inj cs hnd hd hc (by simpa using h2.2)
  rw [this] at h2
  rw [ht] at h2
  cases h2.1

/-- Members of the families emitted for a prefix are input competitors, and
each is either a dependent or an element of the prefix. -/
theorem mem_charFamPre_flatten {cs l : List Competitor} (hl : ∀ x ∈ l, x ∈ cs)
    {m : Competitor} (hm : m ∈ (charFamPre cs l).flatten) :
    m ∈ cs ∧ (truthyId m.guardianId = true ∨ m ∈ l) := by
  rcases List.mem_flatten.mp hm with ⟨fam, hfam, hmf⟩
  unfold charFamPre at hfam
  rcases List.mem_map.mp hfam with ⟨c, hcf, hemit⟩
  have hcl := (List.mem_filter.mp hcf).1
  subst hemit
  unfold cgfEmit at hmf
  split at hmf
  · rcases List.mem_cons.mp hmf with hmc | hdep
    · subst hmc
      exact ⟨hl m hcl, Or.inr hcl⟩
    · rcases mem_dependentsOf.mp hdep with ⟨hmcs, hmt, _⟩
      exact ⟨hmcs, Or.inl hmt⟩
  · have : m = c := by simpa using hmf
    subst this
    exact ⟨hl m hcl, Or.inr hcl⟩

/-- A non-dependent competitor about to be processed is not yet in the
`processed` set of the characterized prefix. -/
theorem fresh_not_processed {cs pre suf : List Competitor} {c : Competitor}
    (hnd : (cs.map (fun x => x.id)).Nodup) (hcs : cs = pre ++ c :: suf)
    (ht : truthyId c.guardianId = false) :
    c.id ∉ ((charFamPre cs pre).flatten.map (fun m => m.id)) := by
  have hndl : cs.Nodup := List.Nodup.of_map _ hnd
  have hpre : ∀ x ∈ pre, x ∈ cs := by
    intro x hx
    rw [hcs]
    exact List.mem_append_left _ hx
  intro hmem
  rcases List.mem_map.mp hmem with ⟨m, hmf, hmid⟩
  rcases mem_charFamPre_flatten hpre hmf with ⟨hmcs, hcase⟩
  have hcc : c ∈ cs := by
    rw [hcs]
    exact List.mem_append_right _ (List.mem_cons_self _ _)
  have hmc : m = c := id_inj cs hnd hmcs hcc hmid
  subst hmc
  rcases hcase with htm | hml
  · rw [ht] at htm
    cases htm
  · rw [hcs] at hndl
    rcases List.nodup_append.mp hndl with ⟨_, _, hdisj⟩
    exact hdisj hml (List.mem_cons_self _ _)

/-- The `createGuardianFamilies` fold computes the characterized family list:
processing a suffix extends the characterization of the prefix. -/
theorem cgf_fold_char (cs : List Competitor) (hval : ValidGuardianRefs cs) :
    ∀ (suf pre : List Competitor), cs = pre ++ suf →
      suf.foldl (cgfStep cs)
        (charFamPre cs pre, (charFamPre cs pre).flatten.map (fun m => m.id)) =
      (charFamPre cs (pre ++ suf),
        (charFamPre cs (pre ++ suf)).flatten.map (fun m => m.id)) := by
  intro suf
  induction suf with
  | nil =>
    intro pre _
    simp
  | cons c suf' ih =>
    intro pre hcs
    have hcc : c ∈ cs := by
      rw [hcs]
      exact List.mem_append_right _ (List.mem_cons_self _ _)
    have hstep : cgfStep cs
        (charFamPre cs pre, (charFamPre cs pre).flatten.map (fun m => m.id)) c =
        (charFamPre cs (pre ++ [c]),
          (charFamPre cs (pre ++ [c])).flatten.map (fun m => m.id)) := by
      cases htc : truthyId c.guardianId with
      | true =>
        -- dependents are skipped: either already processed or caught by the
        -- dependent-key branch; the guardian-key branch is impossible
        have hchar : charFamPre cs (pre ++ [c]) = charFamPre cs pre := by
          unfold charFamPre
          rw [List.filter_append]
          simp [htc]
        rw [hchar]
        unfold cgfStep
        split
        · rfl
        · rw [guardianKey_false_of_truthy hval hcc htc]
          simp only [Bool.false_eq_true, if_false]
          rw [dependentKey_of_truthy hcc htc]
          simp
      | false =>
        have hfresh := fresh_not_processed hval.1 hcs htc
        have hchar : charFamPre cs (pre ++ [c]) =
            charFamPre cs pre ++ [cgfEmit cs c] := by
          unfold charFamPre
          rw [List.filter_append, List.map_append]
          simp [htc]
        unfold cgfStep
        rw [if_neg hfresh]
        cases hk : isGuardianKey cs c.id with
        | true =>
          simp only [if_pos rfl]
          rw [hchar]
          unfold cgfEmit
          rw [if_pos hk]
          simp
        | false =>
          simp only [Bool.false_eq_true, if_false]
          rw [dependentKey_false_of_not_truthy hval.1 hcc htc]
          simp only [Bool.false_eq_true, if_false]
          rw [hchar]
          unfold cgfEmit
          rw [if_neg (by simp [hk])]
          simp
    rw [List.foldl_cons, hstep, ih (pre ++ [c]) (by rw [hcs]; simp)]
    simp

/-- Under valid guardian references `createGuardianFamilies` equals its closed
form: one family per non-dependent competitor, in input order, each holding
the competitor followed by its recorded dependents. -/
theorem createGuardianFamilies_char (cs : List Competitor)
    (hval : ValidGuardianRefs cs) :
    createGuardianFamilies cs = charFamPre cs cs := by
  unfold createGuardianFamilies
  have h0 : (([], []) : List (List Competitor) × List String) =
      (charFamPre cs [], (charFamPre cs []).flatten.map (fun m => m.id)) := by
    simp [charFamPre]
  rw [h0, cgf_fold_char cs hval cs [] rfl]
  simp

/-- Sum of an indicator map counts occurrences. -/
theorem sum_map_ite_eq {α : Type} [DecidableEq α] (l : List α) (p : α) (k : ℕ) :
    (l.map (fun c => if c = p then k else 0)).sum = k * l.count p := by
  induction l with
  | nil => simp
  | cons a t ih =>
    by_cases hap : a = p
    · subst hap
      simp [ih, List.count_cons]
      ring
    · simp [hap, ih, List.count_cons, Ne.symm hap]

/-- Removing the element at a valid index is dropping one occurrence. -/
theorem perm_getElem_cons_eraseIdx {α : Type} [DecidableEq α] {l : List α}
    {i : ℕ} (h : i < l.length) : l.Perm (l[i] :: l.eraseIdx i) :=
  (List.perm_cons_erase (List.getElem_mem h)).trans
    (List.Perm.cons _ (List.erase_getElem h))

/-- Coverage of the family grouper: under valid guardian references the
concatenation of all families is a permutation of the input — every entity is
in exactly one family, at one position. -/
theorem families_flatten_perm (cs : List Competitor)
    (hval : ValidGuardianRefs cs) :
    (createGuardianFamilies cs).flatten.Perm cs := by
  rw [createGuardianFamilies_char cs hval]
  apply List.perm_iff_count.mpr
  intro x
  rw [List.count_flatten]
  unfold charFamPre
  rw [List.map_map]
  have hnd := hval.1
  have hndl : cs.Nodup := List.Nodup.of_map _ hnd
  cases htx : truthyId x.guardianId with
  | false =>
    -- a non-dependent appears exactly in the head of its own family
    have hpt : ∀ c ∈ cs.filter (fun c => ! truthyId c.guardianId),
        ((List.count x) ∘ (cgfEmit cs)) c = if c = x then 1 else 0 := by
      intro c hc
      have hcm := (List.mem_filter.mp hc).1
      have hdeps : ∀ g, List.count x (dependentsOf cs g) = 0 := by
        intro g
        rw [List.count_eq_zero]
        intro hxd
        rcases mem_dependentsOf.mp hxd with ⟨_, hxt, _⟩
        rw [htx] at hxt
        cases hxt
      simp only [Function.comp_apply]
      unfold cgfEmit
      split
      · rw [List.count_cons, hdeps]
        by_cases hcx : c = x
        · simp [hcx]
        · simp [hcx, fun h => hcx (Eq.symm h)]
      · by_cases hcx : c = x
        · simp [hcx]
        · simp [List.count_cons, fun h => hcx (Eq.symm h), hcx]
    rw [List.map_congr_left hpt, sum_map_ite_eq, one_mul, List.count_filter]
    simp [htx]
  | true =>
    by_cases hx : x ∈ cs
    · rcases hval.2 x hx htx with ⟨p, hp, hpid, hpt⟩
      have hpgk : isGuardianKey cs p.id = true := by
        unfold isGuardianKey
        rw [List.any_eq_true]
        refine ⟨x, hx, (Bool.and_eq_true _ _).mpr ⟨htx, ?_⟩⟩
        rw [← hpid]
        simp
      have hpt2 : ∀ c ∈ cs.filter (fun c => ! truthyId c.guardianId),
          ((List.count x) ∘ (cgfEmit cs)) c = if c = p then cs.count x else 0 := by
        intro c hc
        rcases List.mem_filter.mp hc with ⟨hcm, hcf⟩
        have hct : truthyId c.guardianId = false := by
          cases h : truthyId c.guardianId
          · rfl
          · rw [h] at hcf; cases hcf
        have hcx : c ≠ x := by
          intro h
          rw [h, htx] at hct
          cases hct
        simp only [Function.comp_apply]
        by_cases hcp : c = p
        · subst hcp
          unfold cgfEmit
          rw [if_pos hpgk, List.count_cons]
          have : List.count x (dependentsOf cs c.id) = cs.count x := by
            unfold dependentsOf
            apply List.count_filter
            rw [Bool.and_eq_true]
            refine ⟨htx, ?_⟩
            rw [← hpid]
            simp
          simp [this, hcx, fun h => hcx (Eq.symm h)]
        · unfold cgfEmit
          split
          · rw [List.count_cons]
            have : List.count x (dependentsOf cs c.id) = 0 := by
              rw [List.count_eq_zero]
              intro hxd
              rcases mem_dependentsOf.mp hxd with ⟨_, _, hxg⟩
              rw [hxg] at hpid
              exact hcp (id_inj cs hnd hcm hp (Eq.symm (Option.some.inj hpid)))
            simp [this, hcx, fun h => hcx (Eq.symm h), hcp]
          · rw [List.count_eq_zero]
            intro h
            exact hcx (Eq.symm (by simpa using h))
      rw [List.map_congr_left hpt2, sum_map_ite_eq, List.count_filter]
      · have hcp1 : cs.count p = 1 := List.count_eq_one_of_mem hndl hp
        rw [hcp1]
        ring
      · simp [hpt]
    · -- x is not an input entity at all: both counts are zero
      have hz : ∀ c ∈ cs.filter (fun c => ! truthyId c.guardianId),
          ((List.count x) ∘ (cgfEmit cs)) c = 0 := by
        intro c hc
        have hcm := (List.mem_filter.mp hc).1
        have hcx : c ≠ x := fun h => hx (h ▸ hcm)
        simp only [Function.comp_apply]
        rw [List.count_eq_zero]
        intro hxm
        unfold cgfEmit at hxm
        split at hxm
        · rcases List.mem_cons.mp hxm with h | h
          · exact hcx h.symm
          · exact hx (mem_dependentsOf.mp h).1
        · have : x = c := by simpa using hxm
          exact hcx this.symm
      rw [List.map_congr_left hz]
      have : cs.count x = 0 := List.count_eq_zero.mpr hx
      simp [this]

/-- Atomicity seed: under valid references, a dependent and its guardian are
members of one common family produced by the grouper. -/
theorem guardian_dependent_same_family (cs : List Competitor)
    (hval : ValidGuardianRefs cs) {d p : Competitor} (hd : d ∈ cs)
    (hp : p ∈ cs) (hdg : d.guardianId = some p.id) (ht : truthyId d.guardianId = true) :
    ∃ fam ∈ createGuardianFamilies cs, d ∈ fam ∧ p ∈ fam := by
  rw [createGuardianFamilies_char cs hval]
  have hpt : truthyId p.guardianId = false := by
    rcases hval.2 d hd ht with ⟨q, hq, hqid, hqt⟩
    rw [hdg] at hqid
    have : q = p := id_inj cs hval.1 hq hp (Option.some.inj hqid)
    rw [← this]
    exact hqt
  refine ⟨p :: dependentsOf cs p.id, ?_, ?_, List.mem_cons_self _ _⟩
  · unfold charFamPre
    apply List.mem_map.mpr
    refine ⟨p, ?_, ?_⟩
    · rw [List.mem_filter]
      exact ⟨hp, by rw [hpt]; rfl⟩
    · unfold cgfEmit
      rw [if_pos ?_]
      unfold isGuardianKey
      rw [List.any_eq_true]
      refine ⟨d, hd, (Bool.and_eq_true _ _).mpr ⟨ht, ?_⟩⟩
      rw [hdg]
      simp
  · apply List.mem_cons_of_mem
    exact mem_dependentsOf.mpr ⟨hd, ht, hdg⟩

/-- Every family the grouper returns is non-empty. -/
theorem families_nonempty (cs : List Competitor) (hval : ValidGuardianRefs cs) :
    ∀ fam ∈ createGuardianFamilies cs, fam ≠ [] := by
  rw [createGuardianFamilies_char cs hval]
  intro fam hfam
  unfold charFamPre at hfam
  rcases List.mem_map.mp hfam with ⟨c, _, hemit⟩
  subst hemit
  unfold cgfEmit
  split <;> simp

/-! ## Greedy solver invariants -/

/-- Characterization of the variable map after assigning one family to subset
`j`. -/
theorem assignFamily_iff (cs : List Competitor) (sol : ℕ → ℕ → Bool)
    (fam : List Competitor) (j : ℕ) (a b : ℕ) :
    assignFamily cs sol fam j a b = true ↔
      (sol a b = true ∨ (b = j ∧ ∃ m ∈ fam, cs.findIdx (fun x => x.id == m.id) = a)) := by
  induction fam generalizing sol with
  | nil => simp [assignFamily]
  | cons m t ih =>
    unfold assignFamily at ih ⊢
    rw [List.foldl_cons, ih]
    unfold setVar
    constructor
    · rintro (h | h)
      · split at h
        · rename_i hab
          exact Or.inr ⟨hab.2, m, List.mem_cons_self _ _, hab.1.symm⟩
        · exact Or.inl h
      · exact Or.inr ⟨h.1, h.2.choose, List.mem_cons_of_mem _ h.2.choose_spec.1,
          h.2.choose_spec.2⟩
    · rintro (h | ⟨hb, m', hm', hidx⟩)
      · refine Or.inl ?_
        split
        · rfl
        · exact h
      · rcases List.mem_cons.mp hm' with hm | hm
        · subst hm
          refine Or.inl ?_
          rw [if_pos ⟨hidx.symm, hb⟩]
        · exact Or.inr ⟨hb, m', hm, hidx⟩

/-- A successful best-family scan returns an index inside the backlog. -/
theorem pickBestFamily_lt (opts : Config) (subset : List Competitor)
    (backlog : List (List Competitor)) (p : ℕ × ℚ)
    (h : pickBestFamily opts subset backlog = some p) : p.1 < backlog.length := by
  unfold pickBestFamily at h
  suffices hgen : ∀ (l : List (ℕ × List Competitor)) (acc : Option (ℕ × ℚ)),
      (∀ q ∈ l, q.1 < backlog.length) →
      (∀ r, acc = some r → r.1 < backlog.length) →
      ∀ r, l.foldl (fun best p =>
        if ((subset.length + p.2.length : ℕ) : ℤ) ≤ opts.maxSubsetSize then
          let sc := calculateSubsetScore opts (subset ++ p.2)
          match best with
          | none => some (p.1, sc)
          | some b => if sc > b.2 then some (p.1, sc) else best
        else best) acc = some r → r.1 < backlog.length by
    exact hgen backlog.enum none
      (fun q hq => List.fst_lt_of_mem_enum hq) (by intro r hr; cases hr) p h
  intro l
  induction l with
  | nil =>
    intro acc _ hacc r hr
    exact hacc r hr
  | cons q t ih =>
    intro acc hl hacc r hr
    refine ih _ (fun x hx => hl x (List.mem_cons_of_mem _ hx)) ?_ r hr
    intro r' hr'
    dsimp only at hr'
    split at hr'
    · cases acc with
      | none =>
        simp only at hr'
        rw [← Option.some.inj hr']
        exact hl q (List.mem_cons_self _ _)
      | some b =>
        simp only at hr'
        split at hr'
        · rw [← Option.some.inj hr']
          exact hl q (List.mem_cons_self _ _)
        · exact hacc r' hr'
    · exact hacc r' hr'

/-- The fill loop moves a multiset `M` of families from the backlog into
subset `j`: the remaining backlog plus `M` permutes the original backlog, and
the variable map gains exactly the members of `M` at column `j`. -/
theorem fillLoop_spec (opts : Config) (cs : List Competitor) (j : ℕ) :
    ∀ (fuel : ℕ) (subset : List Competitor) (sol : ℕ → ℕ → Bool)
      (backlog : List (List Competitor)), backlog.length ≤ fuel →
      ∃ M : List (List Competitor),
        (M ++ (fillLoop opts cs j fuel subset sol backlog).2.2.1).Perm backlog ∧
        ∀ a b, (fillLoop opts cs j fuel subset sol backlog).2.1 a b = true ↔
          (sol a b = true ∨
            ∃ fam ∈ M, b = j ∧ ∃ m ∈ fam, cs.findIdx (fun x => x.id == m.id) = a) := by
  intro fuel
  induction fuel with
  | zero =>
    intro subset sol backlog hlen
    have hb : backlog = [] := List.length_eq_zero.mp (Nat.le_zero.mp hlen)
    subst hb
    refine ⟨[], by simp [fillLoop], ?_⟩
    intro a b
    simp [fillLoop]
  | succ fuel ih =>
    intro subset sol backlog hlen
    by_cases hb : backlog.isEmpty
    · refine ⟨[], ?_, ?_⟩
      · simp [fillLoop, hb, List.isEmpty_iff.mp hb]
      · intro a b
        simp [fillLoop, hb]
    · have hstep : fillLoop opts cs j (fuel + 1) subset sol backlog =
          (match pickBestFamily opts subset backlog with
            | none => (subset, sol, backlog, false)
            | some p =>
              fillLoop opts cs j fuel (subset ++ backlog.getD p.1 [])
                (assignFamily cs sol (backlog.getD p.1 []) j)
                (backlog.eraseIdx p.1)) := by
        conv_lhs => rw [fillLoop]
        rw [if_neg (by simp [hb])]
      rw [hstep]
      cases hp : pickBestFamily opts subset backlog with
      | none =>
        refine ⟨[], by simp, ?_⟩
        intro a b
        simp
      | some p =>
        have hlt := pickBestFamily_lt opts subset backlog p hp
        have hget : backlog.getD p.1 [] = backlog[p.1] := List.getD_eq_getElem _ _ hlt
        have hlen' : (backlog.eraseIdx p.1).length ≤ fuel := by
          have := List.length_eraseIdx_add_one hlt
          omega
        rcases ih (subset ++ backlog.getD p.1 [])
            (assignFamily cs sol (backlog.getD p.1 []) j)
            (backlog.eraseIdx p.1) hlen' with ⟨M', hperm, hiff⟩
        refine ⟨backlog.getD p.1 [] :: M', ?_, ?_⟩
        · rw [List.cons_append]
          refine List.Perm.trans (List.Perm.cons _ hperm) ?_
          rw [hget]
          exact (perm_getElem_cons_eraseIdx hlt).symm
        · intro a b
          rw [hiff a b, assignFamily_iff]
          constructor
          · rintro ((h | h) | h)
            · exact Or.inl h
            · exact Or.inr ⟨_, List.mem_cons_self _ _, h.1, h.2⟩
            · rcases h with ⟨fam, hfam, hbj, hm⟩
              exact Or.inr ⟨fam, List.mem_cons_of_mem _ hfam, hbj, hm⟩
          · rintro (h | ⟨fam, hfam, hbj, hm⟩)
            · exact Or.inl (Or.inl h)
            · rcases List.mem_cons.mp hfam with hf | hf
              · subst hf
                exact Or.inl (Or.inr ⟨hbj, hm⟩)
              · exact Or.inr ⟨fam, hf, hbj, hm⟩

/-- When the fill loop stops with `canAddMore` still true, its backlog is
empty — the source's outer loop can therefore never revisit a subset. -/
theorem fillLoop_canAddMore_empty (opts : Config) (cs : List Competitor) (j : ℕ) :
    ∀ (fuel : ℕ) (subset : List Competitor) (sol : ℕ → ℕ → Bool)
      (backlog : List (List Competitor)),
      (fillLoop opts cs j fuel subset sol backlog).2.2.2 = true →
      (fillLoop opts cs j fuel subset sol backlog).2.2.1 = [] := by
  intro fuel
  induction fuel with
  | zero =>
    intro subset sol backlog h
    unfold fillLoop at h ⊢
    split at h
    · rename_i he
      rw [if_pos he]
      exact List.isEmpty_iff.mp he
    · cases h
  | succ fuel ih =>
    intro subset sol backlog h
    by_cases he : backlog.isEmpty
    · unfold fillLoop
      rw [if_pos he]
      exact List.isEmpty_iff.mp he
    · have hstep : fillLoop opts cs j (fuel + 1) subset sol backlog =
          (match pickBestFamily opts subset backlog with
            | none => (subset, sol, backlog, false)
            | some p =>
              fillLoop opts cs j fuel (subset ++ backlog.getD p.1 [])
                (assignFamily cs sol (backlog.getD p.1 []) j)
                (backlog.eraseIdx p.1)) := by
        conv_lhs => rw [fillLoop]
        rw [if_neg he]
      rw [hstep] at h ⊢
      cases hp : pickBestFamily opts subset backlog with
      | none => rw [hp] at h; cases h
      | some p =>
        rw [hp] at h
        exact ih _ _ _ h

/-- The main greedy loop moves families from the backlog into subsets
`j, j+1, …`: the placements `M` record which family went to which subset
index, all below `j + fuel` (the loop bound), and the variable map is the
initial one plus exactly those placements. -/
theorem greedyMainLoop_spec (opts : Config) (cs : List Competitor) (maxS : ℕ) :
    ∀ (fuel j : ℕ) (subsets : List (List Competitor)) (sol : ℕ → ℕ → Bool)
      (backlog : List (List Competitor)),
      ∃ M : List (List Competitor × ℕ),
        (M.map Prod.fst ++
          (greedyMainLoop opts cs maxS fuel j subsets sol backlog).2.2.1).Perm backlog ∧
        (∀ q ∈ M, j ≤ q.2 ∧ q.2 < j + fuel) ∧
        ∀ a b, (greedyMainLoop opts cs maxS fuel j subsets sol backlog).2.1 a b = true ↔
          (sol a b = true ∨
            ∃ q ∈ M, q.2 = b ∧ ∃ m ∈ q.1, cs.findIdx (fun x => x.id == m.id) = a) := by
  intro fuel
  induction fuel with
  | zero =>
    intro j subsets sol backlog
    refine ⟨[], by simp [greedyMainLoop], by simp, ?_⟩
    intro a b
    simp [greedyMainLoop]
  | succ fuel ih =>
    intro j subsets sol backlog
    by_cases hb : backlog.isEmpty
    · refine ⟨[], ?_, by simp, ?_⟩
      · simp [greedyMainLoop, hb, List.isEmpty_iff.mp hb]
      · intro a b
        simp [greedyMainLoop, hb]
    · have hstep : greedyMainLoop opts cs maxS (fuel + 1) j subsets sol backlog =
          (let r := fillLoop opts cs j backlog.length (subsets.getD j []) sol backlog
           if (opts.minSubsetSize ≤ (r.1.length : ℤ)) ∨ r.2.2.2 = false then
             greedyMainLoop opts cs maxS fuel (j + 1) (subsets.set j r.1) r.2.1 r.2.2.1
           else (subsets.set j r.1, r.2.1, r.2.2.1, j)) := by
        conv_lhs => rw [greedyMainLoop]
        rw [if_neg (by simp [hb])]
      rw [hstep]
      rcases fillLoop_spec opts cs j backlog.length (subsets.getD j []) sol backlog
        (le_refl _) with ⟨M0, hperm0, hiff0⟩
      set r := fillLoop opts cs j backlog.length (subsets.getD j []) sol backlog with hr
      dsimp only
      split
      · rcases ih (j + 1) (subsets.set j r.1) r.2.1 r.2.2.1 with ⟨M1, hperm1, hbound1, hiff1⟩
        refine ⟨M0.map (fun f => (f, j)) ++ M1, ?_, ?_, ?_⟩
        · rw [List.map_append, List.map_map, List.append_assoc]
          have : (Prod.fst ∘ fun f => (f, j)) = (id : List Competitor → List Competitor) := by
            funext f
            rfl
          rw [this, List.map_id]
          exact List.Perm.trans (List.Perm.append_left M0 hperm1) hperm0
        · intro q hq
          rcases List.mem_append.mp hq with h | h
          · rcases List.mem_map.mp h with ⟨f, _, hfq⟩
            rw [← hfq]
            omega
          · have := hbound1 q h
            omega
        · intro a b
          rw [hiff1 a b, hiff0 a b]
          constructor
          · rintro ((h | ⟨fam, hfam, hbj, hm⟩) | ⟨q, hq, hqb, hm⟩)
            · exact Or.inl h
            · exact Or.inr ⟨(fam, j), List.mem_append_left _
                (List.mem_map.mpr ⟨fam, hfam, rfl⟩), hbj.symm, hm⟩
            · exact Or.inr ⟨q, List.mem_append_right _ hq, hqb, hm⟩
          · rintro (h | ⟨q, hq, hqb, hm⟩)
            · exact Or.inl (Or.inl h)
            · rcases List.mem_append.mp hq with h' | h'
              · rcases List.mem_map.mp h' with ⟨f, hf, hfq⟩
                refine Or.inl (Or.inr ⟨f, hf, ?_, ?_⟩)
                · rw [← hfq] at hqb
                  exact hqb.symm
                · rw [← hfq] at hqb hm
                  exact hm
              · exact Or.inr ⟨q, h', hqb, hm⟩
      · refine ⟨M0.map (fun f => (f, j)), ?_, ?_, ?_⟩
        · rw [List.map_map]
          have : (Prod.fst ∘ fun f => (f, j)) = (id : List Competitor → List Competitor) := by
            funext f
            rfl
          rw [this, List.map_id]
          exact hperm0
        · intro q hq
          rcases List.mem_map.mp hq with ⟨f, _, hfq⟩
          rw [← hfq]
          omega
        · intro a b
          rw [hiff0 a b]
          constructor
          · rintro (h | ⟨fam, hfam, hbj, hm⟩)
            · exact Or.inl h
            · exact Or.inr ⟨(fam, j), List.mem_map.mpr ⟨fam, hfam, rfl⟩, hbj.symm, hm⟩
          · rintro (h | ⟨q, hq, hqb, hm⟩)
            · exact Or.inl h
            · rcases List.mem_map.mp hq with ⟨f, hf, hfq⟩
              refine Or.inr ⟨f, hf, ?_, ?_⟩
              · rw [← hfq] at hqb
                exact hqb.symm
              · rw [← hfq] at hqb hm
                exact hm

/-- The leftover-placement scan returns an index inside the subsets list (or
its initial 0). -/
theorem pickLeftoverSubset_lt (opts : Config) (subsets : List (List Competitor))
    (famLen : ℕ) (hne : 1 ≤ subsets.length) :
    (pickLeftoverSubset opts subsets famLen).1 < subsets.length := by
  unfold pickLeftoverSubset
  suffices hgen : ∀ (l : List (ℕ × List Competitor)) (acc : ℕ × ℤ),
      (∀ q ∈ l, q.1 < subsets.length) → acc.1 < subsets.length →
      (l.foldl (fun best p =>
        let availableSpace : ℤ := opts.maxSubsetSize - (p.2.length : ℤ)
        if (famLen : ℤ) ≤ availableSpace then
          let sizeScore : ℤ :=
            1000 - |((p.2.length + famLen : ℕ) : ℤ) - opts.preferredSubsetSize|
          let totalScore := sizeScore + availableSpace
          if totalScore > best.2 then (p.1, totalScore) else best
        else best) acc).1 < subsets.length by
    exact hgen subsets.enum (0, -1) (fun q hq => List.fst_lt_of_mem_enum hq) hne
  intro l
  induction l with
  | nil => intro acc _ hacc; exact hacc
  | cons q t ih =>
    intro acc hl hacc
    refine ih _ (fun x hx => hl x (List.mem_cons_of_mem _ hx)) ?_
    dsimp only
    split
    · split
      · exact hl q (List.mem_cons_self _ _)
      · exact hacc
    · exact hacc

/-- The chosen leftover destination is a valid subset index. -/
theorem leftoverChoice_lt (opts : Config) (maxS : ℕ)
    (subsets : List (List Competitor)) (famLen cur : ℕ)
    (hlen : subsets.length = maxS) (hmax : 1 ≤ maxS) :
    (leftoverChoice opts maxS subsets famLen cur).1 < maxS := by
  unfold leftoverChoice
  dsimp only
  split
  · rename_i ho
    exact ho.2
  · rw [← hlen]
    exact pickLeftoverSubset_lt opts subsets famLen (by omega)

/-- The leftover loop places every remaining family: each element of the
backlog is recorded at some subset index below `maxS`, and the variable map
gains exactly those placements. -/
theorem leftoverLoop_spec (opts : Config) (cs : List Competitor) (maxS : ℕ)
    (hmax : 1 ≤ maxS) :
    ∀ (rest subsets : List (List Competitor)) (sol : ℕ → ℕ → Bool) (cur : ℕ),
      subsets.length = maxS →
      ∃ M : List (List Competitor × ℕ),
        M.map Prod.fst = rest ∧ (∀ q ∈ M, q.2 < maxS) ∧
        ∀ a b, (leftoverLoop opts cs maxS rest subsets sol cur).2.1 a b = true ↔
          (sol a b = true ∨
            ∃ q ∈ M, q.2 = b ∧ ∃ m ∈ q.1, cs.findIdx (fun x => x.id == m.id) = a) := by
  intro rest
  induction rest with
  | nil =>
    intro subsets sol cur _
    refine ⟨[], rfl, by simp, ?_⟩
    intro a b
    simp [leftoverLoop]
  | cons fam rest ih =>
    intro subsets sol cur hlen
    have hc : (leftoverChoice opts maxS subsets fam.length cur).1 < maxS :=
      leftoverChoice_lt opts maxS subsets fam.length cur hlen hmax
    rcases ih (subsets.set (leftoverChoice opts maxS subsets fam.length cur).1
        ((subsets.getD (leftoverChoice opts maxS subsets fam.length cur).1 []) ++ fam))
        (assignFamily cs sol fam (leftoverChoice opts maxS subsets fam.length cur).1)
        (leftoverChoice opts maxS subsets fam.length cur).2
        (by rw [List.length_set]; exact hlen) with ⟨M', hfst, hbound, hiff⟩
    refine ⟨(fam, (leftoverChoice opts maxS subsets fam.length cur).1) :: M', ?_, ?_, ?_⟩
    · simp [hfst]
    · intro q hq
      rcases List.mem_cons.mp hq with h | h
      · rw [h]
        exact hc
      · exact hbound q h
    · intro a b
      rw [show leftoverLoop opts cs maxS (fam :: rest) subsets sol cur =
          leftoverLoop opts cs maxS rest
            (subsets.set (leftoverChoice opts maxS subsets fam.length cur).1
              ((subsets.getD (leftoverChoice opts maxS subsets fam.length cur).1 []) ++ fam))
            (assignFamily cs sol fam (leftoverChoice opts maxS subsets fam.length cur).1)
            (leftoverChoice opts maxS subsets fam.length cur).2 from rfl]
      rw [hiff a b, assignFamily_iff]
      constructor
      · rintro ((h | h) | ⟨q, hq, hqb, hm⟩)
        · exact Or.inl h
        · exact Or.inr ⟨_, List.mem_cons_self _ _, h.1.symm, h.2⟩
        · exact Or.inr ⟨q, List.mem_cons_of_mem _ hq, hqb, hm⟩
      · rintro (h | ⟨q, hq, hqb, hm⟩)
        · exact Or.inl (Or.inl h)
        · rcases List.mem_cons.mp hq with h' | h'
          · subst h'
            exact Or.inl (Or.inr ⟨hqb.symm, hm⟩)
          · exact Or.inr ⟨q, h', hqb, hm⟩

/-- The main greedy loop never changes the number of subset slots. -/
theorem greedyMainLoop_length (opts : Config) (cs : List Competitor) (maxS : ℕ) :
    ∀ (fuel j : ℕ) (subsets : List (List Competitor)) (sol : ℕ → ℕ → Bool)
      (backlog : List (List Competitor)),
      (greedyMainLoop opts cs maxS fuel j subsets sol backlog).1.length =
        subsets.length := by
  intro fuel
  induction fuel with
  | zero =>
    intro j subsets sol backlog
    rfl
  | succ fuel ih =>
    intro j subsets sol backlog
    by_cases hb : backlog.isEmpty
    · rw [greedyMainLoop, if_pos hb]
    · rw [greedyMainLoop, if_neg hb]
      dsimp only
      split
      · rw [ih]
        exact List.length_set ..
      · exact List.length_set ..

/-- `solveGreedy` as a whole: the final variable map records a placement `M`
of exactly the guardian families (as a multiset) at subset indices below the
solver's `maxSubsets`. -/
theorem solveGreedy_spec (cs : List Competitor) (opts : Config)
    (hmax : 1 ≤ solverMaxSubsets opts cs.length) :
    ∃ M : List (List Competitor × ℕ),
      (M.map Prod.fst).Perm (createGuardianFamilies cs) ∧
      (∀ q ∈ M, q.2 < solverMaxSubsets opts cs.length) ∧
      ∀ a b, (solveGreedy cs opts).1 a b = true ↔
        ∃ q ∈ M, q.2 = b ∧ ∃ m ∈ q.1, cs.findIdx (fun x => x.id == m.id) = a := by
  unfold solveGreedy
  dsimp only
  set maxS := solverMaxSubsets opts cs.length with hms
  set families := createGuardianFamilies cs with hfam
  rcases greedyMainLoop_spec opts cs maxS maxS 0 (List.replicate maxS [])
    (fun _ _ => false) families with ⟨M0, hperm0, hbound0, hiff0⟩
  set r := greedyMainLoop opts cs maxS maxS 0 (List.replicate maxS [])
    (fun _ _ => false) families with hr
  have hrl : r.1.length = maxS := by
    rw [hr, greedyMainLoop_length]
    exact List.length_replicate ..
  rcases leftoverLoop_spec opts cs maxS hmax r.2.2.1 r.1 r.2.1 r.2.2.2 hrl with
    ⟨M1, hfst1, hbound1, hiff1⟩
  refine ⟨M0 ++ M1, ?_, ?_, ?_⟩
  · rw [List.map_append, hfst1]
    exact hperm0
  · intro q hq
    rcases List.mem_append.mp hq with h | h
    · have := hbound0 q h
      omega
    · exact hbound1 q h
  · intro a b
    rw [hiff1 a b, hiff0 a b]
    constructor
    · rintro ((h | ⟨q, hq, hqb, hm⟩) | ⟨q, hq, hqb, hm⟩)
      · cases h
      · exact ⟨q, List.mem_append_left _ hq, hqb, hm⟩
      · exact ⟨q, List.mem_append_right _ hq, hqb, hm⟩
    · rintro ⟨q, hq, hqb, hm⟩
      rcases List.mem_append.mp hq with h | h
      · exact Or.inl (Or.inr ⟨q, h, hqb, hm⟩)
      · exact Or.inr ⟨q, h, hqb, hm⟩

/-- The row of a member is in range and reads back as the member itself. -/
theorem rowOf_spec (cs : List Competitor) (hnd : (cs.map (fun x => x.id)).Nodup)
    {c : Competitor} (hc : c ∈ cs) :
    rowOf cs c < cs.length ∧ cs.getD (rowOf cs c) dfltComp = c := by
  have hlt : rowOf cs c < cs.length := by
    apply List.findIdx_lt_length_of_exists
    exact ⟨c, hc, by simp⟩
  refine ⟨hlt, ?_⟩
  rw [List.getD_eq_getElem _ _ hlt]
  have hpred : (fun x => x.id == c.id) (cs[rowOf cs c]) = true :=
    @List.findIdx_getElem _ _ cs hlt
  have hid : (cs[rowOf cs c]).id = c.id := by simpa using hpred
  exact id_inj cs hnd (List.getElem_mem hlt) hc hid

/-- Positions reading back a given member are unique. -/
theorem rowOf_unique (cs : List Competitor) (hnd : (cs.map (fun x => x.id)).Nodup)
    {c : Competitor} (hc : c ∈ cs) {i : ℕ} (hi : i < cs.length)
    (hg : cs.getD i dfltComp = c) : i = rowOf cs c := by
  have h1 := rowOf_spec cs hnd hc
  have hndl : cs.Nodup := List.Nodup.of_map _ hnd
  rw [List.getD_eq_getElem _ _ hi] at hg
  rw [List.getD_eq_getElem _ _ h1.1] at h1
  exact (List.Nodup.getElem_inj_iff hndl).mp (hg.trans h1.2.symm)

/-- Two list entries with positive tallies make the tally sum at least 2. -/
theorem two_mem_le_sum {α : Type} [DecidableEq α] {l : List α} {a b : α}
    (f : α → ℕ) (ha : a ∈ l) (hb : b ∈ l) (hab : a ≠ b) :
    f a + f b ≤ (l.map f).sum := by
  induction l with
  | nil => cases ha
  | cons x t ih =>
    rcases List.mem_cons.mp ha with hax | hat
    · subst hax
      have hbt : b ∈ t := by
        rcases List.mem_cons.mp hb with h | h
        · exact absurd h.symm hab
        · exact h
      have : f b ≤ (t.map f).sum := List.le_sum_of_mem (List.mem_map_of_mem f hbt)
      simp only [List.map_cons, List.sum_cons]
      omega
    · rcases List.mem_cons.mp hb with hbx | hbt
      · subst hbx
        have : f a ≤ (t.map f).sum := List.le_sum_of_mem (List.mem_map_of_mem f hat)
        simp only [List.map_cons, List.sum_cons]
        omega
      · have := ih hat hbt
        simp only [List.map_cons, List.sum_cons]
        omega

/-- If a placement's families permute the guardian families, every entity's
family is placed exactly once: it lands in exactly one column `j0`. -/
theorem placement_unique_column (cs : List Competitor)
    (hval : ValidGuardianRefs cs) (M : List (List Competitor × ℕ))
    (hM : (M.map Prod.fst).Perm (createGuardianFamilies cs))
    {c : Competitor} (hc : c ∈ cs) :
    ∃ j0, (∃ q ∈ M, c ∈ q.1 ∧ q.2 = j0) ∧ ∀ q ∈ M, c ∈ q.1 → q.2 = j0 := by
  have hfp : (createGuardianFamilies cs).flatten.Perm cs := families_flatten_perm cs hval
  have hndl : cs.Nodup := List.Nodup.of_map _ hval.1
  have hcount1 : (M.map Prod.fst).flatten.count c = 1 := by
    rw [List.Perm.count_eq (List.Perm.flatten hM),
      List.Perm.count_eq hfp]
    exact List.count_eq_one_of_mem hndl hc
  have hex : ∃ q ∈ M, c ∈ q.1 := by
    have hcf : c ∈ (M.map Prod.fst).flatten := by
      rw [← List.count_pos_iff, hcount1]
      omega
    rcases List.mem_flatten.mp hcf with ⟨fam, hfam, hcfam⟩
    rcases List.mem_map.mp hfam with ⟨q, hq, hqf⟩
    exact ⟨q, hq, hqf ▸ hcfam⟩
  rcases hex with ⟨q0, hq0, hcq0⟩
  refine ⟨q0.2, ⟨q0, hq0, hcq0, rfl⟩, ?_⟩
  intro q hq hcq
  by_cases hqq : q = q0
  · rw [hqq]
  · exfalso
    have hsum : (M.map (fun q => q.1.count c)).sum =
        (M.map Prod.fst).flatten.count c := by
      rw [List.count_flatten, List.map_map]
      rfl
    have h2 : q.1.count c + q0.1.count c ≤ (M.map (fun q => q.1.count c)).sum :=
      two_mem_le_sum (fun q => q.1.count c) hq hq0 hqq
    have hq1 : 1 ≤ q.1.count c := List.count_pos_iff.mpr hcq
    have hq01 : 1 ≤ q0.1.count c := List.count_pos_iff.mpr hcq0
    omega

/-- Summing an indicator over a list counts the satisfying elements. -/
theorem sum_map_ite_countP {α : Type} (l : List α) (p : α → Bool) :
    (l.map (fun a => if p a then (1 : ℕ) else 0)).sum = l.countP p := by
  induction l with
  | nil => simp
  | cons x t ih =>
    by_cases hx : p x <;> simp [hx, ih, List.countP_cons] <;> omega

/-- Dropping elements with zero tally does not change a tally sum. -/
theorem sum_map_filter_eq {α : Type} (l : List α) (p : α → Bool) (f : α → ℕ)
    (h : ∀ x ∈ l, p x = false → f x = 0) :
    ((l.filter p).map f).sum = (l.map f).sum := by
  induction l with
  | nil => simp
  | cons x t ih =>
    have ht : ∀ y ∈ t, p y = false → f y = 0 :=
      fun y hy => h y (List.mem_cons_of_mem _ hy)
    by_cases hx : p x
    · simp [hx, ih ht]
    · rw [List.filter_cons, if_neg (by simp [hx]), ih ht]
      simp [h x (List.mem_cons_self _ _) (by simp [hx])]

/-- `sanitizeSteps` never touches `maxSubsets` and keeps the minimum at 2 or
more. -/
theorem sanitizeSteps_facts (c : Config) (n : ℕ) :
    (sanitizeSteps c n).maxSubsets = c.maxSubsets ∧
    2 ≤ (sanitizeSteps c n).minSubsetSize := by
  unfold sanitizeSteps
  dsimp only
  refine ⟨rfl, ?_⟩
  split_ifs <;> omega

/-- The solver's subset cap is positive for non-empty input and a positive
configured `maxSubsets`. -/
theorem solverMaxSubsets_pos (opts : Config) (n : ℕ) (hn : 1 ≤ n)
    (hmax : 1 ≤ opts.maxSubsets) (hmin : 2 ≤ opts.minSubsetSize) :
    1 ≤ solverMaxSubsets opts n := by
  unfold solverMaxSubsets ceilDivNat
  have hpos : (0 : ℤ) < ⌈(n : ℚ) / (opts.minSubsetSize : ℚ)⌉ := by
    rw [Int.ceil_pos]
    apply div_pos
    · exact_mod_cast hn
    · exact_mod_cast (by omega : (0 : ℤ) < opts.minSubsetSize)
  omega

/-- Coverage of the greedy MIP solution matrix: each entity's row carries a 1
in exactly one column, which lies below the conversion width. -/
theorem solveMIP_row (cs : List Competitor) (o : PartitionOptions)
    (hval : ValidGuardianRefs cs) (hn : 1 ≤ cs.length)
    (hmax : 1 ≤ (mergeWithDefaults o).maxSubsets) {c : Competitor} (hc : c ∈ cs) :
    ∃ j0, j0 < (validateAndSanitizeOptions o cs.length).maxSubsets.toNat ∧
      ∀ b, (solveGreedy cs
        (sanitizeSteps (validateAndSanitizeOptions o cs.length) cs.length)).1
          (rowOf cs c) b = true ↔ b = j0 := by
  set n := cs.length with hn'
  set opts := validateAndSanitizeOptions o n with hopts
  set opts2 := sanitizeSteps opts n with hopts2
  have hfacts := sanitizeSteps_facts opts n
  have hmax2 : 1 ≤ opts2.maxSubsets := by
    rw [← hopts2] at hfacts
    rw [hfacts.1, hopts]
    unfold validateAndSanitizeOptions
    rw [(sanitizeSteps_facts _ _).1]
    exact hmax
  have hmaxS : 1 ≤ solverMaxSubsets opts2 n :=
    solverMaxSubsets_pos opts2 n hn hmax2 (hopts2 ▸ hfacts.2)
  have harr : solverMaxSubsets opts2 n ≤ opts.maxSubsets.toNat := by
    unfold solverMaxSubsets
    rw [← hopts2] at hfacts
    rw [hfacts.1]
    omega
  rcases solveGreedy_spec cs opts2 hmaxS with ⟨M, hMperm, hMbound, hMiff⟩
  rcases placement_unique_column cs hval M hMperm hc with
    ⟨j0, ⟨q0, hq0, hcq0, hq0j⟩, huniq⟩
  have hmem_cs : ∀ q ∈ M, ∀ m ∈ q.1, m ∈ cs := by
    intro q hq m hm
    have h1 : q.1 ∈ M.map Prod.fst := List.mem_map_of_mem Prod.fst hq
    have h2 : q.1 ∈ createGuardianFamilies cs := hMperm.mem_iff.mp h1
    have h3 : m ∈ (createGuardianFamilies cs).flatten :=
      List.mem_flatten.mpr ⟨q.1, h2, hm⟩
    exact (families_flatten_perm cs hval).mem_iff.mp h3
  refine ⟨j0, ?_, ?_⟩
  · rw [← hq0j]
    exact lt_of_lt_of_le (hMbound q0 hq0) harr
  intro b
  rw [hMiff]
  constructor
  · rintro ⟨q, hq, hqb, m, hm, hidx⟩
    have hmcs : m ∈ cs := hmem_cs q hq m hm
    have hmrow := rowOf_spec cs hval.1 hmcs
    have hmc : m = c := by
      have h1 : cs.getD (rowOf cs c) dfltComp = m := by
        rw [show rowOf cs c = rowOf cs m from hidx.symm]
        exact hmrow.2
      rw [(rowOf_spec cs hval.1 hc).2] at h1
      exact h1.symm
    subst hmc
    rw [← hqb]
    exact huniq q hq hm
  · rintro rfl
    exact ⟨q0, hq0, hq0j, c, hcq0, rfl⟩

/-- Count of an entity inside one converted subset column. -/
theorem mip_column_count (cs : List Competitor) (hnd : (cs.map (fun x => x.id)).Nodup)
    (sol : ℕ → ℕ → Bool) {c : Competitor} (hc : c ∈ cs) (j : ℕ) :
    ((((List.range cs.length).filter (fun i => sol i j)).map
      (fun i => cs.getD i dfltComp)).count c) =
      if sol (rowOf cs c) j then 1 else 0 := by
  rw [List.count_eq_countP, List.countP_map]
  have hrw : List.countP ((fun x => x == c) ∘ fun i => cs.getD i dfltComp)
      ((List.range cs.length).filter (fun i => sol i j)) =
      List.countP (fun i => i == rowOf cs c)
      ((List.range cs.length).filter (fun i => sol i j)) := by
    apply List.countP_congr
    intro i hi
    have hir : i < cs.length := by
      have := (List.mem_filter.mp hi).1
      simpa using this
    simp only [Function.comp_apply, beq_iff_eq]
    constructor
    · intro h
      exact rowOf_unique cs hnd hc hir h
    · intro h
      rw [h]
      exact (rowOf_spec cs hnd hc).2
  rw [hrw, ← List.count_eq_countP]
  have hnodup : ((List.range cs.length).filter (fun i => sol i j)).Nodup :=
    List.Nodup.filter _ (List.nodup_range _)
  by_cases hmem : rowOf cs c ∈ (List.range cs.length).filter (fun i => sol i j)
  · rw [List.count_eq_one_of_mem hnodup hmem,
      if_pos (List.mem_filter.mp hmem).2]
  · rw [List.count_eq_zero.mpr hmem, if_neg]
    intro hs
    exact hmem (List.mem_filter.mpr ⟨by
      simpa using (rowOf_spec cs hnd hc).1, hs⟩)

/-- Summed count of an entity over the converted (and empty-pruned) subsets,
for a variable map whose row for the entity holds a single 1 at a column
within range. -/
theorem mip_sum_count (cs : List Competitor) (hnd : (cs.map (fun x => x.id)).Nodup)
    (sol : ℕ → ℕ → Bool) (arrLen : ℕ) {c : Competitor} (hc : c ∈ cs) (j0 : ℕ)
    (hj0 : j0 < arrLen) (hrow : ∀ b, sol (rowOf cs c) b = true ↔ b = j0) :
    ((((mipSolutionSubsets cs arrLen sol).filter (fun s => ¬ s.isEmpty)).map
      (fun s => s.count c)).sum) = 1 := by
  unfold mipSolutionSubsets
  rw [sum_map_filter_eq]
  · rw [List.map_map]
    have hcongr : ∀ j ∈ List.range arrLen,
        ((fun s => s.count c) ∘ (fun j =>
          ((List.range cs.length).filter (fun i => sol i j)).map
            (fun i => cs.getD i dfltComp))) j =
        (fun j => if sol (rowOf cs c) j then 1 else 0) j := by
      intro j _
      exact mip_column_count cs hnd sol hc j
    rw [List.map_congr_left hcongr, sum_map_ite_countP]
    have hcongr2 : List.countP (fun j => sol (rowOf cs c) j) (List.range arrLen) =
        List.countP (fun j => j == j0) (List.range arrLen) := by
      apply List.countP_congr
      intro j _
      rw [hrow j]
      simp
    rw [hcongr2, ← List.count_eq_countP,
      List.count_eq_one_of_mem (List.nodup_range _) (List.mem_range.mpr hj0)]
  · intro s _ hs
    have hse : s = [] := by
      cases s with
      | nil => rfl
      | cons a t => simp at hs
    rw [hse]
    rfl

/-- Two entities whose rows are set at one common in-range column share a
(non-empty, hence surviving) subset of the converted partition. -/
theorem mip_mem_common (cs : List Competitor) (hnd : (cs.map (fun x => x.id)).Nodup)
    (sol : ℕ → ℕ → Bool) (arrLen : ℕ) {d p : Competitor} (hd : d ∈ cs)
    (hp : p ∈ cs) (j : ℕ) (hj : j < arrLen)
    (hsd : sol (rowOf cs d) j = true) (hsp : sol (rowOf cs p) j = true) :
    ∃ g ∈ (mipSolutionSubsets cs arrLen sol).filter (fun s => ¬ s.isEmpty),
      d ∈ g ∧ p ∈ g := by
  have hmemd : d ∈ ((List.range cs.length).filter (fun i => sol i j)).map
      (fun i => cs.getD i dfltComp) := by
    apply List.mem_map.mpr
    refine ⟨rowOf cs d, List.mem_filter.mpr ⟨?_, hsd⟩, (rowOf_spec cs hnd hd).2⟩
    simpa using (rowOf_spec cs hnd hd).1
  have hmemp : p ∈ ((List.range cs.length).filter (fun i => sol i j)).map
      (fun i => cs.getD i dfltComp) := by
    apply List.mem_map.mpr
    refine ⟨rowOf cs p, List.mem_filter.mpr ⟨?_, hsp⟩, (rowOf_spec cs hnd hp).2⟩
    simpa using (rowOf_spec cs hnd hp).1
  refine ⟨((List.range cs.length).filter (fun i => sol i j)).map
      (fun i => cs.getD i dfltComp), ?_, hmemd, hmemp⟩
  apply List.mem_filter.mpr
  constructor
  · unfold mipSolutionSubsets
    apply List.mem_map.mpr
    exact ⟨j, List.mem_range.mpr hj, rfl⟩
  · simp only [decide_eq_true_eq]
    intro hemp
    rw [List.isEmpty_iff.mp hemp] at hmemd
    cases hmemd

/-- Coverage of the greedy MIP algorithm: on non-empty input with valid
guardian references and a positive subset cap, every input entity appears in
exactly one subset of the returned partition. -/
theorem solveMIP_coverage (cs : List Competitor) (o : PartitionOptions)
    (hval : ValidGuardianRefs cs) (hn : 1 ≤ cs.length)
    (hmax : 1 ≤ (mergeWithDefaults o).maxSubsets) {c : Competitor} (hc : c ∈ cs) :
    (((solveMIP cs o).subsets).map (fun s => s.count c)).sum = 1 := by
  rcases solveMIP_row cs o hval hn hmax hc with ⟨j0, hj0, hrow⟩
  have hsub : (solveMIP cs o).subsets = solveMIPsubsets cs o := by
    unfold solveMIP
    rw [if_neg (by omega)]
    rfl
  rw [hsub]
  exact mip_sum_count cs hval.1 _ _ hc j0 hj0 hrow

/-- Atomicity of the greedy MIP algorithm: a dependent and its guardian land
in one common subset of the returned partition. -/
theorem solveMIP_atomicity (cs : List Competitor) (o : PartitionOptions)
    (hval : ValidGuardianRefs cs) (hn : 1 ≤ cs.length)
    (hmax : 1 ≤ (mergeWithDefaults o).maxSubsets) {d p : Competitor}
    (hd : d ∈ cs) (hp : p ∈ cs) (hdg : d.guardianId = some p.id)
    (ht : truthyId d.guardianId = true) :
    ∃ g ∈ (solveMIP cs o).subsets, d ∈ g ∧ p ∈ g := by
  set n := cs.length with hn'
  set opts := validateAndSanitizeOptions o n with hopts
  set opts2 := sanitizeSteps opts n with hopts2
  have hfacts := sanitizeSteps_facts opts n
  have hmax2 : 1 ≤ opts2.maxSubsets := by
    rw [hopts2, hfacts.1, hopts]
    unfold validateAndSanitizeOptions
    rw [(sanitizeSteps_facts _ _).1]
    exact hmax
  have hmaxS : 1 ≤ solverMaxSubsets opts2 n :=
    solverMaxSubsets_pos opts2 n hn hmax2 (hopts2 ▸ hfacts.2)
  have harr : solverMaxSubsets opts2 n ≤ opts.maxSubsets.toNat := by
    unfold solverMaxSubsets
    rw [← hopts2] at hfacts
    rw [hfacts.1]
    omega
  rcases solveGreedy_spec cs opts2 hmaxS with ⟨M, hMperm, hMbound, hMiff⟩
  rcases guardian_dependent_same_family cs hval hd hp hdg ht with ⟨fam, hfam, hdf, hpf⟩
  have hfM : fam ∈ M.map Prod.fst := hMperm.mem_iff.mpr hfam
  rcases List.mem_map.mp hfM with ⟨q, hq, hqf⟩
  have hsold : (solveGreedy cs opts2).1 (rowOf cs d) q.2 = true :=
    (hMiff _ _).mpr ⟨q, hq, rfl, d, hqf ▸ hdf, rfl⟩
  have hsolp : (solveGreedy cs opts2).1 (rowOf cs p) q.2 = true :=
    (hMiff _ _).mpr ⟨q, hq, rfl, p, hqf ▸ hpf, rfl⟩
  have hsub : (solveMIP cs o).subsets = solveMIPsubsets cs o := by
    unfold solveMIP
    rw [if_neg (by omega)]
    rfl
  rw [hsub]
  have hjlt : q.2 < opts.maxSubsets.toNat :=
    lt_of_lt_of_le (hMbound q hq) harr
  exact mip_mem_common cs hval.1 _ _ hd hp q.2 hjlt hsold hsolp

/-- Every returned MIP subset is non-empty and holds only input entities. -/
theorem solveMIP_groups_wf (cs : List Competitor) (o : PartitionOptions)
    (hn : 1 ≤ cs.length) :
    ∀ g ∈ (solveMIP cs o).subsets, g ≠ [] ∧ ∀ x ∈ g, x ∈ cs := by
  intro g hg
  have hsub : (solveMIP cs o).subsets = solveMIPsubsets cs o := by
    unfold solveMIP
    rw [if_neg (by omega)]
    rfl
  rw [hsub] at hg
  unfold solveMIPsubsets at hg
  rcases List.mem_filter.mp hg with ⟨hgm, hge⟩
  constructor
  · intro he
    rw [he] at hge
    simp at hge
  · intro x hx
    unfold mipSolutionSubsets at hgm
    rcases List.mem_map.mp hgm with ⟨j, _, hjg⟩
    rw [← hjg] at hx
    rcases List.mem_map.mp hx with ⟨i, hi, hix⟩
    have hilt : i < cs.length := by
      have := (List.mem_filter.mp hi).1
      simpa using this
    rw [← hix, List.getD_eq_getElem _ _ hilt]
    exact List.getElem_mem hilt

/-- C7 (MIP half): on a single entity without guardian reference the greedy
MIP algorithm succeeds and returns exactly one subset holding that entity,
although its size 1 is below the sanitized minimum of 2. -/
theorem solveMIP_single (e : Competitor) (o : PartitionOptions)
    (hg : e.guardianId = none) (hmax : 1 ≤ (mergeWithDefaults o).maxSubsets) :
    (solveMIP [e] o).subsets = [[e]] := by
  have hval : ValidGuardianRefs [e] := by
    constructor
    · simp
    · intro c hc ht
      have hce : c = e := by simpa using hc
      rw [hce, hg] at ht
      cases ht
  have hcov := solveMIP_coverage [e] o hval (by simp) hmax (List.mem_singleton.mpr rfl)
  have hwf := solveMIP_groups_wf [e] o (by simp)
  set L := (solveMIP [e] o).subsets with hL
  have hall : ∀ g ∈ L, 1 ≤ g.count e := by
    intro g hgL
    rcases hwf g hgL with ⟨hne, hsubs⟩
    cases g with
    | nil => exact absurd rfl hne
    | cons x t =>
      have hxe : x = e := by simpa using hsubs x (List.mem_cons_self _ _)
      rw [hxe]
      simp [List.count_cons]
  cases hLc : L with
  | nil =>
    rw [hLc] at hcov
    simp at hcov
  | cons g rest =>
    cases hrest : rest with
    | cons g2 r2 =>
      rw [hrest] at hLc
      rw [hLc] at hcov hall
      have h1 := hall g (by simp)
      have h2 := hall g2 (by simp)
      simp only [List.map_cons, List.sum_cons] at hcov
      omega
    | nil =>
      rw [hrest] at hLc
      rw [hLc] at hcov hall hwf
      simp only [List.map_cons, List.map_nil, List.sum_cons, List.sum_nil,
        Nat.add_zero] at hcov
      have hsubs := (hwf g (by simp)).2
      have hlen : g.length = 1 := by
        have : g.count e = g.length := by
          rw [List.count_eq_length]
          intro b hb
          exact (by simpa using hsubs b hb : b = e).symm
        omega
      cases g with
      | nil => simp at hlen
      | cons x t =>
        have hxe : x = e := by simpa using hsubs x (List.mem_cons_self _ _)
        have ht : t = [] := by
          simp only [List.length_cons] at hlen
          exact List.length_eq_zero.mp (by omega)
        rw [hxe, ht]

/-! ## Multiset preservation through the clustering pipeline -/

/-- Setting an index changes the tallies by removing the old entry and adding
the new one (stated additively to avoid truncated subtraction). -/
theorem count_set_add {α : Type} [DecidableEq α] (l : List α) (i : ℕ) (hi : i < l.length)
    (x c : α) :
    (l.set i x).count c + (if l[i] = c then 1 else 0) =
      l.count c + (if x = c then 1 else 0) := by
  have hb : (if (l[i] == c) = true then 1 else 0) ≤ l.count c := by
    split_ifs with h
    · have : l[i] = c := by simpa using h
      rw [← this]
      exact List.count_pos_iff.mpr (List.getElem_mem hi)
    · omega
  have h := List.count_set x c l i hi
  simp only [beq_iff_eq] at h hb
  omega

/-- One swap of two in-range positions permutes the list; an out-of-range
swap is the identity. -/
theorem listSwap_perm {α : Type} (l : List α) (i j : ℕ) : (listSwap l i j).Perm l := by
  classical
  unfold listSwap
  split
  next a b ha hb =>
    have hi : i < l.length := (List.getElem?_eq_some.mp ha).1
    have hj : j < l.length := (List.getElem?_eq_some.mp hb).1
    have hav : l[i] = a := by
      rw [List.getElem?_eq_some] at ha
      exact ha.2
    have hbv : l[j] = b := by
      rw [List.getElem?_eq_some] at hb
      exact hb.2
    subst hav
    subst hbv
    rw [List.perm_iff_count]
    intro c
    have hjs : j < (l.set i l[j]).length := by simpa using hj
    have h2 := count_set_add (l.set i l[j]) j hjs l[i] c
    have h1 := count_set_add l i hi l[j] c
    have hje : (l.set i l[j])[j] = l[j] := by
      rw [List.getElem_set]
      split <;> rfl
    rw [hje] at h2
    split_ifs at h1 h2 <;> omega
  next => exact List.Perm.refl _

/-- The Fisher-Yates loop permutes its input. -/
theorem shuffleLoop_perm {α : Type} (n : ℕ) :
    ∀ (g : RandGen) (l : List α), (shuffleLoop g n l).1.Perm l := by
  induction n with
  | zero => intro g l; exact List.Perm.refl _
  | succ n ih =>
    intro g l
    exact (ih _ _).trans (listSwap_perm l (n + 1) _)

/-- `shuffle` returns a permutation of its input. -/
theorem shuffle_perm {α : Type} (l : List α) (g : RandGen) : (shuffle l g).1.Perm l :=
  shuffleLoop_perm (l.length - 1) g l

/-- Appending to one entry of a list of lists appends to the flattening, up
to permutation. -/
theorem flatten_set_append {α : Type} (L : List (List α)) :
    ∀ (i : ℕ), i < L.length → ∀ x : List α,
      (L.set i (L.getD i [] ++ x)).flatten.Perm (L.flatten ++ x) := by
  induction L with
  | nil => intro i hi; simp at hi
  | cons h t ih =>
    intro i hi x
    cases i with
    | zero =>
      simp only [List.getD_cons_zero, List.set_cons_zero, List.flatten_cons, List.append_assoc]
      exact List.Perm.append_left h List.perm_append_comm
    | succ i =>
      simp only [List.getD_cons_succ, List.set_cons_succ, List.flatten_cons, List.append_assoc]
      exact List.Perm.append_left h (ih i (by simpa using hi) x)

/-- The nearest-center index is in range for a non-empty center list. -/
theorem bestClusterIdx_lt (f : List ℚ) (centers : List Center) (opts : Config)
    (fw : FeatureWeights) (h : 0 < centers.length) :
    bestClusterIdx f centers opts fw < centers.length := by
  unfold bestClusterIdx
  suffices hgen : ∀ (l : List (ℕ × Center)) (acc : ℕ × Option ℚ),
      (∀ q ∈ l, q.1 < centers.length) → acc.1 < centers.length →
      (l.foldl (fun best p =>
        let d := calculateWeightedDistanceSq f p.2.features opts fw
        match best.2 with
        | none => (p.1, some d)
        | some m => if d < m then (p.1, some d) else best) acc).1 < centers.length by
    exact hgen centers.enum (0, none) (fun q hq => List.fst_lt_of_mem_enum hq) h
  intro l
  induction l with
  | nil => intro acc _ hacc; exact hacc
  | cons q t ih =>
    intro acc hl hacc
    refine ih _ (fun x hx => hl x (List.mem_cons_of_mem _ hx)) ?_
    dsimp only
    split
    · exact hl q (List.mem_cons_self _ _)
    · split
      · exact hl q (List.mem_cons_self _ _)
      · exact hacc

/-- Pushing a member onto an in-range center appends it to the joined member
list and preserves the center count. -/
theorem addMemberAt_members (centers : List Center) (i : ℕ) (hi : i < centers.length)
    (fam : FamFeat) :
    ((addMemberAt centers i fam).map Center.members).flatten.Perm
      ((centers.map Center.members).flatten ++ [fam]) ∧
    (addMemberAt centers i fam).length = centers.length := by
  constructor
  · unfold addMemberAt
    rw [List.map_set]
    have hmi : i < (centers.map Center.members).length := by simpa using hi
    have hg : (Center.members (⟨(centers.getD i ⟨[], []⟩).features,
        (centers.getD i ⟨[], []⟩).members ++ [fam]⟩ : Center)) =
        (centers.map Center.members).getD i [] ++ [fam] := by
      rw [List.getD_eq_getElem _ _ hmi, List.getElem_map, List.getD_eq_getElem _ _ hi]
    rw [hg]
    exact flatten_set_append (centers.map Center.members) i hmi [fam]
  · unfold addMemberAt
    exact List.length_set ..

/-- The assignment pass hands every family to exactly one (in-range) center:
the joined member lists form a permutation of the assigned families, and the
center count is unchanged. -/
theorem assignToClusters_perm (opts : Config) (fw : FeatureWeights) (ff : List FamFeat)
    (centers : List Center) (h : 0 < centers.length) :
    ((assignToClusters ff centers opts fw).map Center.members).flatten.Perm ff ∧
    (assignToClusters ff centers opts fw).length = centers.length := by
  unfold assignToClusters
  suffices hgen : ∀ (l : List FamFeat) (cs : List Center), 0 < cs.length →
      ((l.foldl (fun cs fam => addMemberAt cs (bestClusterIdx fam.features cs opts fw) fam)
          cs).map Center.members).flatten.Perm ((cs.map Center.members).flatten ++ l) ∧
      (l.foldl (fun cs fam => addMemberAt cs (bestClusterIdx fam.features cs opts fw) fam)
          cs).length = cs.length by
    have hstart : ((centers.map (fun c => (⟨c.features, []⟩ : Center))).map
        Center.members).flatten = [] := by
      induction centers with
      | nil => rfl
      | cons c t iht => simpa using iht
    rcases hgen ff (centers.map (fun c => (⟨c.features, []⟩ : Center)))
      (by simpa using h) with ⟨hperm, hlen⟩
    rw [hstart] at hperm
    simp only [List.nil_append] at hperm
    refine ⟨hperm, ?_⟩
    rw [hlen, List.length_map]
  intro l
  induction l with
  | nil =>
    intro cs hcs
    simpa using List.Perm.refl ((cs.map Center.members).flatten)
  | cons fam rest ih =>
    intro cs hcs
    rw [List.foldl_cons]
    have hbi : bestClusterIdx fam.features cs opts fw < cs.length :=
      bestClusterIdx_lt fam.features cs opts fw hcs
    rcases addMemberAt_members cs (bestClusterIdx fam.features cs opts fw) hbi fam with
      ⟨hstep, hslen⟩
    rcases ih (addMemberAt cs (bestClusterIdx fam.features cs opts fw) fam)
      (by omega) with ⟨hperm, hlen⟩
    constructor
    · refine hperm.trans ?_
      refine (List.Perm.append_right rest hstep).trans ?_
      rw [List.append_assoc]
      exact List.Perm.refl _
    · rw [hlen, hslen]

/-- Updating a center moves its features only. -/
theorem updateCenter_members (c : Center) : ((updateCenter c).1).members = c.members := by
  unfold updateCenter
  split <;> rfl

/-- The centroid update pass keeps all member lists and the center count. -/
theorem updateClusterCenters_members (centers : List Center) :
    (updateClusterCenters centers).1.map Center.members = centers.map Center.members ∧
    (updateClusterCenters centers).1.length = centers.length := by
  unfold updateClusterCenters
  constructor
  · rw [List.map_map]
    apply List.map_congr_left
    intro c _
    exact updateCenter_members c
  · simp

/-- One assign-update round distributes every family over the unchanged
number of centers. -/
theorem kmeans_body_perm (ff : List FamFeat) (opts : Config) (fw : FeatureWeights)
    (centers : List Center) (h : 0 < centers.length) :
    (((updateClusterCenters (assignToClusters ff centers opts fw)).1.map
        Center.members).flatten).Perm ff ∧
    (updateClusterCenters (assignToClusters ff centers opts fw)).1.length = centers.length := by
  rcases assignToClusters_perm opts fw ff centers h with ⟨hp, hl⟩
  rcases updateClusterCenters_members (assignToClusters ff centers opts fw) with ⟨hm, hul⟩
  constructor
  · rw [hm]
    exact hp
  · rw [hul, hl]

/-- Any positive number of k-means rounds distributes every family over the
(unchanged number of) centers — the member lists are cleared and rebuilt by
the assignment at the head of each round, so the incoming members are
irrelevant. -/
theorem kmeansLoop_perm (ff : List FamFeat) (opts : Config) (fw : FeatureWeights) :
    ∀ (fuel : ℕ) (centers : List Center), 0 < centers.length →
      ((kmeansLoop ff opts fw (fuel + 1) centers).map Center.members).flatten.Perm ff ∧
      (kmeansLoop ff opts fw (fuel + 1) centers).length = centers.length := by
  intro fuel
  induction fuel with
  | zero =>
    intro centers h
    rw [kmeansLoop]
    split
    · rw [kmeansLoop]
      exact kmeans_body_perm ff opts fw centers h
    · exact kmeans_body_perm ff opts fw centers h
  | succ n ih =>
    intro centers h
    rw [kmeansLoop]
    split
    · have hb := kmeans_body_perm ff opts fw centers h
      have := ih (updateClusterCenters (assignToClusters ff centers opts fw)).1 (by omega)
      rw [hb.2] at this
      exact this
    · exact kmeans_body_perm ff opts fw centers h

/-- The oversized-split fold conserves families: valid clusters, the
redistribution list and the open cluster together hold the initial contents
plus the processed families. -/
theorem center_mk_members (f : List ℚ) (m : List FamFeat) : (Center.mk f m).members = m := rfl

theorem split_fold_perm (opts : Config) (feats : List ℚ) (l : List FamFeat) :
    ∀ st : List Center × List FamFeat × List FamFeat × ℕ,
      (((l.foldl (splitStep opts feats) st).1.map Center.members).flatten ++
        ((l.foldl (splitStep opts feats) st).2.1 ++
          (l.foldl (splitStep opts feats) st).2.2.1)).Perm
      ((st.1.map Center.members).flatten ++ (st.2.1 ++ (st.2.2.1 ++ l))) := by
  induction l with
  | nil =>
    intro st
    simp
  | cons fam rest ih =>
    intro st
    rw [List.foldl_cons]
    refine (ih _).trans ?_
    unfold splitStep
    split_ifs with h1 h2 <;>
      [skip; skip; skip] <;>
      (rw [List.perm_iff_count]
       intro c
       simp only [List.map_append, List.flatten_append, List.count_append, List.map_cons,
         List.map_nil, List.flatten_cons, List.flatten_nil, List.count_cons, List.count_nil,
         center_mk_members]
       omega)

/-- One classification step conserves families: the valid clusters plus the
redistribution list gain exactly the processed cluster's members. -/
theorem classifyStep_perm (opts : Config) (acc : List Center × List FamFeat × RandGen)
    (c : Center) :
    (((classifyStep opts acc c).1.map Center.members).flatten ++
      (classifyStep opts acc c).2.1).Perm
      (((acc.1.map Center.members).flatten ++ acc.2.1) ++ c.members) := by
  unfold classifyStep splitFinish
  have hsh : (shuffle c.members acc.2.2).1.Perm c.members := shuffle_perm _ _
  have hsp := split_fold_perm opts c.features (shuffle c.members acc.2.2).1
    (acc.1, acc.2.1, [], 0)
  split_ifs with h0 h1 h2 h3 h4
  · have hce : c.members = [] := List.length_eq_zero.mp h0
    simp [hce]
  · rw [List.perm_iff_count]
    intro x
    simp only [List.map_append, List.flatten_append, List.count_append, List.map_cons,
      List.map_nil, List.flatten_cons, List.flatten_nil, List.count_nil]
    omega
  · rw [List.perm_iff_count]
    intro x
    have hc1 := hsp.count_eq x
    have hc2 := hsh.count_eq x
    simp only [List.map_append, List.flatten_append, List.count_append, List.map_cons,
      List.map_nil, List.flatten_cons, List.flatten_nil, List.count_nil,
      center_mk_members] at hc1 ⊢
    omega
  · rw [List.perm_iff_count]
    intro x
    have hc1 := hsp.count_eq x
    have hc2 := hsh.count_eq x
    simp only [List.map_append, List.flatten_append, List.count_append, List.map_cons,
      List.map_nil, List.flatten_cons, List.flatten_nil, List.count_nil,
      center_mk_members] at hc1 ⊢
    omega
  · rw [List.perm_iff_count]
    intro x
    have hc1 := hsp.count_eq x
    have hc2 := hsh.count_eq x
    have hcur : ((shuffle c.members acc.2.2).1.foldl (splitStep opts c.features)
        (acc.1, acc.2.1, [], 0)).2.2.1 = [] := by
      by_contra hne
      exact h3 (fun hl => hne (List.length_eq_zero.mp hl))
    simp only [List.map_append, List.flatten_append, List.count_append, List.map_cons,
      List.map_nil, List.flatten_cons, List.flatten_nil, List.count_nil,
      center_mk_members, hcur] at hc1 ⊢
    omega
  · rw [List.perm_iff_count]
    intro x
    simp only [List.count_append]
    omega

/-- The classification pass conserves families. -/
theorem classifyClusters_perm (opts : Config) (centers : List Center) (g : RandGen) :
    (((classifyClusters opts centers g).1.map Center.members).flatten ++
      (classifyClusters opts centers g).2.1).Perm (centers.map Center.members).flatten := by
  unfold classifyClusters
  suffices hgen : ∀ (l : List Center) (acc : List Center × List FamFeat × RandGen),
      (((l.foldl (classifyStep opts) acc).1.map Center.members).flatten ++
        (l.foldl (classifyStep opts) acc).2.1).Perm
        (((acc.1.map Center.members).flatten ++ acc.2.1) ++ (l.map Center.members).flatten) by
    simpa using hgen centers ([], [], g)
  intro l
  induction l with
  | nil =>
    intro acc
    simp
  | cons c rest ih =>
    intro acc
    rw [List.foldl_cons]
    refine (ih _).trans ?_
    rw [List.perm_iff_count]
    intro x
    have hc := (classifyStep_perm opts acc c).count_eq x
    simp only [List.map_cons, List.flatten_cons, List.count_append] at hc ⊢
    omega

/-- A found fitting index is in range. -/
theorem lastFitIdx_lt (opts : Config) (size : ℕ) (redis : List FamFeat) {i : ℕ}
    (h : lastFitIdx opts size redis = some i) : i < redis.length := by
  unfold lastFitIdx at h
  have hm := List.mem_of_find?_eq_some h
  rw [List.mem_reverse, List.mem_range] at hm
  exact hm

/-- One placement step conserves families and the cluster count (for an
in-range target cluster). -/
theorem redisStep_perm (opts : Config) (acc : List Center × List FamFeat × Bool) (k : ℕ)
    (hk : k < acc.1.length) :
    (((redisStep opts acc k).1.map Center.members).flatten ++
      (redisStep opts acc k).2.1).Perm ((acc.1.map Center.members).flatten ++ acc.2.1) ∧
    (redisStep opts acc k).1.length = acc.1.length := by
  unfold redisStep
  split
  · exact ⟨List.Perm.refl _, rfl⟩
  · rcases hfit : lastFitIdx opts (clusterTotal (acc.1.getD k ⟨[], []⟩)) acc.2.1 with _ | i
    · exact ⟨List.Perm.refl _, rfl⟩
    · have hilt : i < acc.2.1.length := lastFitIdx_lt opts _ _ hfit
      constructor
      · have hmk : k < (acc.1.map Center.members).length := by simpa using hk
        have hset := flatten_set_append (acc.1.map Center.members) k hmk
          [acc.2.1.getD i ⟨[], []⟩]
        have hrd := perm_getElem_cons_eraseIdx hilt
        rw [List.perm_iff_count]
        intro x
        have hc1 := hset.count_eq x
        have hc2 := hrd.count_eq x
        have hgv : (acc.1.getD k ⟨[], []⟩).members =
            (acc.1.map Center.members).getD k [] := by
          rw [List.getD_eq_getElem _ _ hmk, List.getElem_map, List.getD_eq_getElem _ _ hk]
        have hgr : acc.2.1[i] = acc.2.1.getD i ⟨[], []⟩ :=
          (List.getD_eq_getElem _ _ hilt).symm
        rw [hgr, List.count_cons] at hc2
        simp only [List.map_set, center_mk_members, hgv]
        simp only [List.count_append, List.count_cons, List.count_nil] at hc1 ⊢
        omega
      · exact List.length_set ..

/-- The first redistribution pass conserves families and the cluster
count. -/
theorem redisPass1_perm (opts : Config) (valid : List Center) (redis : List FamFeat) :
    (((redisPass1 opts valid redis).1.map Center.members).flatten ++
      (redisPass1 opts valid redis).2.1).Perm
      ((valid.map Center.members).flatten ++ redis) ∧
    (redisPass1 opts valid redis).1.length = valid.length := by
  unfold redisPass1
  suffices hgen : ∀ (l : List ℕ) (acc : List Center × List FamFeat × Bool),
      (∀ k ∈ l, k < valid.length) → acc.1.length = valid.length →
      (((l.foldl (redisStep opts) acc).1.map Center.members).flatten ++
        (l.foldl (redisStep opts) acc).2.1).Perm
        ((acc.1.map Center.members).flatten ++ acc.2.1) ∧
      (l.foldl (redisStep opts) acc).1.length = valid.length by
    exact hgen (List.range valid.length) (valid, redis, false)
      (fun k hk => List.mem_range.mp hk) rfl
  intro l
  induction l with
  | nil =>
    intro acc _ hlen
    exact ⟨List.Perm.refl _, hlen⟩
  | cons k t ih =>
    intro acc hkl hlen
    have hklt : k < acc.1.length := by
      rw [hlen]
      exact hkl k (List.mem_cons_self _ _)
    rw [List.foldl_cons]
    rcases redisStep_perm opts acc k hklt with ⟨hp, hl⟩
    rcases ih (redisStep opts acc k) (fun x hx => hkl x (List.mem_cons_of_mem _ hx))
      (by omega) with ⟨hp2, hl2⟩
    exact ⟨hp2.trans hp, hl2⟩

/-- The new-cluster fill exactly partitions its input: what is taken plus
what remains is the initial content followed by the processed families. -/
theorem fillNewCluster_append (opts : Config) :
    ∀ (l acc : List FamFeat) (size : ℕ),
      (fillNewCluster opts l acc size).1 ++ (fillNewCluster opts l acc size).2 = acc ++ l := by
  intro l
  induction l with
  | nil =>
    intro acc size
    simp [fillNewCluster]
  | cons fam rest ih =>
    intro acc size
    rw [fillNewCluster]
    split_ifs with h1 h2
    · rw [ih]
      simp
    · rfl
    · rfl

/-- The smallest-cluster index is in range for a non-empty cluster list. -/
theorem smallestCenterIdx_lt (valid : List Center) (h : 0 < valid.length) :
    smallestCenterIdx valid < valid.length := by
  unfold smallestCenterIdx
  suffices hgen : ∀ (l : List (ℕ × Center)) (acc : ℕ × ℕ),
      (∀ q ∈ l, q.1 < valid.length) → acc.1 < valid.length →
      (l.foldl (fun best p =>
        if clusterTotal p.2 < best.2 then (p.1, clusterTotal p.2) else best) acc).1 <
        valid.length by
    exact hgen valid.enum (0, clusterTotal (valid.getD 0 ⟨[], []⟩))
      (fun q hq => List.fst_lt_of_mem_enum hq) h
  intro l
  induction l with
  | nil => intro acc _ hacc; exact hacc
  | cons q t ih =>
    intro acc hl hacc
    refine ih _ (fun x hx => hl x (List.mem_cons_of_mem _ hx)) ?_
    dsimp only
    split
    · exact hl q (List.mem_cons_self _ _)
    · exact hacc

/-- The forced placement conserves families: when it does not crash, the
joined members gain exactly the drained families (and the cluster count is
kept). -/
theorem forceDrain_perm :
    ∀ (redis : List FamFeat) (valid v : List Center),
      forceDrain valid redis = some v →
      ((v.map Center.members).flatten).Perm ((valid.map Center.members).flatten ++ redis) ∧
      v.length = valid.length := by
  intro redis
  induction redis with
  | nil =>
    intro valid v h
    rw [forceDrain] at h
    cases h
    simpa using List.Perm.refl _
  | cons fam rest ih =>
    intro valid v h
    rw [forceDrain] at h
    split_ifs at h with hv
    have hlt : smallestCenterIdx valid < valid.length := smallestCenterIdx_lt valid (by omega)
    rcases ih _ _ h with ⟨hp, hl⟩
    have hmk : smallestCenterIdx valid < (valid.map Center.members).length := by
      simpa using hlt
    have hset := flatten_set_append (valid.map Center.members) (smallestCenterIdx valid)
      hmk [fam]
    have hgv : (valid.getD (smallestCenterIdx valid) ⟨[], []⟩).members =
        (valid.map Center.members).getD (smallestCenterIdx valid) [] := by
      rw [List.getD_eq_getElem _ _ hmk, List.getElem_map, List.getD_eq_getElem _ _ hlt]
    constructor
    · refine hp.trans ?_
      rw [List.perm_iff_count]
      intro x
      have hc1 := hset.count_eq x
      simp only [List.map_set, center_mk_members, hgv]
      simp only [List.count_append, List.count_cons, List.count_nil] at hc1 ⊢
      omega
    · rw [hl, List.length_set]

/-- The pass-2 tail conserves families. -/
theorem redisPass2_perm (effMax : ℤ) (ncLen : ℕ) (valid' : List Center)
    (rest : List FamFeat) (st' : List Center × List FamFeat)
    (h : redisPass2 effMax ncLen valid' rest = some st') :
    ((st'.1.map Center.members).flatten ++ st'.2).Perm
      ((valid'.map Center.members).flatten ++ rest) := by
  unfold redisPass2 at h
  split_ifs at h with hc
  · rcases hd : forceDrain valid' rest with _ | v
    · rw [hd] at h
      cases h
    · rw [hd] at h
      cases h
      rcases forceDrain_perm rest valid' v hd with ⟨hp, _⟩
      simpa using hp
  · cases h
    exact List.Perm.refl _

/-- One redistribution round conserves families. -/
theorem redisIter_perm (opts : Config) (effMax : ℤ) (st st' : List Center × List FamFeat)
    (h : redisIter opts effMax st = some st') :
    ((st'.1.map Center.members).flatten ++ st'.2).Perm
      ((st.1.map Center.members).flatten ++ st.2) := by
  unfold redisIter at h
  rcases redisPass1_perm opts st.1 st.2 with ⟨hp1, _⟩
  have hfc := fillNewCluster_append opts (redisPass1 opts st.1 st.2).2.1 [] 0
  split_ifs at h with hc hnc
  · refine (redisPass2_perm _ _ _ _ _ h).trans ?_
    refine List.Perm.trans ?_ hp1
    rw [List.perm_iff_count]
    intro x
    have hc2 := congrArg (fun l => l.count x) hfc
    simp only [List.count_append, List.nil_append] at hc2
    simp only [List.map_append, List.flatten_append, List.count_append, List.map_cons,
      List.map_nil, List.flatten_cons, List.flatten_nil, List.count_nil, center_mk_members]
    omega
  · have hne : (fillNewCluster opts (redisPass1 opts st.1 st.2).2.1 [] 0).1 = [] := by
      by_contra hx
      exact hnc (fun hl => hx (List.length_eq_zero.mp hl))
    refine (redisPass2_perm _ _ _ _ _ h).trans ?_
    refine List.Perm.trans ?_ hp1
    rw [List.perm_iff_count]
    intro x
    have hc2 := congrArg (fun l => l.count x) hfc
    rw [hne] at hc2
    simp only [List.count_append, List.nil_append, List.count_nil] at hc2
    simp only [List.count_append]
    omega
  · cases h
    exact hp1

/-- The redistribution loop conserves families: a successful run distributes
the initial clusters' members plus the pending families over the returned
clusters. -/
theorem redistributeLoop_perm (opts : Config) (effMax : ℤ) :
    ∀ (fuel : ℕ) (st : List Center × List FamFeat) (v : List Center),
      redistributeLoop opts effMax fuel st = some v →
      ((v.map Center.members).flatten).Perm ((st.1.map Center.members).flatten ++ st.2) := by
  intro fuel
  induction fuel with
  | zero =>
    intro st v h
    rw [redistributeLoop] at h
    split_ifs at h with he
    cases h
    have : st.2 = [] := List.length_eq_zero.mp he
    simp [this]
  | succ n ih =>
    intro st v h
    rw [redistributeLoop] at h
    split_ifs at h with he
    · cases h
      have : st.2 = [] := List.length_eq_zero.mp he
      simp [this]
    · rcases hi : redisIter opts effMax st with _ | st'
      · rw [hi] at h
        cases h
      · rw [hi] at h
        exact (ih st' v h).trans (redisIter_perm opts effMax st st' hi)

/-- `adjustClusterSizes` conserves families end to end. -/
theorem adjustClusterSizes_perm (opts : Config) (centers : List Center) (maxAllowed : ℤ)
    (g : RandGen) (fuel : ℕ) (adj : List Center) (g2 : RandGen)
    (h : adjustClusterSizes opts centers maxAllowed g fuel = some (adj, g2)) :
    ((adj.map Center.members).flatten).Perm (centers.map Center.members).flatten := by
  unfold adjustClusterSizes at h
  rcases hr : redistributeLoop opts (if maxAllowed = 0 then opts.maxSubsets else maxAllowed)
      fuel ((classifyClusters opts centers g).1, (classifyClusters opts centers g).2.1) with
    _ | v
  · rw [hr] at h
    cases h
  · rw [hr] at h
    cases h
    exact (redistributeLoop_perm opts _ fuel _ _ hr).trans
      (classifyClusters_perm opts centers g)

/-- Mapping under `eraseIdx`. -/
theorem map_eraseIdx {α β : Type} (f : α → β) (l : List α) :
    ∀ i : ℕ, (l.eraseIdx i).map f = (l.map f).eraseIdx i := by
  induction l with
  | nil => intro i; simp
  | cons a t ih =>
    intro i
    cases i with
    | zero => simp
    | succ i => simp [ih i]

/-- A grouping may be transported along a permutation of the families. -/
theorem IsGroupingOf.of_perm {fams fams' subsets : List (List Competitor)}
    (hp : fams.Perm fams') (hg : IsGroupingOf fams subsets) :
    IsGroupingOf fams' subsets := by
  rcases hg with ⟨fss, he, hperm⟩
  exact ⟨fss, he, hperm.trans hp⟩

/-- A grouping covers exactly the entities of its families. -/
theorem IsGroupingOf.flatten_perm {fams subsets : List (List Competitor)}
    (hg : IsGroupingOf fams subsets) : subsets.flatten.Perm fams.flatten := by
  rcases hg with ⟨fss, he, hperm⟩
  rw [he, ← List.flatten_flatten]
  exact List.Perm.flatten hperm

/-- Every family of a grouping sits whole inside one group. -/
theorem IsGroupingOf.family_whole {fams subsets : List (List Competitor)}
    (hg : IsGroupingOf fams subsets) {fam : List Competitor} (hf : fam ∈ fams) :
    ∃ grp ∈ subsets, ∀ x ∈ fam, x ∈ grp := by
  rcases hg with ⟨fss, he, hperm⟩
  have hmem : fam ∈ fss.flatten := hperm.mem_iff.mpr hf
  rcases List.mem_flatten.mp hmem with ⟨fs, hfs, hfam⟩
  refine ⟨fs.flatten, ?_, ?_⟩
  · rw [he]
    exact List.mem_map_of_mem List.flatten hfs
  · intro x hx
    exact List.mem_flatten.mpr ⟨fam, hfam, hx⟩

/-- Merging group `j` into group `i` preserves the grouping. -/
theorem IsGroupingOf.merge {fams subsets : List (List Competitor)}
    (hg : IsGroupingOf fams subsets) {i j : ℕ} (hi : i < subsets.length)
    (hj : j < subsets.length) (hij : i ≠ j) :
    IsGroupingOf fams (mergeInto subsets i j) := by
  classical
  rcases hg with ⟨fss, he, hperm⟩
  subst he
  have hif : i < fss.length := by
    rw [List.length_map] at hi
    exact hi
  have hjf : j < fss.length := by
    rw [List.length_map] at hj
    exact hj
  have hgd : ∀ (m : ℕ), m < fss.length →
      (fss.map List.flatten).getD m [] = (fss.getD m []).flatten := by
    intro m hm
    rw [List.getD_eq_getElem _ _ (by simpa using hm), List.getElem_map,
      List.getD_eq_getElem _ _ hm]
  refine ⟨(fss.set i (fss.getD i [] ++ fss.getD j [])).eraseIdx j, ?_, ?_⟩
  · unfold mergeInto
    rw [map_eraseIdx, List.map_set, List.flatten_append, hgd i hif, hgd j hjf]
  · refine List.Perm.trans ?_ hperm
    have hset := flatten_set_append fss i hif (fss.getD j [])
    have hjs : j < (fss.set i (fss.getD i [] ++ fss.getD j [])).length := by
      simpa using hjf
    have hje : (fss.set i (fss.getD i [] ++ fss.getD j []))[j] = fss.getD j [] := by
      rw [List.getElem_set, if_neg hij]
      exact (List.getD_eq_getElem _ _ hjf).symm
    have hrd := perm_getElem_cons_eraseIdx hjs
    rw [hje] at hrd
    rw [List.perm_iff_count]
    intro x
    have hc1 := hset.count_eq x
    have hc2 := (List.Perm.flatten hrd).count_eq x
    simp only [List.count_append, List.flatten_cons] at hc1 hc2 ⊢
    omega

/-- Opening a new group with one whole family extends the grouping. -/
theorem IsGroupingOf.push {fams subsets : List (List Competitor)}
    (hg : IsGroupingOf fams subsets) (fam : List Competitor) :
    IsGroupingOf (fams ++ [fam]) (subsets ++ [fam]) := by
  rcases hg with ⟨fss, he, hperm⟩
  refine ⟨fss ++ [[fam]], ?_, ?_⟩
  · rw [List.map_append, he]
    simp
  · rw [List.flatten_append]
    simpa using List.Perm.append hperm (List.Perm.refl [fam])

/-- Appending one whole family to an existing group extends the grouping. -/
theorem IsGroupingOf.into {fams subsets : List (List Competitor)}
    (hg : IsGroupingOf fams subsets) (fam : List Competitor) {k : ℕ}
    (hk : k < subsets.length) :
    IsGroupingOf (fams ++ [fam]) (subsets.set k (subsets.getD k [] ++ fam)) := by
  classical
  rcases hg with ⟨fss, he, hperm⟩
  subst he
  have hkf : k < fss.length := by
    rw [List.length_map] at hk
    exact hk
  have hgd : (fss.map List.flatten).getD k [] = (fss.getD k []).flatten := by
    rw [List.getD_eq_getElem _ _ (by simpa using hkf), List.getElem_map,
      List.getD_eq_getElem _ _ hkf]
  refine ⟨fss.set k (fss.getD k [] ++ [fam]), ?_, ?_⟩
  · rw [List.map_set, List.flatten_append, hgd]
    simp
  · have hset := flatten_set_append fss k hkf [fam]
    rw [List.perm_iff_count]
    intro x
    have hc1 := hset.count_eq x
    have hc2 := hperm.count_eq x
    simp only [List.count_append, List.count_cons, List.count_nil] at hc1 hc2 ⊢
    omega

/-- A successful best-pair scan returns an ordered in-range pair. -/
theorem bestMergePair_bounds (opts : Config) (subsets : List (List Competitor))
    {p : ℕ × ℕ} (h : bestMergePair opts subsets = some p) :
    p.1 < p.2 ∧ p.2 < subsets.length := by
  unfold bestMergePair at h
  suffices hgen : ∀ (l : List (ℕ × ℕ)) (acc : Option (ℕ × ℕ) × ℤ),
      (∀ q ∈ l, q.1 < q.2 ∧ q.2 < subsets.length) →
      (∀ q, acc.1 = some q → q.1 < q.2 ∧ q.2 < subsets.length) →
      ∀ q, (l.foldl (fun best p =>
        if mergeScore opts (subsets.getD p.1 []).length (subsets.getD p.2 []).length > best.2 then
          (some p, mergeScore opts (subsets.getD p.1 []).length (subsets.getD p.2 []).length)
        else best) acc).1 = some q → q.1 < q.2 ∧ q.2 < subsets.length by
    refine hgen _ (none, -1) ?_ (fun q hq => by cases hq) p h
    intro q hq
    rcases List.mem_flatMap.mp hq with ⟨i, _, hqi⟩
    rcases List.mem_map.mp hqi with ⟨j, hj, hje⟩
    rcases List.mem_filter.mp hj with ⟨hjr, hij⟩
    rw [← hje]
    exact ⟨by simpa using hij, List.mem_range.mp hjr⟩
  intro l
  induction l with
  | nil =>
    intro acc _ hacc
    exact hacc
  | cons q t ih =>
    intro acc hl hacc
    rw [List.foldl_cons]
    refine ih _ (fun x hx => hl x (List.mem_cons_of_mem _ hx)) ?_
    dsimp only
    split
    · intro x hx
      cases hx
      exact hl q (List.mem_cons_self _ _)
    · exact hacc

/-- The excess-merging loop preserves the grouping. -/
theorem mergeExcessLoop_grouping (opts : Config) (fams : List (List Competitor)) :
    ∀ (fuel : ℕ) (s out : List (List Competitor)), IsGroupingOf fams s →
      mergeExcessLoop opts fuel s = some out → IsGroupingOf fams out := by
  intro fuel
  induction fuel with
  | zero =>
    intro s out hg h
    rw [mergeExcessLoop] at h
    split_ifs at h
    cases h
    exact hg
  | succ n ih =>
    intro s out hg h
    rw [mergeExcessLoop] at h
    split_ifs at h with hc
    · rcases hb : bestMergePair opts s with _ | p
      · rw [hb] at h
        dsimp only at h
        split_ifs at h with hgd
        exact ih _ _ (hg.merge hgd.1 hgd.2.1 hgd.2.2) h
      · rw [hb] at h
        dsimp only at h
        rcases bestMergePair_bounds opts s hb with ⟨h12, h2⟩
        exact ih _ _ (hg.merge (by omega) h2 (by omega)) h
    · cases h
      exact hg

/-- The smallest-subset index is in range for a non-empty subset list. -/
theorem smallestSubsetIdx_lt (subsets : List (List Competitor)) (h : 0 < subsets.length) :
    smallestSubsetIdx subsets < subsets.length := by
  unfold smallestSubsetIdx
  suffices hgen : ∀ (l : List ℕ) (acc : ℕ),
      (∀ q ∈ l, q < subsets.length) → acc < subsets.length →
      (l.foldl (fun best i =>
        if (subsets.getD i []).length < (subsets.getD best []).length then i else best) acc) <
        subsets.length by
    exact hgen (List.range subsets.length) 0 (fun q hq => List.mem_range.mp hq) h
  intro l
  induction l with
  | nil => intro acc _ hacc; exact hacc
  | cons q t ih =>
    intro acc hl hacc
    refine ih _ (fun x hx => hl x (List.mem_cons_of_mem _ hx)) ?_
    dsimp only
    split
    · exact hl q (List.mem_cons_self _ _)
    · exact hacc

/-- A successful rebalance scan returns an in-range index. -/
theorem rebalanceScan_bound (opts : Config) (target : ℤ) (subsets : List (List Competitor))
    (famLen : ℕ) (h : (rebalanceScan opts target subsets famLen).1 ≠ -1) :
    0 ≤ (rebalanceScan opts target subsets famLen).1 ∧
    (rebalanceScan opts target subsets famLen).1.toNat < subsets.length := by
  unfold rebalanceScan at h ⊢
  suffices hgen : ∀ (l : List ℕ) (acc : ℤ × ℤ),
      (∀ q ∈ l, q < subsets.length) →
      (acc.1 = -1 ∨ (0 ≤ acc.1 ∧ acc.1.toNat < subsets.length)) →
      ((l.foldl (fun b i =>
        if (((subsets.getD i []).length + famLen : ℕ) : ℤ) ≤ opts.maxSubsetSize then
          if 1000 - |(((subsets.getD i []).length + famLen : ℕ) : ℤ) - target| > b.2 then
            ((i : ℤ), 1000 - |(((subsets.getD i []).length + famLen : ℕ) : ℤ) - target|)
          else b
        else b) acc).1 = -1 ∨
        (0 ≤ (l.foldl (fun b i =>
          if (((subsets.getD i []).length + famLen : ℕ) : ℤ) ≤ opts.maxSubsetSize then
            if 1000 - |(((subsets.getD i []).length + famLen : ℕ) : ℤ) - target| > b.2 then
              ((i : ℤ), 1000 - |(((subsets.getD i []).length + famLen : ℕ) : ℤ) - target|)
            else b
          else b) acc).1 ∧
          (l.foldl (fun b i =>
          if (((subsets.getD i []).length + famLen : ℕ) : ℤ) ≤ opts.maxSubsetSize then
            if 1000 - |(((subsets.getD i []).length + famLen : ℕ) : ℤ) - target| > b.2 then
              ((i : ℤ), 1000 - |(((subsets.getD i []).length + famLen : ℕ) : ℤ) - target|)
            else b
          else b) acc).1.toNat < subsets.length)) by
    rcases hgen (List.range (min subsets.length opts.maxSubsets.toNat)) (-1, -1)
        (fun q hq => by
          have := List.mem_range.mp hq
          omega)
        (Or.inl rfl) with hn | hb
    · exact absurd hn h
    · exact hb
  intro l
  induction l with
  | nil => intro acc _ hacc; exact hacc
  | cons q t ih =>
    intro acc hl hacc
    rw [List.foldl_cons]
    refine ih _ (fun x hx => hl x (List.mem_cons_of_mem _ hx)) ?_
    dsimp only
    split
    · split
      · refine Or.inr ⟨by omega, ?_⟩
        have := hl q (List.mem_cons_self _ _)
        omega
      · exact hacc
    · exact hacc

/-- Placing one family in the rebalancing keeps the grouping, with the
family appended. -/
theorem placeFamilyRebalance_grouping (opts : Config) (target : ℤ)
    {fams s : List (List Competitor)} (hg : IsGroupingOf fams s)
    (fam : List Competitor) {s' : List (List Competitor)}
    (h : placeFamilyRebalance opts target s fam = some s') :
    IsGroupingOf (fams ++ [fam]) s' := by
  unfold placeFamilyRebalance at h
  split_ifs at h with h1 h2 h3
  · cases h
    exact hg.push fam
  · cases h
    exact hg.into fam (smallestSubsetIdx_lt s (by omega))
  · cases h
    exact hg.into fam (rebalanceScan_bound opts target s fam.length h1).2

/-- A bind-threaded fold over `none` stays `none`. -/
theorem foldl_bind_none {α : Type} (f : List (List Competitor) → α →
    Option (List (List Competitor))) (l : List α) :
    l.foldl (fun acc fam => acc.bind (fun s => f s fam)) none = none := by
  induction l with
  | nil => rfl
  | cons fam rest ih => simpa using ih

/-- The rebalancing pass preserves the grouping. -/
theorem rebalance_grouping (opts : Config) (fams s s' : List (List Competitor))
    (hg : IsGroupingOf fams s) (h : rebalance opts fams s = some s') :
    IsGroupingOf fams s' := by
  unfold rebalance at h
  split_ifs at h with hc
  · have hsort : (fams.mergeSort (fun a b => b.length ≤ a.length)).Perm fams :=
      List.mergeSort_perm fams _
    have hempty : IsGroupingOf [] ([] : List (List Competitor)) :=
      ⟨[], rfl, List.Perm.refl _⟩
    suffices hgen : ∀ (t : ℤ) (l acc accFams : List (List Competitor)),
        IsGroupingOf accFams acc →
        (l.foldl (fun acc fam => acc.bind (fun s =>
          placeFamilyRebalance opts t s fam)) (some acc)) = some s' →
        IsGroupingOf (accFams ++ l) s' by
      have hz : (fams.mergeSort (fun a b => b.length ≤ a.length)).foldl
          (fun acc fam => acc.bind (fun s0 =>
            placeFamilyRebalance opts
              (⌊(((s.map (fun u => u.length)).sum : ℕ) : ℚ) / (opts.maxSubsets : ℚ)⌋) s0 fam))
          (some []) = some s' := h
      have := hgen (⌊(((s.map (fun u => u.length)).sum : ℕ) : ℚ) / (opts.maxSubsets : ℚ)⌋)
        (fams.mergeSort (fun a b => b.length ≤ a.length)) [] [] hempty hz
      rw [List.nil_append] at this
      exact this.of_perm hsort
    intro t l
    induction l with
    | nil =>
      intro acc accFams hacc hfold
      rw [List.foldl_nil] at hfold
      cases hfold
      simpa using hacc
    | cons fam rest ih =>
      intro acc accFams hacc hfold
      rw [List.foldl_cons] at hfold
      rcases hp : placeFamilyRebalance opts t acc fam with _ | acc'
      · rw [show ((some acc).bind (fun s => placeFamilyRebalance opts t s fam)) =
            placeFamilyRebalance opts t acc fam from rfl, hp] at hfold
        rw [foldl_bind_none] at hfold
        cases hfold
      · rw [show ((some acc).bind (fun s => placeFamilyRebalance opts t s fam)) =
            placeFamilyRebalance opts t acc fam from rfl, hp] at hfold
        have := ih acc' (accFams ++ [fam])
          (placeFamilyRebalance_grouping opts t hacc fam hp) hfold
        rw [List.append_assoc] at this
        exact this
  · cases h
    exact hg

/-- The running minimum of the cleanup scan is the start value or a list
element. -/
theorem foldl_min_mem (l : List (List Competitor)) (a : List Competitor) :
    l.foldl (fun sm u => if u.length < sm.length then u else sm) a ∈ a :: l := by
  induction l generalizing a with
  | nil => exact List.mem_singleton.mpr rfl
  | cons u t ih =>
    rw [List.foldl_cons]
    rcases List.mem_cons.mp (ih (if u.length < a.length then u else a)) with h | h
    · rw [h]
      split
      · exact List.mem_cons_of_mem _ (List.mem_cons_self _ _)
      · exact List.mem_cons_self _ _
    · exact List.mem_cons_of_mem _ (List.mem_cons_of_mem _ h)

/-- The smallest undersized subset is an undersized subset (when one
exists). -/
theorem cleanupSmall_mem (opts : Config) (subsets : List (List Competitor))
    (h : (subsets.filter (fun s => (s.length : ℤ) < opts.minSubsetSize)).length ≠ 0) :
    cleanupSmall opts subsets ∈
      subsets.filter (fun s => (s.length : ℤ) < opts.minSubsetSize) := by
  unfold cleanupSmall
  rcases hf : subsets.filter (fun s => (s.length : ℤ) < opts.minSubsetSize) with _ | ⟨f, t⟩
  · rw [hf] at h
    simp at h
  · rw [hf]
    rcases List.mem_cons.mp (foldl_min_mem (f :: t) ((f :: t).headD [])) with hm | hm
    · rw [hm]
      exact List.mem_cons_self _ _
    · exact hm

/-- A successful cleanup-merge scan returns another in-range index. -/
theorem bestCleanupMerge_bounds (opts : Config) (subsets : List (List Competitor))
    (smallIdx smallLen : ℕ) {i : ℕ}
    (h : bestCleanupMerge opts subsets smallIdx smallLen = some i) :
    i < subsets.length ∧ i ≠ smallIdx := by
  unfold bestCleanupMerge at h
  suffices hgen : ∀ (l : List ℕ) (acc : Option ℕ),
      (∀ q ∈ l, q < subsets.length) →
      (∀ q, acc = some q → q < subsets.length ∧ q ≠ smallIdx) →
      ∀ q, (l.foldl (fun b i =>
        if i = smallIdx then b
        else if (((subsets.getD i []).length + smallLen : ℕ) : ℤ) ≤ opts.maxSubsetSize then
          match b with
          | none => some i
          | some p => if (subsets.getD i []).length < (subsets.getD p []).length then some i
            else some p
        else b) acc) = some q → q < subsets.length ∧ q ≠ smallIdx by
    exact hgen (List.range subsets.length) none (fun q hq => List.mem_range.mp hq)
      (fun q hq => by cases hq) i h
  intro l
  induction l with
  | nil =>
    intro acc _ hacc
    exact hacc
  | cons q t ih =>
    intro acc hl hacc
    rw [List.foldl_cons]
    refine ih _ (fun x hx => hl x (List.mem_cons_of_mem _ hx)) ?_
    dsimp only
    split_ifs with hq1 hq2
    · exact hacc
    · rcases hb : acc with _ | p
      · intro x hx
        cases hx
        exact ⟨hl q (List.mem_cons_self _ _), hq1⟩
      · intro x hx
        dsimp only at hx
        split_ifs at hx
        · cases hx
          exact ⟨hl q (List.mem_cons_self _ _), hq1⟩
        · cases hx
          exact hacc p hb
    · exact hacc

/-- The fallback merge destination is in range for a non-empty subset
list. -/
theorem cleanupFallback_lt (subsets : List (List Competitor)) (smallIdx : ℕ)
    (h : 0 < subsets.length) : cleanupFallback subsets smallIdx < subsets.length := by
  unfold cleanupFallback
  suffices hgen : ∀ (l : List ℕ) (acc : ℕ),
      (∀ q ∈ l, q < subsets.length) → acc < subsets.length →
      (l.foldl (fun b i =>
        if i ≠ smallIdx ∧ (subsets.getD i []).length < (subsets.getD b []).length then i
        else b) acc) < subsets.length by
    exact hgen (List.range subsets.length) 0 (fun q hq => List.mem_range.mp hq) h
  intro l
  induction l with
  | nil => intro acc _ hacc; exact hacc
  | cons q t ih =>
    intro acc hl hacc
    refine ih _ (fun x hx => hl x (List.mem_cons_of_mem _ hx)) ?_
    dsimp only
    split
    · exact hl q (List.mem_cons_self _ _)
    · exact hacc

/-- The final-cleanup loop preserves the grouping. -/
theorem cleanupLoop_grouping (opts : Config) (fams : List (List Competitor)) :
    ∀ (fuel : ℕ) (s : List (List Competitor)), IsGroupingOf fams s →
      IsGroupingOf fams (cleanupLoop opts fuel s) := by
  intro fuel
  induction fuel with
  | zero =>
    intro s hg
    rw [cleanupLoop]
    exact hg
  | succ n ih =>
    intro s hg
    rw [cleanupLoop]
    split_ifs with h0 h1
    · exact hg
    · have hmem : cleanupSmall opts s ∈ s := by
        have := cleanupSmall_mem opts s h0
        exact (List.mem_filter.mp this).1
      have hidx : cleanupSmallIdx opts s < s.length := by
        unfold cleanupSmallIdx
        exact List.findIdx_lt_length_of_exists ⟨cleanupSmall opts s, hmem, by simp⟩
      have hval : s.getD (cleanupSmallIdx opts s) [] = cleanupSmall opts s := by
        rw [List.getD_eq_getElem _ _ hidx]
        have := @List.findIdx_getElem _ (fun x => x = cleanupSmall opts s) s
          (by exact hidx)
        simpa using this
      have hbest : cleanupBest opts s < s.length := by
        unfold cleanupBest
        rcases hb : bestCleanupMerge opts s (cleanupSmallIdx opts s)
            (cleanupSmall opts s).length with _ | i
        · exact cleanupFallback_lt s _ (by omega)
        · exact (bestCleanupMerge_bounds opts s _ _ hb).1
      refine ih _ ?_
      have hmerge := hg.merge hbest hidx h1
      unfold mergeInto at hmerge
      rw [hval] at hmerge
      exact hmerge
    · exact hg

/-- The post-processing tail preserves the grouping. -/
theorem clusteringPost_grouping (opts : Config) (fams s0 out : List (List Competitor))
    (hg : IsGroupingOf fams s0) (h : clusteringPost opts fams s0 = some out) :
    IsGroupingOf fams out := by
  unfold clusteringPost at h
  rcases hm : mergeExcessLoop opts s0.length s0 with _ | s1
  · rw [hm] at h
    cases h
  · rw [hm] at h
    dsimp only at h
    have hg1 := mergeExcessLoop_grouping opts fams s0.length s0 s1 hg hm
    rcases hr : (if (s1.length : ℤ) = opts.maxSubsets then rebalance opts fams s1 else some s1)
        with _ | s2
    · rw [hr] at h
      cases h
    · rw [hr] at h
      cases h
      have hg2 : IsGroupingOf fams s2 := by
        split_ifs at hr with hc
        · exact rebalance_grouping opts fams s1 s2 hg1 hr
        · cases hr
          exact hg1
      exact cleanupLoop_grouping opts fams s2.length s2 hg2

/-- The k-means++ loop only ever appends centers. -/
theorem kmeansppLoop_length (ff : List FamFeat) :
    ∀ (k : ℕ) (g : RandGen) (centers : List Center),
      centers.length ≤ (kmeansppLoop ff k g centers).1.length := by
  intro k
  induction k with
  | zero => intro g centers; exact Nat.le_refl _
  | succ n ih =>
    intro g centers
    rw [kmeansppLoop]
    refine Nat.le_trans ?_ (ih _ _)
    rw [List.length_append]
    omega

/-- The seeding always produces at least one center — the first seed is
pushed before the count is consulted. -/
theorem initCenters_pos (ff : List FamFeat) (k : ℤ) (g : RandGen) :
    0 < (initCenters ff k g).1.length := by
  have he : (initCenters ff k g).1 = (kmeansppLoop ff (k - 1).toNat (randNext g).2
      [⟨(ff.getD (jsFloorNat ((randNext g).1 * (ff.length : ℚ))) ⟨[], []⟩).features, []⟩]).1 :=
    rfl
  rw [he]
  have := kmeansppLoop_length ff (k - 1).toNat (randNext g).2
    [⟨(ff.getD (jsFloorNat ((randNext g).1 * (ff.length : ℚ))) ⟨[], []⟩).features, []⟩]
  simp only [List.length_cons, List.length_nil] at this
  omega

/-- The family features carry exactly the families, in order. -/
theorem createFamilyFeatures_map (families : List (List Competitor))
    (all : List Competitor) :
    (createFamilyFeatures families all).map (fun f => f.family) = families := by
  unfold createFamilyFeatures
  rw [List.map_map]
  conv_rhs => rw [← List.map_id families]
  apply List.map_congr_left
  intro fam _
  rfl

/-- The clustering pipeline on non-empty input returns a grouping of the
guardian families: every output group is a concatenation of whole families,
and exactly the input families are used. -/
theorem solveClusteringSubsets_grouping (cs : List Competitor) (o : PartitionOptions)
    (g : RandGen) (fuel : ℕ) (subsets : List (List Competitor))
    (h : solveClusteringSubsets cs o g fuel = some subsets) :
    IsGroupingOf (createGuardianFamilies cs) subsets := by
  unfold solveClusteringSubsets at h
  rcases ha : adjustClusterSizes (clusterSetup cs o g).1 (clusterSetup cs o g).2.2.1
      (clusterSetup cs o g).2.2.2.1 (clusterSetup cs o g).2.2.2.2 fuel with _ | p
  · rw [ha] at h
    cases h
  · rw [ha] at h
    have hadj := adjustClusterSizes_perm (clusterSetup cs o g).1 (clusterSetup cs o g).2.2.1
      (clusterSetup cs o g).2.2.2.1 (clusterSetup cs o g).2.2.2.2 fuel p.1 p.2 (by rw [ha])
    have hcent : (clusterSetup cs o g).2.2.1 =
        kmeansLoop (createFamilyFeatures (createGuardianFamilies cs) cs)
          (validateAndSanitizeOptions o cs.length) (featureWeightsOf cs) 100
          (initCenters (createFamilyFeatures (createGuardianFamilies cs) cs)
            (computedNumClusters (validateAndSanitizeOptions o cs.length) cs.length
              (createGuardianFamilies cs).length) g).1 := rfl
    have hkm := kmeansLoop_perm (createFamilyFeatures (createGuardianFamilies cs) cs)
      (validateAndSanitizeOptions o cs.length) (featureWeightsOf cs) 99
      (initCenters (createFamilyFeatures (createGuardianFamilies cs) cs)
        (computedNumClusters (validateAndSanitizeOptions o cs.length) cs.length
          (createGuardianFamilies cs).length) g).1
      (initCenters_pos _ _ _)
    have hperm : ((p.1.map Center.members).flatten).Perm
        (createFamilyFeatures (createGuardianFamilies cs) cs) := by
      refine hadj.trans ?_
      rw [hcent, show (100 : ℕ) = 99 + 1 from rfl]
      exact hkm.1
    have hg0 : IsGroupingOf (createGuardianFamilies cs)
        (p.1.map (fun c => (c.members.map (fun m => m.family)).flatten)) := by
      refine ⟨p.1.map (fun c => c.members.map (fun m => m.family)), ?_, ?_⟩
      · rw [List.map_map]
        rfl
      · have he1 : p.1.map (fun c => c.members.map (fun m => m.family)) =
            (p.1.map Center.members).map (List.map (fun m => m.family)) := by
          rw [List.map_map]
          rfl
        rw [he1, ← List.map_flatten]
        have hmp := hperm.map (fun m => FamFeat.family m)
        rw [createFamilyFeatures_map] at hmp
        exact hmp
    have hfam : (clusterSetup cs o g).2.1 = createGuardianFamilies cs := rfl
    rw [hfam] at h
    exact clusteringPost_grouping (clusterSetup cs o g).1 (createGuardianFamilies cs) _
      subsets hg0 h

/-- C1: family atomicity.  For every input with valid guardian references
(distinct ids, every truthy `guardianId` resolving to an input entity that is
itself not a dependent), the greedy MIP solver places a dependent and its
guardian in one common output group, and so does the clustering solver
whenever it returns at all (its redistribution loop has no termination
guarantee): families are moved whole through every stage of both
pipelines. -/
theorem family_atomicity (cs : List Competitor) (o : PartitionOptions)
    (hval : ValidGuardianRefs cs) (hn : 1 ≤ cs.length)
    (hmax : 1 ≤ (mergeWithDefaults o).maxSubsets) (g : RandGen) (fuel : ℕ)
    {d p : Competitor} (hd : d ∈ cs) (hp : p ∈ cs)
    (hdg : d.guardianId = some p.id) (ht : truthyId d.guardianId = true) :
    (∃ grp ∈ (solveMIP cs o).subsets, d ∈ grp ∧ p ∈ grp) ∧
    ∀ res : PartitionResult, solveClustering cs o g fuel = some res →
      ∃ grp ∈ res.subsets, d ∈ grp ∧ p ∈ grp := by
  constructor
  · exact solveMIP_atomicity cs o hval hn hmax hd hp hdg ht
  · intro res hres
    unfold solveClustering at hres
    rw [if_neg (by omega)] at hres
    rcases hs : solveClusteringSubsets cs o g fuel with _ | subsets
    · rw [hs] at hres
      cases hres
    · rw [hs] at hres
      cases hres
      have hgr := solveClusteringSubsets_grouping cs o g fuel subsets hs
      rcases guardian_dependent_same_family cs hval hd hp hdg ht with ⟨fam, hfam, hdf, hpf⟩
      rcases hgr.family_whole hfam with ⟨grp, hgrp, hall⟩
      exact ⟨grp, hgrp, hall d hdf, hall p hpf⟩

/-- C1 witness: a guardian/dependent pair through both algorithms at the
default options. -/
theorem family_atomicity_witness :
    (∃ grp ∈ (solveMIP [wcG, wcD] {}).subsets, wcD ∈ grp ∧ wcG ∈ grp) ∧
    ∀ res : PartitionResult,
      solveClustering [wcG, wcD] {} ⟨fun _ => 0, 0⟩ 10 = some res →
      ∃ grp ∈ res.subsets, wcD ∈ grp ∧ wcG ∈ grp :=
  family_atomicity [wcG, wcD] {} (by decide) (by decide) (by decide) ⟨fun _ => 0, 0⟩ 10
    (by decide) (by decide) (by decide) (by decide)

/-- C2: coverage.  For every non-empty input with valid guardian references,
every input entity lands in exactly one group of the greedy MIP partition
(counted with multiplicity across all groups), and likewise for the
clustering partition whenever the clustering solver returns at all. -/
theorem partition_coverage (cs : List Competitor) (o : PartitionOptions)
    (hval : ValidGuardianRefs cs) (hn : 1 ≤ cs.length)
    (hmax : 1 ≤ (mergeWithDefaults o).maxSubsets) (g : RandGen) (fuel : ℕ)
    {c : Competitor} (hc : c ∈ cs) :
    (((solveMIP cs o).subsets).map (fun s => s.count c)).sum = 1 ∧
    ∀ res : PartitionResult, solveClustering cs o g fuel = some res →
      ((res.subsets).map (fun s => s.count c)).sum = 1 := by
  constructor
  · exact solveMIP_coverage cs o hval hn hmax hc
  · intro res hres
    unfold solveClustering at hres
    rw [if_neg (by omega)] at hres
    rcases hs : solveClusteringSubsets cs o g fuel with _ | subsets
    · rw [hs] at hres
      cases hres
    · rw [hs] at hres
      cases hres
      have hgr := solveClusteringSubsets_grouping cs o g fuel subsets hs
      have hflat : subsets.flatten.Perm cs :=
        hgr.flatten_perm.trans (families_flatten_perm cs hval)
      have hcnt : subsets.flatten.count c = 1 := by
        rw [hflat.count_eq]
        exact List.count_eq_one_of_mem (List.Nodup.of_map _ hval.1) hc
      rw [List.count_flatten] at hcnt
      exact hcnt

/-- C2 witness: exact single placement of a guardian at the default
options. -/
theorem partition_coverage_witness :
    (((solveMIP [wcG, wcD] {}).subsets).map (fun s => s.count wcG)).sum = 1 ∧
    ∀ res : PartitionResult,
      solveClustering [wcG, wcD] {} ⟨fun _ => 0, 0⟩ 10 = some res →
      ((res.subsets).map (fun s => s.count wcG)).sum = 1 :=
  partition_coverage [wcG, wcD] {} (by decide) (by decide) (by decide) ⟨fun _ => 0, 0⟩ 10
    (by decide)

theorem c3_sanitized : validateAndSanitizeOptions c3opts 3 = c3conf := rfl

theorem c3_families : createGuardianFamilies c3cs = [[c3a], [c3b], [c3c]] := by decide

theorem c3_famFeats : createFamilyFeatures [[c3a], [c3b], [c3c]] c3cs = [c3f1, c3f2, c3f3] := by
  norm_num [createFamilyFeatures, encodeCompetitor, uniqVals, featAt, c3cs, c3a, c3b, c3c,
    c3f1, c3f2, c3f3, truthyId, List.range_succ]

theorem c3_numClusters : computedNumClusters c3conf 3 3 = 1 := by
  norm_num [computedNumClusters, jsRound, c3conf]

theorem c3_fw : featureWeightsOf c3cs = ⟨0, 1, 2⟩ := by decide

theorem c3_init : initCenters [c3f1, c3f2, c3f3] 1 c3gen =
    ([⟨[1, 1, 1, 0], []⟩], ⟨fun _ => 0, 1⟩) := by
  norm_num [initCenters, kmeansppLoop, randNext, jsFloorNat, c3gen, c3f1]

theorem c3_assign : assignToClusters [c3f1, c3f2, c3f3] [⟨[1, 1, 1, 0], []⟩] c3conf ⟨0, 1, 2⟩ =
    [⟨[1, 1, 1, 0], [c3f1, c3f2, c3f3]⟩] := by
  norm_num [assignToClusters, addMemberAt, bestClusterIdx, List.enum]

theorem c3_updateOne : updateCenter ⟨[1, 1, 1, 0], [c3f1, c3f2, c3f3]⟩ =
    (⟨[1, 1, 1, 0], [c3f1, c3f2, c3f3]⟩, false) := by
  norm_num [updateCenter, featAt, c3f1, c3f2, c3f3, List.range_succ]

theorem c3_update : updateClusterCenters [⟨[1, 1, 1, 0], [c3f1, c3f2, c3f3]⟩] =
    ([⟨[1, 1, 1, 0], [c3f1, c3f2, c3f3]⟩], false) := by
  simp only [updateClusterCenters, List.map_cons, List.map_nil, List.any_cons, List.any_nil,
    c3_updateOne]
  rfl

theorem c3_kmeans : kmeansLoop [c3f1, c3f2, c3f3] c3conf ⟨0, 1, 2⟩ 100 [⟨[1, 1, 1, 0], []⟩] =
    [⟨[1, 1, 1, 0], [c3f1, c3f2, c3f3]⟩] := by
  rw [show (100 : ℕ) = 99 + 1 from rfl, kmeansLoop, c3_assign, c3_update]
  rfl

theorem c3_setup : clusterSetup c3cs c3opts c3gen =
    (c3conf, [[c3a], [c3b], [c3c]], [⟨[1, 1, 1, 0], [c3f1, c3f2, c3f3]⟩], 1,
      ⟨fun _ => 0, 1⟩) := by
  simp only [clusterSetup]
  rw [show c3cs.length = 3 from rfl, c3_sanitized, c3_families, c3_famFeats,
    show ([[c3a], [c3b], [c3c]] : List (List Competitor)).length = 3 from rfl,
    c3_numClusters, c3_fw, c3_init]
  rw [show (([⟨[1, 1, 1, 0], []⟩], (⟨fun _ => 0, 1⟩ : RandGen)) :
      List Center × RandGen).1 = [⟨[1, 1, 1, 0], []⟩] from rfl, c3_kmeans]

theorem c3_shuffle : shuffle [c3f1, c3f2, c3f3] ⟨fun _ => 0, 1⟩ =
    ([c3f2, c3f3, c3f1], ⟨fun _ => 0, 3⟩) := by
  norm_num [shuffle, shuffleLoop, listSwap, randNext, jsFloorNat]

theorem c3_classify : classifyClusters c3conf [⟨[1, 1, 1, 0], [c3f1, c3f2, c3f3]⟩]
    ⟨fun _ => 0, 1⟩ = (c3valid, c3redis, ⟨fun _ => 0, 3⟩) := by
  unfold classifyClusters
  rw [List.foldl_cons, List.foldl_nil]
  unfold classifyStep
  rw [if_neg (by decide), if_neg (by decide), if_pos (by decide), c3_shuffle]
  refine Prod.ext ?_ (Prod.ext ?_ ?_)
  · decide
  · decide
  · rfl

theorem c3_redisIter : redisIter c3conf 1 c3state = some c3state := by decide

theorem c3_loop : ∀ fuel : ℕ, redistributeLoop c3conf 1 fuel c3state = none := by
  intro fuel
  induction fuel with
  | zero =>
    rw [redistributeLoop, if_neg (by decide)]
  | succ n ih =>
    rw [redistributeLoop, if_neg (by decide), c3_redisIter]
    exact ih

theorem c3_adjust : ∀ fuel : ℕ,
    adjustClusterSizes c3conf [⟨[1, 1, 1, 0], [c3f1, c3f2, c3f3]⟩] 1 ⟨fun _ => 0, 1⟩ fuel =
      none := by
  intro fuel
  unfold adjustClusterSizes
  rw [c3_classify]
  rw [show (if (1 : ℤ) = 0 then c3conf.maxSubsets else 1) = 1 from by norm_num]
  rw [show (((c3valid, c3redis, (⟨fun _ => 0, 3⟩ : RandGen)).1,
      (c3valid, c3redis, (⟨fun _ => 0, 3⟩ : RandGen)).2.1) :
      List Center × List FamFeat) = c3state from rfl]
  rw [c3_loop fuel]

/-- C3 (refuted): the redistribution pass of `adjustClusterSizes` does NOT
terminate on every input.  On three competitors with identical attributes
(distinct ids, no guardian references) and options
`{minSubsetSize: 2, maxSubsetSize: 2}`, the pipeline reaches a state with one
valid cluster at the size cap and one leftover family: nothing fits, the
cluster count is at the cap so no new cluster may open, and the forced
placement into the smallest cluster is unreachable because the source guards
it behind `validCenters.length < effectiveMaxSubsets` — one loop iteration
returns the state unchanged, so the loop never exits, whatever fuel it is
given. -/
theorem redistribute_termination_fails :
    redisIter c3conf 1 c3state = some c3state ∧
    ∀ fuel : ℕ, solveClusteringSubsets c3cs c3opts c3gen fuel = none := by
  refine ⟨c3_redisIter, ?_⟩
  intro fuel
  unfold solveClusteringSubsets
  rw [c3_setup]
  dsimp only
  rw [c3_adjust fuel]

/-! ## C7: single-entity input -/

/-- All three sanitized size bounds are at least 2. -/
theorem sanitize_size_bounds (c : Config) (n : ℕ) :
    2 ≤ (sanitizeSteps c n).minSubsetSize ∧ 2 ≤ (sanitizeSteps c n).maxSubsetSize ∧
    (sanitizeSteps c n).minSubsetSize ≤ (sanitizeSteps c n).preferredSubsetSize ∧
    2 ≤ (sanitizeSteps c n).preferredSubsetSize := by
  unfold sanitizeSteps
  dsimp only
  split_ifs <;> omega

/-- A single entity without guardian reference forms one singleton family. -/
theorem c7_families (e : Competitor) (hg : e.guardianId = none) :
    createGuardianFamilies [e] = [[e]] := by
  simp [createGuardianFamilies, cgfStep, isGuardianKey, isDependentKey, dependentsOf,
    truthyId, hg]

/-- The single singleton family encodes to the four-coordinate vector
`[1, 1, 1, 0]` (its own gender, age and equipment one-hot plus a clear
guardian flag). -/
theorem c7_feats (e : Competitor) (hg : e.guardianId = none) :
    createFamilyFeatures [[e]] [e] = [⟨[e], [1, 1, 1, 0]⟩] := by
  norm_num [createFamilyFeatures, encodeCompetitor, uniqVals, featAt, truthyId, hg,
    List.range_succ]

/-- For one entity the cluster-count estimate evaluates to 0: one needed
cluster but at most `⌊1/minSize⌋ = 0` clusters allowed. -/
theorem c7_num (opts : Config) (hmin : 2 ≤ opts.minSubsetSize)
    (hmax2 : 2 ≤ opts.maxSubsetSize) (hpref : 2 ≤ opts.preferredSubsetSize)
    (hms : 1 ≤ opts.maxSubsets) : computedNumClusters opts 1 1 = 0 := by
  unfold computedNumClusters jsRound
  push_cast
  have hfl : ⌊(1 : ℚ) / (opts.minSubsetSize : ℚ)⌋ = 0 := by
    rw [Int.floor_eq_zero_iff]
    constructor
    · positivity
    · rw [div_lt_one (by exact_mod_cast (by omega : (0 : ℤ) < opts.minSubsetSize))]
      exact_mod_cast (by omega : (1 : ℤ) < opts.minSubsetSize)
  have hcl : ⌈(1 : ℚ) / (opts.maxSubsetSize : ℚ)⌉ = 1 := by
    have hpos : (0 : ℚ) < (opts.maxSubsetSize : ℚ) := by
      exact_mod_cast (by omega : (0 : ℤ) < opts.maxSubsetSize)
    have h1 : (0 : ℚ) < 1 / (opts.maxSubsetSize : ℚ) := by positivity
    have h2 : (1 : ℚ) / (opts.maxSubsetSize : ℚ) ≤ 1 := by
      rw [div_le_one hpos]
      exact_mod_cast (by omega : (1 : ℤ) ≤ opts.maxSubsetSize)
    have ha : ⌈(1 : ℚ) / (opts.maxSubsetSize : ℚ)⌉ ≤ 1 := by
      refine Int.ceil_le.mpr ?_
      exact_mod_cast h2
    have hb : 0 < ⌈(1 : ℚ) / (opts.maxSubsetSize : ℚ)⌉ := Int.ceil_pos.mpr h1
    omega
  have hjr0 : 0 ≤ ⌊(1 : ℚ) / (opts.preferredSubsetSize : ℚ) + 1 / 2⌋ := by
    refine Int.floor_nonneg.mpr ?_
    have : (0 : ℚ) ≤ 1 / (opts.preferredSubsetSize : ℚ) := by positivity
    linarith
  have hjr1 : ⌊(1 : ℚ) / (opts.preferredSubsetSize : ℚ) + 1 / 2⌋ ≤ 1 := by
    have hle : (1 : ℚ) / (opts.preferredSubsetSize : ℚ) + 1 / 2 < 2 := by
      have hpos : (0 : ℚ) < (opts.preferredSubsetSize : ℚ) := by
        exact_mod_cast (by omega : (0 : ℤ) < opts.preferredSubsetSize)
      have : (1 : ℚ) / (opts.preferredSubsetSize : ℚ) ≤ 1 := by
        rw [div_le_one hpos]
        exact_mod_cast (by omega : (1 : ℤ) ≤ opts.preferredSubsetSize)
      linarith
    have := Int.floor_lt.mpr (by exact_mod_cast hle :
      (1 : ℚ) / (opts.preferredSubsetSize : ℚ) + 1 / 2 < ((2 : ℤ) : ℚ))
    omega
  rw [hfl, hcl]
  omega

/-- With one family and one (member-free) center whose features agree with
the family's wherever defined, k-means converges in its first round: the
single family is assigned to the single center and no coordinate moves. -/
theorem kmeans_single (f0 : FamFeat) (opts : Config) (fw : FeatureWeights) (F : List ℚ)
    (hF : ∀ i, i < F.length → featAt F i = featAt f0.features i) :
    ∃ nf : List ℚ, kmeansLoop [f0] opts fw 100 [⟨F, []⟩] = [⟨nf, [f0]⟩] := by
  have hassign : assignToClusters [f0] [⟨F, []⟩] opts fw = [⟨F, [f0]⟩] := by
    simp [assignToClusters, addMemberAt, bestClusterIdx, List.enum]
  have hupd : updateCenter ⟨F, [f0]⟩ =
      (⟨(List.range F.length).map (fun i =>
        (featAt f0.features i + 0) / ((1 : ℕ) : ℚ)), [f0]⟩, false) := by
    unfold updateCenter
    rw [if_neg (by simp)]
    have hnf : (List.range (Center.features ⟨F, [f0]⟩).length).map (fun i =>
        ((Center.members ⟨F, [f0]⟩).map (fun m => featAt m.features i)).sum /
          (((Center.members ⟨F, [f0]⟩).length : ℕ) : ℚ)) =
        (List.range F.length).map (fun i =>
          (featAt f0.features i + 0) / ((1 : ℕ) : ℚ)) := by
      simp
    refine Prod.ext ?_ ?_
    · dsimp only
      rw [hnf]
    · dsimp only
      rw [hnf]
      simp only [List.any_eq_false, decide_eq_true_eq]
      intro i hi
      rw [List.mem_range] at hi
      rw [featAt_map_range, if_pos hi, hF i hi]
      simp
  refine ⟨(List.range F.length).map (fun i =>
    (featAt f0.features i + 0) / ((1 : ℕ) : ℚ)), ?_⟩
  rw [show (100 : ℕ) = 99 + 1 from rfl, kmeansLoop, hassign,
    show updateClusterCenters [⟨F, [f0]⟩] =
      ([⟨(List.range F.length).map (fun i =>
        (featAt f0.features i + 0) / ((1 : ℕ) : ℚ)), [f0]⟩], false) from by
      simp [updateClusterCenters, hupd]]
  rfl

/-- The classification pass dissolves the single (undersized) cluster into
the redistribution list. -/
theorem c7_classify (opts : Config) (hmin : 2 ≤ opts.minSubsetSize)
    (hmax2 : 2 ≤ opts.maxSubsetSize) (e : Competitor) (nf : List ℚ) (g2 : RandGen) :
    classifyClusters opts [⟨nf, [⟨[e], [1, 1, 1, 0]⟩]⟩] g2 =
      ([], [⟨[e], [1, 1, 1, 0]⟩], g2) := by
  unfold classifyClusters
  rw [List.foldl_cons, List.foldl_nil]
  unfold classifyStep
  have ht : clusterTotal ⟨nf, [⟨[e], [1, 1, 1, 0]⟩]⟩ = 1 := by
    simp [clusterTotal]
  rw [if_neg (by simp), if_neg (by
      rw [ht]
      push_cast
      omega),
    if_neg (by
      rw [ht]
      push_cast
      omega)]
  rfl

/-- One redistribution round over an empty cluster list and one pending
family opens a new cluster with that family. -/
theorem c7_redisIter (opts : Config) (hmax2 : 2 ≤ opts.maxSubsetSize)
    (hpref : 2 ≤ opts.preferredSubsetSize) (hms : 1 ≤ opts.maxSubsets)
    (f0 : FamFeat) (hf1 : f0.family.length = 1) :
    redisIter opts opts.maxSubsets ([], [f0]) =
      some ([⟨newClusterCentroid [f0], [f0]⟩], []) := by
  unfold redisIter
  rw [show redisPass1 opts ([], [f0]).1 ([], [f0]).2 = ([], [f0], false) from rfl]
  rw [if_pos (by
    refine ⟨rfl, by simp, ?_⟩
    simp only [List.length_nil]
    push_cast
    omega)]
  have hfill : fillNewCluster opts [f0] [] 0 = ([f0], []) := by
    rw [fillNewCluster]
    rw [if_pos (by push_cast; omega), if_pos (by rw [hf1]; push_cast; omega)]
    rfl
  rw [show (([], [f0], false) : List Center × List FamFeat × Bool).2.1 = [f0] from rfl, hfill]
  rw [if_pos (by simp)]
  unfold redisPass2
  rw [if_neg (by simp)]
  rfl

/-- The redistribution loop is done as soon as nothing is pending. -/
theorem redistributeLoop_done (opts : Config) (em : ℤ) (v : List Center) :
    ∀ f : ℕ, redistributeLoop opts em f (v, []) = some v := by
  intro f
  cases f <;> rw [redistributeLoop] <;> simp

/-- The whole redistribution of the single family, for any positive fuel. -/
theorem c7_redistribute (opts : Config) (hmax2 : 2 ≤ opts.maxSubsetSize)
    (hpref : 2 ≤ opts.preferredSubsetSize) (hms : 1 ≤ opts.maxSubsets)
    (f0 : FamFeat) (hf1 : f0.family.length = 1) (fuel : ℕ) (hfuel : 1 ≤ fuel) :
    redistributeLoop opts opts.maxSubsets fuel ([], [f0]) =
      some [⟨newClusterCentroid [f0], [f0]⟩] := by
  obtain ⟨n, rfl⟩ : ∃ n, fuel = n + 1 := ⟨fuel - 1, by omega⟩
  rw [redistributeLoop, if_neg (by simp), c7_redisIter opts hmax2 hpref hms f0 hf1]
  exact redistributeLoop_done opts opts.maxSubsets _ n

/-- The final cleanup on the single (undersized) group: the only merge
candidate is the group itself, so the loop stops immediately, accepting the
size violation silently. -/
theorem c7_cleanup (opts : Config) (hmin : 2 ≤ opts.minSubsetSize) (e : Competitor) :
    cleanupLoop opts ([[e]] : List (List Competitor)).length [[e]] = [[e]] := by
  have hfU : ([[e]] : List (List Competitor)).filter
      (fun s => (s.length : ℤ) < opts.minSubsetSize) = [[e]] := by
    rw [List.filter_cons, if_pos (by
      simp only [List.length_cons, List.length_nil, decide_eq_true_eq]
      push_cast
      omega)]
    rfl
  have hsmall : cleanupSmall opts [[e]] = [e] := by
    unfold cleanupSmall
    rw [hfU]
    rfl
  have hsidx : cleanupSmallIdx opts [[e]] = 0 := by
    unfold cleanupSmallIdx
    rw [hsmall]
    simp [List.findIdx_cons]
  have hbest : cleanupBest opts [[e]] = 0 := by
    unfold cleanupBest
    rw [hsidx, hsmall]
    rw [show bestCleanupMerge opts [[e]] 0 [e].length = none from by
      unfold bestCleanupMerge
      simp [List.range_succ]]
    unfold cleanupFallback
    simp [List.range_succ]
  rw [show ([[e]] : List (List Competitor)).length = 0 + 1 from rfl, cleanupLoop]
  rw [if_neg (by rw [hfU]; simp), if_neg (by rw [hbest, hsidx]; simp)]

/-- The post-processing of the single one-entity group returns it
unchanged. -/
theorem c7_post (opts : Config) (hmin : 2 ≤ opts.minSubsetSize)
    (hms : 1 ≤ opts.maxSubsets) (e : Competitor) :
    clusteringPost opts [[e]] [[e]] = some [[e]] := by
  unfold clusteringPost
  rw [show mergeExcessLoop opts ([[e]] : List (List Competitor)).length [[e]] =
      some [[e]] from by
    rw [show ([[e]] : List (List Competitor)).length = 0 + 1 from rfl, mergeExcessLoop,
      if_neg (by
        simp only [List.length_cons, List.length_nil]
        push_cast
        omega)]]
  dsimp only
  by_cases h1 : (([[e]] : List (List Competitor)).length : ℤ) = opts.maxSubsets
  · rw [if_pos h1]
    have hreb : rebalance opts [[e]] [[e]] = some [[e]] := by
      unfold rebalance
      rw [if_pos (Or.inr (by
        rw [show ([[e]] : List (List Competitor)).filter
            (fun s => (s.length : ℤ) < opts.minSubsetSize) = [[e]] from by
          rw [List.filter_cons, if_pos (by
            simp only [List.length_cons, List.length_nil, decide_eq_true_eq]
            push_cast
            omega)]
          rfl]
        simp))]
      rw [show ([[e]] : List (List Competitor)).mergeSort
          (fun a b => b.length ≤ a.length) = [[e]] from
        List.perm_singleton.mp (List.mergeSort_perm _ _)]
      rw [List.foldl_cons, List.foldl_nil]
      show placeFamilyRebalance opts _ [] [e] = some [[e]]
      unfold placeFamilyRebalance rebalanceScan
      rw [if_pos (by simp), if_pos (by
        simp only [List.length_nil]
        push_cast
        omega)]
      rfl
    rw [hreb]
    dsimp only
    exact congrArg some (c7_cleanup opts hmin e)
  · rw [if_neg h1]
    dsimp only
    exact congrArg some (c7_cleanup opts hmin e)

/-- The clustering pipeline on one guardian-free entity returns the single
singleton group, for every random stream and any positive fuel. -/
theorem c7_subsets (e : Competitor) (o : PartitionOptions) (g : RandGen) (fuel : ℕ)
    (hg : e.guardianId = none) (hmax : 1 ≤ (mergeWithDefaults o).maxSubsets)
    (hfuel : 1 ≤ fuel) :
    solveClusteringSubsets [e] o g fuel = some [[e]] := by
  rcases sanitize_size_bounds (mergeWithDefaults o) 1 with ⟨hmin0, hmax20, _, hpref0⟩
  have hmin : 2 ≤ (validateAndSanitizeOptions o 1).minSubsetSize := hmin0
  have hmax2 : 2 ≤ (validateAndSanitizeOptions o 1).maxSubsetSize := hmax20
  have hpref : 2 ≤ (validateAndSanitizeOptions o 1).preferredSubsetSize := hpref0
  have hms : 1 ≤ (validateAndSanitizeOptions o 1).maxSubsets := by
    unfold validateAndSanitizeOptions
    rw [(sanitizeSteps_facts _ _).1]
    exact hmax
  have hnum : computedNumClusters (validateAndSanitizeOptions o 1) 1 1 = 0 :=
    c7_num _ hmin hmax2 hpref hms
  have hF : ∀ i, i < (([⟨[e], [1, 1, 1, 0]⟩] : List FamFeat).getD
      (jsFloorNat ((randNext g).1 * (([⟨[e], [1, 1, 1, 0]⟩] : List FamFeat).length : ℚ)))
      ⟨[], []⟩).features.length →
      featAt (([⟨[e], [1, 1, 1, 0]⟩] : List FamFeat).getD
        (jsFloorNat ((randNext g).1 * (([⟨[e], [1, 1, 1, 0]⟩] : List FamFeat).length : ℚ)))
        ⟨[], []⟩).features i =
      featAt (FamFeat.features ⟨[e], [1, 1, 1, 0]⟩) i := by
    rcases hix : jsFloorNat ((randNext g).1 *
        (([⟨[e], [1, 1, 1, 0]⟩] : List FamFeat).length : ℚ)) with _ | n
    · intro i _
      rfl
    · intro i hi
      simp at hi
  obtain ⟨nf, hkm⟩ := kmeans_single ⟨[e], [1, 1, 1, 0]⟩ (validateAndSanitizeOptions o 1)
    (featureWeightsOf [e])
    (([⟨[e], [1, 1, 1, 0]⟩] : List FamFeat).getD
      (jsFloorNat ((randNext g).1 * (([⟨[e], [1, 1, 1, 0]⟩] : List FamFeat).length : ℚ)))
      ⟨[], []⟩).features hF
  have hsetup : clusterSetup [e] o g =
      (validateAndSanitizeOptions o 1, [[e]], [⟨nf, [⟨[e], [1, 1, 1, 0]⟩]⟩], 0,
        (randNext g).2) := by
    simp only [clusterSetup]
    rw [show ([e] : List Competitor).length = 1 from rfl, c7_families e hg, c7_feats e hg,
      show ([[e]] : List (List Competitor)).length = 1 from rfl, hnum]
    rw [show initCenters [⟨[e], [1, 1, 1, 0]⟩] 0 g =
        ([⟨(([⟨[e], [1, 1, 1, 0]⟩] : List FamFeat).getD
          (jsFloorNat ((randNext g).1 * (([⟨[e], [1, 1, 1, 0]⟩] : List FamFeat).length : ℚ)))
          ⟨[], []⟩).features, []⟩], (randNext g).2) from rfl]
    rw [show (([⟨(([⟨[e], [1, 1, 1, 0]⟩] : List FamFeat).getD
        (jsFloorNat ((randNext g).1 * (([⟨[e], [1, 1, 1, 0]⟩] : List FamFeat).length : ℚ)))
        ⟨[], []⟩).features, []⟩], (randNext g).2) :
        List Center × RandGen).1 = [⟨(([⟨[e], [1, 1, 1, 0]⟩] : List FamFeat).getD
        (jsFloorNat ((randNext g).1 * (([⟨[e], [1, 1, 1, 0]⟩] : List FamFeat).length : ℚ)))
        ⟨[], []⟩).features, []⟩] from rfl, hkm]
  have hadj : adjustClusterSizes (validateAndSanitizeOptions o 1)
      [⟨nf, [⟨[e], [1, 1, 1, 0]⟩]⟩] 0 (randNext g).2 fuel =
      some ([⟨newClusterCentroid [⟨[e], [1, 1, 1, 0]⟩], [⟨[e], [1, 1, 1, 0]⟩]⟩],
        (randNext g).2) := by
    unfold adjustClusterSizes
    rw [c7_classify _ hmin hmax2 e nf _]
    rw [if_pos rfl]
    rw [show ((([], [⟨[e], [1, 1, 1, 0]⟩], (randNext g).2) :
        List Center × List FamFeat × RandGen).1,
        (([], [⟨[e], [1, 1, 1, 0]⟩], (randNext g).2) :
        List Center × List FamFeat × RandGen).2.1) = (([] : List Center),
        [(⟨[e], [1, 1, 1, 0]⟩ : FamFeat)]) from rfl]
    rw [c7_redistribute _ hmax2 hpref hms ⟨[e], [1, 1, 1, 0]⟩ (by rfl) fuel hfuel]
  unfold solveClusteringSubsets
  rw [hsetup]
  dsimp only
  rw [hadj]
  dsimp only
  rw [show ([⟨newClusterCentroid [⟨[e], [1, 1, 1, 0]⟩], [⟨[e], [1, 1, 1, 0]⟩]⟩] :
      List Center).map (fun c => (c.members.map (fun m => m.family)).flatten) =
      [[e]] from by simp]
  exact c7_post _ hmin hms e

/-- C7: single-entity input.  For one entity without guardian reference (and
any configured cap of at least one group), both algorithms succeed and return
exactly one group holding that entity: the greedy MIP directly, and the
clustering pipeline for every random stream and any positive redistribution
fuel — even though the computed cluster count `k` evaluates to 0 (the seeding
still pushes its first center unconditionally) and the group's size 1 is
below the sanitized minimum subset size of at least 2; the violation is
accepted silently rather than raised. -/
theorem single_entity_succeeds (e : Competitor) (o : PartitionOptions) (g : RandGen)
    (fuel : ℕ) (hg : e.guardianId = none)
    (hmax : 1 ≤ (mergeWithDefaults o).maxSubsets) (hfuel : 1 ≤ fuel) :
    (solveMIP [e] o).subsets = [[e]] ∧
    (∃ res : PartitionResult, solveClustering [e] o g fuel = some res ∧
      res.subsets = [[e]]) ∧
    computedNumClusters (validateAndSanitizeOptions o 1) 1 1 = 0 ∧
    1 < (validateAndSanitizeOptions o 1).minSubsetSize := by
  have hbounds := sanitize_size_bounds (mergeWithDefaults o) 1
  have hms : 1 ≤ (validateAndSanitizeOptions o 1).maxSubsets := by
    unfold validateAndSanitizeOptions
    rw [(sanitizeSteps_facts _ _).1]
    exact hmax
  refine ⟨solveMIP_single e o hg hmax, ?_, ?_, ?_⟩
  · refine ⟨createPartitionResult [[e]] (validateAndSanitizeOptions o 1), ?_, rfl⟩
    unfold solveClustering
    rw [if_neg (by simp), c7_subsets e o g fuel hg hmax hfuel]
    rfl
  · exact c7_num _ hbounds.1 hbounds.2.1 hbounds.2.2.2 hms
  · have h1 : 2 ≤ (validateAndSanitizeOptions o 1).minSubsetSize := hbounds.1
    omega

/-- C7 witness: the single-entity guarantee at the default options, the
all-zero stream and fuel 1. -/
theorem single_entity_succeeds_witness :
    (solveMIP [wc7] {}).subsets = [[wc7]] ∧
    (∃ res : PartitionResult, solveClustering [wc7] {} ⟨fun _ => 0, 0⟩ 1 = some res ∧
      res.subsets = [[wc7]]) ∧
    computedNumClusters (validateAndSanitizeOptions {} 1) 1 1 = 0 ∧
    1 < (validateAndSanitizeOptions {} 1).minSubsetSize :=
  single_entity_succeeds wc7 {} ⟨fun _ => 0, 0⟩ 1 (by decide) (by decide) (by decide)
